import Mathlib

/-!
The udell library: universal double ended linked list

A shallow embedding of `dev/src/udell.c` and `dev/include/udell.h`.

Pointers are natural numbers and `0` is the null pointer.  Links and lists are typed
objects, so the memory holds one table of `udellLink` records and one table of
`udellList` records, both indexed by address, next to the process wide `errno` slot.
A C function becomes a function from a memory to `Option (return value × memory)`;
`none` stands for a dereference of the null pointer (undefined behaviour in C).
`uint32_t` fields are naturals reduced modulo `2^32` where the code does arithmetic on
them, `int32_t` fields are integers, and a comparison between the two converts the
signed operand to unsigned as C does.
-/

namespace Udell

/-! ## Constants of `udell.h` -/

def UDELL_PASS : Int := 1
def UDELL_FAIL : Int := 0
def UDELL_NOLIMIT : Int := -1
def UDELL_NOLIST : Nat := 0
def UDELL_ERROR_BASE : Int := 1000
def UDELL_ENOERROR : Int := UDELL_ERROR_BASE + 0
def UDELL_ESIZE : Int := UDELL_ERROR_BASE + 1
def UDELL_EHEAD : Int := UDELL_ERROR_BASE + 2
def UDELL_ETAIL : Int := UDELL_ERROR_BASE + 3
def UDELL_EEMPTY : Int := UDELL_ERROR_BASE + 4
def UDELL_EINVPTR : Int := UDELL_ERROR_BASE + 5
def UDELL_ELISTFULL : Int := UDELL_ERROR_BASE + 6
def UDELL_EINVINPUT : Int := UDELL_ERROR_BASE + 7
def UDELL_EBADLIST : Int := UDELL_ERROR_BASE + 8

/-! ## Data model -/

/-- The record `struct udellLink`. -/
structure udellLink where
  pPrev : Nat
  pNext : Nat
  pList : Nat
  payloadSize : Nat
  dataSize : Nat
  pData : Nat
deriving DecidableEq, Repr

/-- The record `struct udellList`. -/
structure udellList where
  pHead : Nat
  pTail : Nat
  maxLen : Int
  len : Nat
deriving DecidableEq, Repr

/-- The memory: every link object, every list object and `errno`. -/
structure Mem where
  link : Nat → udellLink
  list : Nat → udellList
  errno : Int

/-- Size of the `uint32_t` range. -/
def U32 : Nat := 2 ^ 32

/-- Conversion of an `int32_t` to `uint32_t` (the usual arithmetic conversion). -/
def toU32 (i : Int) : Nat := (i % 4294967296).toNat

/-- Conversion of a `uint32_t` to `int` (two's complement), as in `return list->len`. -/
def toI32 (n : Nat) : Int := if n < 2147483648 then (n : Int) else (n : Int) - 4294967296

/-! ## Field writes -/

namespace Mem

/-- The write `a->pPrev = v`. -/
def setPrev (m : Mem) (a v : Nat) : Mem :=
  { m with link := fun b => if b = a then { m.link a with pPrev := v } else m.link b }

/-- The write `a->pNext = v`. -/
def setNext (m : Mem) (a v : Nat) : Mem :=
  { m with link := fun b => if b = a then { m.link a with pNext := v } else m.link b }

/-- The write `a->pList = v`. -/
def setList (m : Mem) (a v : Nat) : Mem :=
  { m with link := fun b => if b = a then { m.link a with pList := v } else m.link b }

/-- The write `a->pData = v`. -/
def setData (m : Mem) (a v : Nat) : Mem :=
  { m with link := fun b => if b = a then { m.link a with pData := v } else m.link b }

/-- The write `a->payloadSize = v`. -/
def setPayloadSize (m : Mem) (a v : Nat) : Mem :=
  { m with link := fun b => if b = a then { m.link a with payloadSize := v } else m.link b }

/-- The write `a->dataSize = v`. -/
def setDataSize (m : Mem) (a v : Nat) : Mem :=
  { m with link := fun b => if b = a then { m.link a with dataSize := v } else m.link b }

/-- The write `l->pHead = v`. -/
def setHead (m : Mem) (l v : Nat) : Mem :=
  { m with list := fun k => if k = l then { m.list l with pHead := v } else m.list k }

/-- The write `l->pTail = v`. -/
def setTail (m : Mem) (l v : Nat) : Mem :=
  { m with list := fun k => if k = l then { m.list l with pTail := v } else m.list k }

/-- The write `l->len = v`. -/
def setLen (m : Mem) (l v : Nat) : Mem :=
  { m with list := fun k => if k = l then { m.list l with len := v } else m.list k }

/-- The write `l->maxLen = v`. -/
def setMaxLen (m : Mem) (l : Nat) (v : Int) : Mem :=
  { m with list := fun k => if k = l then { m.list l with maxLen := v } else m.list k }

/-- The write `errno = e`. -/
def setErrno (m : Mem) (e : Int) : Mem := { m with errno := e }

end Mem

/-- The failure exit shared by all functions: `errno = e; return UDELL_FAIL;`. -/
def failWith (m : Mem) (e : Int) : Option (Int × Mem) := some (UDELL_FAIL, m.setErrno e)

/-- The full-list test `(list->maxLen != UDELL_NOLIMIT) && (list->len + 1 > list->maxLen)`. -/
def isFull (L : udellList) : Prop :=
  L.maxLen ≠ UDELL_NOLIMIT ∧ (L.len + 1) % U32 > toU32 L.maxLen

instance (L : udellList) : Decidable (isFull L) := by unfold isFull; infer_instance

/-! ## The functions of `udell.c` -/

/-- `int LinkInit(udellLink *link, void *data, uint32_t payloadSize, uint32_t dataSize)`. -/
def LinkInit (m : Mem) (link data payloadSize dataSize : Nat) : Option (Int × Mem) :=
  if link = 0 then failWith m UDELL_EINVPTR
  else if dataSize > payloadSize then failWith m UDELL_ESIZE
  else
    let m := m.setPrev link 0
    let m := m.setNext link 0
    let m := m.setData link data
    let m := m.setPayloadSize link payloadSize
    let m := m.setDataSize link dataSize
    let m := m.setList link UDELL_NOLIST
    some (UDELL_PASS, m)

/-- `int ListInit(udellList *list)`. -/
def ListInit (m : Mem) (list : Nat) : Option (Int × Mem) :=
  if list = 0 then failWith m UDELL_EINVPTR
  else
    let m := m.setHead list 0
    let m := m.setTail list 0
    let m := m.setLen list 0
    let m := m.setMaxLen list UDELL_NOLIMIT
    some (UDELL_PASS, m)

/-- `int ListSetMaxLinks(udellList *list, int32_t max)`.  The test `list->len >= max`
compares a `uint32_t` with an `int32_t`, so `max` is converted to unsigned. -/
def ListSetMaxLinks (m : Mem) (list : Nat) (max : Int) : Option (Int × Mem) :=
  if list = 0 then failWith m UDELL_EINVPTR
  else if max < UDELL_NOLIMIT then failWith m UDELL_EINVINPUT
  else if (m.list list).len ≥ toU32 max then failWith m UDELL_ESIZE
  else some (UDELL_PASS, m.setMaxLen list max)

/-- `int ListGetMaxLinks(udellList *list)`. -/
def ListGetMaxLinks (m : Mem) (list : Nat) : Int × Mem :=
  if list = 0 then (UDELL_FAIL, m.setErrno UDELL_EINVPTR)
  else ((m.list list).maxLen, m)

/-- `udellList* LinkGetList(udellLink *link)`. -/
def LinkGetList (m : Mem) (link : Nat) : Nat × Mem :=
  if link = 0 then (0, m.setErrno UDELL_EINVPTR)
  else if (m.link link).pList = UDELL_NOLIST then (0, m.setErrno UDELL_EEMPTY)
  else ((m.link link).pList, m)

/-- `int ListInsertFirst(udellList *list, udellLink *link)`. -/
def ListInsertFirst (m : Mem) (list link : Nat) : Option (Int × Mem) :=
  if link = 0 ∨ list = 0 then failWith m UDELL_EINVPTR
  else if isFull (m.list list) then failWith m UDELL_ELISTFULL
  else if (m.list list).len = 0 then
    let m := m.setHead list link
    let m := m.setTail list link
    let m := m.setLen list 1
    let m := m.setPrev link 0
    let m := m.setNext link 0
    let m := m.setList link list
    some (UDELL_PASS, m)
  else if (m.list list).pHead = 0 then none
  else
    let m := m.setPrev (m.list list).pHead link
    let m := m.setNext link (m.list list).pHead
    let m := m.setHead list link
    let m := m.setPrev link 0
    let m := m.setLen list (((m.list list).len + 1) % U32)
    let m := m.setList link list
    some (UDELL_PASS, m)

/-- `int ListInsertLast(udellList *list, udellLink *link)`. -/
def ListInsertLast (m : Mem) (list link : Nat) : Option (Int × Mem) :=
  if link = 0 ∨ list = 0 then failWith m UDELL_EINVPTR
  else if isFull (m.list list) then failWith m UDELL_ELISTFULL
  else if (m.list list).len = 0 then
    let m := m.setHead list link
    let m := m.setTail list link
    let m := m.setLen list 1
    let m := m.setPrev link 0
    let m := m.setNext link 0
    let m := m.setList link list
    some (UDELL_PASS, m)
  else if (m.list list).pTail = 0 then none
  else
    let m := m.setNext (m.list list).pTail link
    let m := m.setPrev link (m.list list).pTail
    let m := m.setTail list link
    let m := m.setNext link 0
    let m := m.setLen list (((m.list list).len + 1) % U32)
    let m := m.setList link list
    some (UDELL_PASS, m)

/-- `int ListInsertAfter(udellList *list, udellLink *reflink, udellLink *addlink)`. -/
def ListInsertAfter (m : Mem) (list reflink addlink : Nat) : Option (Int × Mem) :=
  if reflink = 0 ∨ addlink = 0 ∨ list = 0 then failWith m UDELL_EINVPTR
  else if (m.list list).len = 0 then failWith m UDELL_EEMPTY
  else if (m.link reflink).pList ≠ list then failWith m UDELL_EBADLIST
  else if isFull (m.list list) then failWith m UDELL_ELISTFULL
  else
    let m := m.setNext addlink (m.link reflink).pNext
    let m := m.setNext reflink addlink
    let m := m.setPrev addlink reflink
    let m :=
      if (m.link addlink).pNext ≠ 0 then m.setPrev (m.link addlink).pNext addlink
      else m.setTail list addlink
    let m := m.setLen list (((m.list list).len + 1) % U32)
    let m := m.setList addlink list
    some (UDELL_PASS, m)

/-- `int ListInsertBefore(udellList *list, udellLink *reflink, udellLink *addlink)`. -/
def ListInsertBefore (m : Mem) (list reflink addlink : Nat) : Option (Int × Mem) :=
  if reflink = 0 ∨ addlink = 0 ∨ list = 0 then failWith m UDELL_EINVPTR
  else if (m.list list).len = 0 then failWith m UDELL_EEMPTY
  else if (m.link reflink).pList ≠ list then failWith m UDELL_EBADLIST
  else if isFull (m.list list) then failWith m UDELL_ELISTFULL
  else
    let m := m.setPrev addlink (m.link reflink).pPrev
    let m := m.setPrev reflink addlink
    let m := m.setNext addlink reflink
    let m :=
      if (m.link addlink).pPrev ≠ 0 then m.setNext (m.link addlink).pPrev addlink
      else m.setHead list addlink
    let m := m.setLen list (((m.list list).len + 1) % U32)
    let m := m.setList addlink list
    some (UDELL_PASS, m)

/-- The first half of the general case of `ListRemoveLink`: the `pPrev` side. -/
def removePrevSide (m : Mem) (list link : Nat) : Option Mem :=
  if (m.link link).pPrev ≠ 0 then
    some (m.setNext (m.link link).pPrev (m.link link).pNext)
  else
    let m := m.setHead list (m.link link).pNext
    if (m.link link).pNext = 0 then none
    else some (m.setPrev (m.link link).pNext 0)

/-- The second half of the general case of `ListRemoveLink`: the `pNext` side. -/
def removeNextSide (m : Mem) (list link : Nat) : Option Mem :=
  if (m.link link).pNext ≠ 0 then
    some (m.setPrev (m.link link).pNext (m.link link).pPrev)
  else
    let m := m.setTail list (m.link link).pPrev
    if (m.link link).pPrev = 0 then none
    else some (m.setNext (m.link link).pPrev 0)

/-- `int ListRemoveLink(udellList *list, udellLink *link)`. -/
def ListRemoveLink (m : Mem) (list link : Nat) : Option (Int × Mem) :=
  if link = 0 ∨ list = 0 then failWith m UDELL_EINVPTR
  else if (m.list list).len = 0 then failWith m UDELL_EEMPTY
  else if (m.link link).pList ≠ list then failWith m UDELL_EBADLIST
  else if (m.list list).len = 1 then
    let m := m.setLen list 0
    let m := m.setHead list 0
    let m := m.setTail list 0
    some (UDELL_PASS, m)
  else
    match removePrevSide m list link with
    | none => none
    | some m =>
      match removeNextSide m list link with
      | none => none
      | some m =>
        let m := m.setPrev link 0
        let m := m.setNext link 0
        let m := m.setList link UDELL_NOLIST
        let m := m.setLen list (((m.list list).len + U32 - 1) % U32)
        some (UDELL_PASS, m)

/-- `void* LinkGetData(udellLink *link)`. -/
def LinkGetData (m : Mem) (link : Nat) : Nat × Mem :=
  if link = 0 then (0, m.setErrno UDELL_EINVPTR) else ((m.link link).pData, m)

/-- `uint32_t LinkGetPayloadSize(udellLink *link)`. -/
def LinkGetPayloadSize (m : Mem) (link : Nat) : Nat × Mem :=
  if link = 0 then (0, m.setErrno UDELL_EINVPTR) else ((m.link link).payloadSize, m)

/-- `uint32_t LinkGetDataSize(udellLink *link)`. -/
def LinkGetDataSize (m : Mem) (link : Nat) : Nat × Mem :=
  if link = 0 then (0, m.setErrno UDELL_EINVPTR) else ((m.link link).dataSize, m)

/-- `udellLink* LinkGetNext(udellLink *link)`. -/
def LinkGetNext (m : Mem) (link : Nat) : Nat × Mem :=
  if link = 0 then (0, m.setErrno UDELL_EINVPTR)
  else if (m.link link).pNext = 0 then (0, m.setErrno UDELL_ETAIL)
  else ((m.link link).pNext, m)

/-- `udellLink* LinkGetPrev(udellLink *link)`. -/
def LinkGetPrev (m : Mem) (link : Nat) : Nat × Mem :=
  if link = 0 then (0, m.setErrno UDELL_EINVPTR)
  else if (m.link link).pPrev = 0 then (0, m.setErrno UDELL_EHEAD)
  else ((m.link link).pPrev, m)

/-- `udellLink* ListGetHead(udellList *list)`. -/
def ListGetHead (m : Mem) (list : Nat) : Nat × Mem :=
  if list = 0 then (0, m.setErrno UDELL_EINVPTR)
  else if (m.list list).len = 0 then (0, m.setErrno UDELL_EEMPTY)
  else ((m.list list).pHead, m)

/-- `udellLink* ListGetTail(udellList *list)`. -/
def ListGetTail (m : Mem) (list : Nat) : Nat × Mem :=
  if list = 0 then (0, m.setErrno UDELL_EINVPTR)
  else if (m.list list).len = 0 then (0, m.setErrno UDELL_EEMPTY)
  else ((m.list list).pTail, m)

/-- `int ListGetLen(udellList *list)`. -/
def ListGetLen (m : Mem) (list : Nat) : Int × Mem :=
  if list = 0 then (UDELL_FAIL, m.setErrno UDELL_EINVPTR)
  else (toI32 (m.list list).len, m)

/-! ## Walks and well-formedness -/

/-- The `pNext` field as a function of the address. -/
def Mem.next (m : Mem) (a : Nat) : Nat := (m.link a).pNext

/-- The `pPrev` field as a function of the address. -/
def Mem.prev (m : Mem) (a : Nat) : Nat := (m.link a).pPrev

/-- The links visited from `c` by following `f` until the null pointer, at most `fuel`
of them. -/
def walk (f : Nat → Nat) : Nat → Nat → List Nat
  | 0, _ => []
  | fuel + 1, c => if c = 0 then [] else c :: walk f fuel (f c)

/-- The forward walk of list `l`: head, then next, next, ...  One more step than
`len` is allowed, so that a walk of exactly `len` links has met the null pointer. -/
def fwdWalk (m : Mem) (l : Nat) : List Nat :=
  walk m.next ((m.list l).len + 1) (m.list l).pHead

/-- The backward walk of list `l`: tail, then prev, prev, ... -/
def bwdWalk (m : Mem) (l : Nat) : List Nat :=
  walk m.prev ((m.list l).len + 1) (m.list l).pTail

/-- A list is well-formed when head, tail and length agree on emptiness, the forward
walk visits exactly `len` distinct links and ends at the tail, and the backward walk
visits the same links in reverse (so it ends at the head, whose `pPrev` is null). -/
def WellFormed (m : Mem) (l : Nat) : Prop :=
  ((m.list l).pHead = 0 ↔ (m.list l).len = 0) ∧
  ((m.list l).pTail = 0 ↔ (m.list l).len = 0) ∧
  (fwdWalk m l).length = (m.list l).len ∧
  (fwdWalk m l).Nodup ∧
  (fwdWalk m l).getLast? = (if (m.list l).pTail = 0 then none else some (m.list l).pTail) ∧
  bwdWalk m l = (fwdWalk m l).reverse

instance (m : Mem) (l : Nat) : Decidable (WellFormed m l) := by
  unfold WellFormed; infer_instance

/-- Every member of list `l` records `l` as its owning list. -/
def Owned (m : Mem) (l : Nat) : Prop := ∀ a ∈ fwdWalk m l, (m.link a).pList = l

instance (m : Mem) (l : Nat) : Decidable (Owned m l) := by
  unfold Owned; infer_instance

/-- The chain `s` starts at `c`, follows `f` through non-null links and ends at `e`. -/
def Path (f : Nat → Nat) (e : Nat) : Nat → List Nat → Prop
  | c, [] => c = e
  | c, x :: xs => c = x ∧ x ≠ 0 ∧ Path f e (f x) xs

/-- The list `l` holds exactly the links `s`, in this order, doubly linked. -/
structure DLL (m : Mem) (l : Nat) (s : List Nat) : Prop where
  fwd : Path m.next 0 (m.list l).pHead s
  bwd : Path m.prev 0 (m.list l).pTail s.reverse
  nodup : s.Nodup
  len : (m.list l).len = s.length

/-- A memory where every field of every object is zero. -/
def Mem.zero : Mem :=
  { link := fun _ => ⟨0, 0, 0, 0, 0, 0⟩, list := fun _ => ⟨0, 0, 0, 0⟩, errno := 0 }

/-- The memory after a call, or the memory before it when the call is undefined. -/
def after (m : Mem) (r : Option (Int × Mem)) : Mem :=
  match r with
  | some (_, m1) => m1
  | none => m

/-- The value returned by a call (`-1` stands for an undefined call). -/
def retOf (r : Option (Int × Mem)) : Int :=
  match r with
  | some (v, _) => v
  | none => -1


/-! ## Call sequences and sample memories -/

/-- The calls `ListInsertLast(list, a)` for the links `a` of `as`, in order, return
values ignored, as in the loop of `main`. -/
def insertLastAll (m : Mem) (l : Nat) : List Nat → Mem
  | [] => m
  | a :: as => insertLastAll (after m (ListInsertLast m l a)) l as

/-- A list `[10]` at address `1`, built by `ListInit` and `ListInsertLast`. -/
def sampleOne : Mem :=
  let m := after Mem.zero (ListInit Mem.zero 1)
  after m (ListInsertLast m 1 10)

/-- A list `[10, 20, 30]` at address `1`, built by `ListInit` and `ListInsertLast`. -/
def sampleThree : Mem := insertLastAll (after Mem.zero (ListInit Mem.zero 1)) 1 [10, 20, 30]

/-- A list `[10]` of capacity 3 at address `1`, built by `ListInit`, `ListSetMaxLinks` and
`ListInsertLast`. -/
def sampleCap : Mem :=
  let m := after Mem.zero (ListInit Mem.zero 1)
  let m := after m (ListSetMaxLinks m 1 3)
  after m (ListInsertLast m 1 10)

/-- The memory after `ListInit(1)`, `LinkInit(10, data 7, payloadSize 4, dataSize 4)` and
`ListInsertFirst(1, 10)`: the list at `1` holds the single link `10`. -/
def sampleSingle : Mem :=
  let m := after Mem.zero (ListInit Mem.zero 1)
  let m := after m (LinkInit m 10 7 4 4)
  after m (ListInsertFirst m 1 10)

/-- The round trip: in the memory `m1` reached from `m` by inserting `x` into list `l`,
`ListRemoveLink(l, x)` returns pass and leaves head, tail, length and capacity of `l`, and
`pPrev`, `pNext` and `pList` of every link that was a member of `l` in `m`, as they are
in `m`. -/
def RestoredBy (m m1 : Mem) (l x : Nat) : Prop :=
  ∃ m2, ListRemoveLink m1 l x = some (UDELL_PASS, m2) ∧
    m2.list l = m.list l ∧
    ∀ a ∈ fwdWalk m l,
      (m2.link a).pPrev = (m.link a).pPrev ∧ (m2.link a).pNext = (m.link a).pNext ∧
      (m2.link a).pList = (m.link a).pList


/-! ## Calls and call sequences -/

/-- A call of one of the functions of `udell.c` that write to links or lists, with its
arguments. -/
inductive Call where
  | linkInit (link data payloadSize dataSize : Nat)
  | listInit (list : Nat)
  | setMaxLinks (list : Nat) (max : Int)
  | insertFirst (list link : Nat)
  | insertLast (list link : Nat)
  | insertAfter (list reflink addlink : Nat)
  | insertBefore (list reflink addlink : Nat)
  | removeLink (list link : Nat)

/-- The function a call stands for, applied to its arguments. -/
def Call.run (m : Mem) : Call → Option (Int × Mem)
  | .linkInit link data payloadSize dataSize => LinkInit m link data payloadSize dataSize
  | .listInit list => ListInit m list
  | .setMaxLinks list max => ListSetMaxLinks m list max
  | .insertFirst list link => ListInsertFirst m list link
  | .insertLast list link => ListInsertLast m list link
  | .insertAfter list reflink addlink => ListInsertAfter m list reflink addlink
  | .insertBefore list reflink addlink => ListInsertBefore m list reflink addlink
  | .removeLink list link => ListRemoveLink m list link

/-- The list operations: every call but `LinkInit`. -/
def Call.isListOp : Call → Bool
  | .linkInit _ _ _ _ => false
  | _ => true

/-- The memory after a sequence of calls, passing or failing; `none` as soon as one of them
is undefined. -/
def runCalls (m : Mem) : List Call → Option Mem
  | [] => some m
  | c :: cs =>
    match c.run m with
    | some (_, m1) => runCalls m1 cs
    | none => none

/-- The capacity invariant of a list record: the capacity is unlimited or `len` does not
exceed it. -/
def CapInv (L : udellList) : Prop := L.maxLen = UDELL_NOLIMIT ∨ (L.len : Int) ≤ L.maxLen

/-- The memory after `ListInit(1)`, `LinkInit(10, ..)`, `LinkInit(20, ..)`,
`ListInsertFirst(1, 10)`, `ListRemoveLink(1, 10)` and `ListInsertFirst(1, 20)`: the list at
`1` holds the single link `20`, and link `10` is in no list. -/
def sampleStale : Option Mem :=
  runCalls Mem.zero [.listInit 1, .linkInit 10 7 4 4, .linkInit 20 8 4 4, .insertFirst 1 10,
    .removeLink 1 10, .insertFirst 1 20]

/-- The memory of `sampleStale`. -/
def sampleStaleMem : Mem := sampleStale.getD Mem.zero

/-- The list of `main`: capacity 3 set on a fresh list at `1`, five `ListInsertLast` calls
and the removal of the first link. -/
def sampleMain : Mem :=
  (runCalls (after Mem.zero (ListInit Mem.zero 1))
    [.setMaxLinks 1 3, .insertLast 1 10, .insertLast 1 20, .insertLast 1 30,
      .insertLast 1 40, .insertLast 1 50, .removeLink 1 10]).getD Mem.zero

/-- The payload pointer, the payload size and the data size of every link are the same in
the two memories. -/
def SamePayload (m m1 : Mem) : Prop :=
  ∀ a, (m1.link a).pData = (m.link a).pData ∧
    (m1.link a).payloadSize = (m.link a).payloadSize ∧
    (m1.link a).dataSize = (m.link a).dataSize

/-- The memory after `ListInit(1)`, `ListInsertLast(1, 10)` and `LinkInit(10, ..)`: the list
at `1` holds the single link `10`, whose `pList` has been reset by `LinkInit`. -/
def sampleReinit : Mem :=
  (runCalls Mem.zero [.listInit 1, .insertLast 1 10, .linkInit 10 7 4 4]).getD Mem.zero

/-- The largest `uint32_t` value. -/
def bigLen : Nat := 4294967295

/-- The address of a link outside the list of `bigMem`. -/
def bigNew : Nat := 4294967296

/-- A memory in which the list at `1`, of unlimited capacity, holds the `2^32 - 1` links at
the addresses `1`, `2`, ..., `2^32 - 1` in this order; every other link is zero. -/
def bigMem : Mem :=
  { link := fun a =>
      if 1 ≤ a ∧ a ≤ bigLen then
        { pPrev := a - 1, pNext := if a = bigLen then 0 else a + 1, pList := 1,
          payloadSize := 0, dataSize := 0, pData := 0 }
      else ⟨0, 0, 0, 0, 0, 0⟩
    list := fun k => if k = 1 then ⟨1, bigLen, UDELL_NOLIMIT, bigLen⟩ else ⟨0, 0, UDELL_NOLIMIT, 0⟩
    errno := 0 }


/-! ## Reading a field after a write -/

namespace Mem

@[simp] theorem pPrev_setPrev (m : Mem) (a v b : Nat) :
    ((m.setPrev a v).link b).pPrev = if b = a then v else (m.link b).pPrev := by
  unfold setPrev; dsimp only; split <;> simp_all

@[simp] theorem pNext_setPrev (m : Mem) (a v b : Nat) :
    ((m.setPrev a v).link b).pNext = (m.link b).pNext := by
  unfold setPrev; dsimp only; split <;> simp_all

@[simp] theorem pList_setPrev (m : Mem) (a v b : Nat) :
    ((m.setPrev a v).link b).pList = (m.link b).pList := by
  unfold setPrev; dsimp only; split <;> simp_all

@[simp] theorem payloadSize_setPrev (m : Mem) (a v b : Nat) :
    ((m.setPrev a v).link b).payloadSize = (m.link b).payloadSize := by
  unfold setPrev; dsimp only; split <;> simp_all

@[simp] theorem dataSize_setPrev (m : Mem) (a v b : Nat) :
    ((m.setPrev a v).link b).dataSize = (m.link b).dataSize := by
  unfold setPrev; dsimp only; split <;> simp_all

@[simp] theorem pData_setPrev (m : Mem) (a v b : Nat) :
    ((m.setPrev a v).link b).pData = (m.link b).pData := by
  unfold setPrev; dsimp only; split <;> simp_all

@[simp] theorem list_setPrev (m : Mem) (a v : Nat) : (m.setPrev a v).list = m.list := rfl

@[simp] theorem errno_setPrev (m : Mem) (a v : Nat) : (m.setPrev a v).errno = m.errno := rfl

@[simp] theorem pPrev_setNext (m : Mem) (a v b : Nat) :
    ((m.setNext a v).link b).pPrev = (m.link b).pPrev := by
  unfold setNext; dsimp only; split <;> simp_all

@[simp] theorem pNext_setNext (m : Mem) (a v b : Nat) :
    ((m.setNext a v).link b).pNext = if b = a then v else (m.link b).pNext := by
  unfold setNext; dsimp only; split <;> simp_all

@[simp] theorem pList_setNext (m : Mem) (a v b : Nat) :
    ((m.setNext a v).link b).pList = (m.link b).pList := by
  unfold setNext; dsimp only; split <;> simp_all

@[simp] theorem payloadSize_setNext (m : Mem) (a v b : Nat) :
    ((m.setNext a v).link b).payloadSize = (m.link b).payloadSize := by
  unfold setNext; dsimp only; split <;> simp_all

@[simp] theorem dataSize_setNext (m : Mem) (a v b : Nat) :
    ((m.setNext a v).link b).dataSize = (m.link b).dataSize := by
  unfold setNext; dsimp only; split <;> simp_all

@[simp] theorem pData_setNext (m : Mem) (a v b : Nat) :
    ((m.setNext a v).link b).pData = (m.link b).pData := by
  unfold setNext; dsimp only; split <;> simp_all

@[simp] theorem list_setNext (m : Mem) (a v : Nat) : (m.setNext a v).list = m.list := rfl

@[simp] theorem errno_setNext (m : Mem) (a v : Nat) : (m.setNext a v).errno = m.errno := rfl

@[simp] theorem pPrev_setList (m : Mem) (a v b : Nat) :
    ((m.setList a v).link b).pPrev = (m.link b).pPrev := by
  unfold setList; dsimp only; split <;> simp_all

@[simp] theorem pNext_setList (m : Mem) (a v b : Nat) :
    ((m.setList a v).link b).pNext = (m.link b).pNext := by
  unfold setList; dsimp only; split <;> simp_all

@[simp] theorem pList_setList (m : Mem) (a v b : Nat) :
    ((m.setList a v).link b).pList = if b = a then v else (m.link b).pList := by
  unfold setList; dsimp only; split <;> simp_all

@[simp] theorem payloadSize_setList (m : Mem) (a v b : Nat) :
    ((m.setList a v).link b).payloadSize = (m.link b).payloadSize := by
  unfold setList; dsimp only; split <;> simp_all

@[simp] theorem dataSize_setList (m : Mem) (a v b : Nat) :
    ((m.setList a v).link b).dataSize = (m.link b).dataSize := by
  unfold setList; dsimp only; split <;> simp_all

@[simp] theorem pData_setList (m : Mem) (a v b : Nat) :
    ((m.setList a v).link b).pData = (m.link b).pData := by
  unfold setList; dsimp only; split <;> simp_all

@[simp] theorem list_setList (m : Mem) (a v : Nat) : (m.setList a v).list = m.list := rfl

@[simp] theorem errno_setList (m : Mem) (a v : Nat) : (m.setList a v).errno = m.errno := rfl

@[simp] theorem pPrev_setPayloadSize (m : Mem) (a v b : Nat) :
    ((m.setPayloadSize a v).link b).pPrev = (m.link b).pPrev := by
  unfold setPayloadSize; dsimp only; split <;> simp_all

@[simp] theorem pNext_setPayloadSize (m : Mem) (a v b : Nat) :
    ((m.setPayloadSize a v).link b).pNext = (m.link b).pNext := by
  unfold setPayloadSize; dsimp only; split <;> simp_all

@[simp] theorem pList_setPayloadSize (m : Mem) (a v b : Nat) :
    ((m.setPayloadSize a v).link b).pList = (m.link b).pList := by
  unfold setPayloadSize; dsimp only; split <;> simp_all

@[simp] theorem payloadSize_setPayloadSize (m : Mem) (a v b : Nat) :
    ((m.setPayloadSize a v).link b).payloadSize = if b = a then v else (m.link b).payloadSize := by
  unfold setPayloadSize; dsimp only; split <;> simp_all

@[simp] theorem dataSize_setPayloadSize (m : Mem) (a v b : Nat) :
    ((m.setPayloadSize a v).link b).dataSize = (m.link b).dataSize := by
  unfold setPayloadSize; dsimp only; split <;> simp_all

@[simp] theorem pData_setPayloadSize (m : Mem) (a v b : Nat) :
    ((m.setPayloadSize a v).link b).pData = (m.link b).pData := by
  unfold setPayloadSize; dsimp only; split <;> simp_all

@[simp] theorem list_setPayloadSize (m : Mem) (a v : Nat) : (m.setPayloadSize a v).list = m.list := rfl

@[simp] theorem errno_setPayloadSize (m : Mem) (a v : Nat) : (m.setPayloadSize a v).errno = m.errno := rfl

@[simp] theorem pPrev_setDataSize (m : Mem) (a v b : Nat) :
    ((m.setDataSize a v).link b).pPrev = (m.link b).pPrev := by
  unfold setDataSize; dsimp only; split <;> simp_all

@[simp] theorem pNext_setDataSize (m : Mem) (a v b : Nat) :
    ((m.setDataSize a v).link b).pNext = (m.link b).pNext := by
  unfold setDataSize; dsimp only; split <;> simp_all

@[simp] theorem pList_setDataSize (m : Mem) (a v b : Nat) :
    ((m.setDataSize a v).link b).pList = (m.link b).pList := by
  unfold setDataSize; dsimp only; split <;> simp_all

@[simp] theorem payloadSize_setDataSize (m : Mem) (a v b : Nat) :
    ((m.setDataSize a v).link b).payloadSize = (m.link b).payloadSize := by
  unfold setDataSize; dsimp only; split <;> simp_all

@[simp] theorem dataSize_setDataSize (m : Mem) (a v b : Nat) :
    ((m.setDataSize a v).link b).dataSize = if b = a then v else (m.link b).dataSize := by
  unfold setDataSize; dsimp only; split <;> simp_all

@[simp] theorem pData_setDataSize (m : Mem) (a v b : Nat) :
    ((m.setDataSize a v).link b).pData = (m.link b).pData := by
  unfold setDataSize; dsimp only; split <;> simp_all

@[simp] theorem list_setDataSize (m : Mem) (a v : Nat) : (m.setDataSize a v).list = m.list := rfl

@[simp] theorem errno_setDataSize (m : Mem) (a v : Nat) : (m.setDataSize a v).errno = m.errno := rfl

@[simp] theorem pPrev_setData (m : Mem) (a v b : Nat) :
    ((m.setData a v).link b).pPrev = (m.link b).pPrev := by
  unfold setData; dsimp only; split <;> simp_all

@[simp] theorem pNext_setData (m : Mem) (a v b : Nat) :
    ((m.setData a v).link b).pNext = (m.link b).pNext := by
  unfold setData; dsimp only; split <;> simp_all

@[simp] theorem pList_setData (m : Mem) (a v b : Nat) :
    ((m.setData a v).link b).pList = (m.link b).pList := by
  unfold setData; dsimp only; split <;> simp_all

@[simp] theorem payloadSize_setData (m : Mem) (a v b : Nat) :
    ((m.setData a v).link b).payloadSize = (m.link b).payloadSize := by
  unfold setData; dsimp only; split <;> simp_all

@[simp] theorem dataSize_setData (m : Mem) (a v b : Nat) :
    ((m.setData a v).link b).dataSize = (m.link b).dataSize := by
  unfold setData; dsimp only; split <;> simp_all

@[simp] theorem pData_setData (m : Mem) (a v b : Nat) :
    ((m.setData a v).link b).pData = if b = a then v else (m.link b).pData := by
  unfold setData; dsimp only; split <;> simp_all

@[simp] theorem list_setData (m : Mem) (a v : Nat) : (m.setData a v).list = m.list := rfl

@[simp] theorem errno_setData (m : Mem) (a v : Nat) : (m.setData a v).errno = m.errno := rfl

@[simp] theorem pHead_setHead (m : Mem) (l : Nat) (v : Nat) (k : Nat) :
    ((m.setHead l v).list k).pHead = if k = l then v else (m.list k).pHead := by
  unfold setHead; dsimp only; split <;> simp_all

@[simp] theorem pTail_setHead (m : Mem) (l : Nat) (v : Nat) (k : Nat) :
    ((m.setHead l v).list k).pTail = (m.list k).pTail := by
  unfold setHead; dsimp only; split <;> simp_all

@[simp] theorem maxLen_setHead (m : Mem) (l : Nat) (v : Nat) (k : Nat) :
    ((m.setHead l v).list k).maxLen = (m.list k).maxLen := by
  unfold setHead; dsimp only; split <;> simp_all

@[simp] theorem len_setHead (m : Mem) (l : Nat) (v : Nat) (k : Nat) :
    ((m.setHead l v).list k).len = (m.list k).len := by
  unfold setHead; dsimp only; split <;> simp_all

@[simp] theorem link_setHead (m : Mem) (l : Nat) (v : Nat) : (m.setHead l v).link = m.link := rfl

@[simp] theorem errno_setHead (m : Mem) (l : Nat) (v : Nat) : (m.setHead l v).errno = m.errno := rfl

@[simp] theorem pHead_setTail (m : Mem) (l : Nat) (v : Nat) (k : Nat) :
    ((m.setTail l v).list k).pHead = (m.list k).pHead := by
  unfold setTail; dsimp only; split <;> simp_all

@[simp] theorem pTail_setTail (m : Mem) (l : Nat) (v : Nat) (k : Nat) :
    ((m.setTail l v).list k).pTail = if k = l then v else (m.list k).pTail := by
  unfold setTail; dsimp only; split <;> simp_all

@[simp] theorem maxLen_setTail (m : Mem) (l : Nat) (v : Nat) (k : Nat) :
    ((m.setTail l v).list k).maxLen = (m.list k).maxLen := by
  unfold setTail; dsimp only; split <;> simp_all

@[simp] theorem len_setTail (m : Mem) (l : Nat) (v : Nat) (k : Nat) :
    ((m.setTail l v).list k).len = (m.list k).len := by
  unfold setTail; dsimp only; split <;> simp_all

@[simp] theorem link_setTail (m : Mem) (l : Nat) (v : Nat) : (m.setTail l v).link = m.link := rfl

@[simp] theorem errno_setTail (m : Mem) (l : Nat) (v : Nat) : (m.setTail l v).errno = m.errno := rfl

@[simp] theorem pHead_setMaxLen (m : Mem) (l : Nat) (v : Int) (k : Nat) :
    ((m.setMaxLen l v).list k).pHead = (m.list k).pHead := by
  unfold setMaxLen; dsimp only; split <;> simp_all

@[simp] theorem pTail_setMaxLen (m : Mem) (l : Nat) (v : Int) (k : Nat) :
    ((m.setMaxLen l v).list k).pTail = (m.list k).pTail := by
  unfold setMaxLen; dsimp only; split <;> simp_all

@[simp] theorem maxLen_setMaxLen (m : Mem) (l : Nat) (v : Int) (k : Nat) :
    ((m.setMaxLen l v).list k).maxLen = if k = l then v else (m.list k).maxLen := by
  unfold setMaxLen; dsimp only; split <;> simp_all

@[simp] theorem len_setMaxLen (m : Mem) (l : Nat) (v : Int) (k : Nat) :
    ((m.setMaxLen l v).list k).len = (m.list k).len := by
  unfold setMaxLen; dsimp only; split <;> simp_all

@[simp] theorem link_setMaxLen (m : Mem) (l : Nat) (v : Int) : (m.setMaxLen l v).link = m.link := rfl

@[simp] theorem errno_setMaxLen (m : Mem) (l : Nat) (v : Int) : (m.setMaxLen l v).errno = m.errno := rfl

@[simp] theorem pHead_setLen (m : Mem) (l : Nat) (v : Nat) (k : Nat) :
    ((m.setLen l v).list k).pHead = (m.list k).pHead := by
  unfold setLen; dsimp only; split <;> simp_all

@[simp] theorem pTail_setLen (m : Mem) (l : Nat) (v : Nat) (k : Nat) :
    ((m.setLen l v).list k).pTail = (m.list k).pTail := by
  unfold setLen; dsimp only; split <;> simp_all

@[simp] theorem maxLen_setLen (m : Mem) (l : Nat) (v : Nat) (k : Nat) :
    ((m.setLen l v).list k).maxLen = (m.list k).maxLen := by
  unfold setLen; dsimp only; split <;> simp_all

@[simp] theorem len_setLen (m : Mem) (l : Nat) (v : Nat) (k : Nat) :
    ((m.setLen l v).list k).len = if k = l then v else (m.list k).len := by
  unfold setLen; dsimp only; split <;> simp_all

@[simp] theorem link_setLen (m : Mem) (l : Nat) (v : Nat) : (m.setLen l v).link = m.link := rfl

@[simp] theorem errno_setLen (m : Mem) (l : Nat) (v : Nat) : (m.setLen l v).errno = m.errno := rfl

@[simp] theorem link_setErrno (m : Mem) (e : Int) : (m.setErrno e).link = m.link := rfl

@[simp] theorem list_setErrno (m : Mem) (e : Int) : (m.setErrno e).list = m.list := rfl

@[simp] theorem errno_setErrno (m : Mem) (e : Int) : (m.setErrno e).errno = e := rfl

end Mem


/-! ## Chains -/

theorem Path.zero_not_mem {f : Nat → Nat} {e : Nat} :
    ∀ {s : List Nat} {c : Nat}, Path f e c s → 0 ∉ s
  | [], _, _ => by simp
  | x :: xs, _, h => by
    obtain ⟨_, hx, hrest⟩ := h
    have ih := Path.zero_not_mem hrest
    simp only [List.mem_cons, not_or]
    exact ⟨fun h0 => hx h0.symm, ih⟩

theorem path_append {f : Nat → Nat} {e : Nat} :
    ∀ {s t : List Nat} {c : Nat},
      Path f e c (s ++ t) ↔ ∃ mid, Path f mid c s ∧ Path f e mid t
  | [], t, c => by
    constructor
    · intro h; exact ⟨c, rfl, h⟩
    · rintro ⟨mid, h1, h2⟩
      have : c = mid := h1
      subst this; exact h2
  | x :: xs, t, c => by
    constructor
    · rintro ⟨hc, hx, hrest⟩
      obtain ⟨mid, h1, h2⟩ := path_append.mp hrest
      exact ⟨mid, ⟨hc, hx, h1⟩, h2⟩
    · rintro ⟨mid, ⟨hc, hx, h1⟩, h2⟩
      exact ⟨hc, hx, path_append.mpr ⟨mid, h1, h2⟩⟩

theorem path_congr {f g : Nat → Nat} {e : Nat} :
    ∀ {s : List Nat} {c : Nat}, (∀ a ∈ s, g a = f a) → Path f e c s → Path g e c s
  | [], _, _, h => h
  | x :: xs, _, hfg, h => by
    obtain ⟨hc, hx, hrest⟩ := h
    refine ⟨hc, hx, ?_⟩
    rw [hfg x (List.mem_cons_self x xs)]
    exact path_congr (fun a ha => hfg a (List.mem_cons_of_mem x ha)) hrest

theorem walk_of_path {f : Nat → Nat} :
    ∀ {s : List Nat} {c : Nat}, Path f 0 c s → ∀ fuel, s.length < fuel → walk f fuel c = s
  | [], c, h, fuel, hfuel => by
    have hc : c = 0 := h
    cases fuel with
    | zero => simp at hfuel
    | succ n => simp [walk, hc]
  | x :: xs, c, h, fuel, hfuel => by
    obtain ⟨hc, hx, hrest⟩ := h
    cases fuel with
    | zero => simp at hfuel
    | succ n =>
      have hlen : xs.length < n := by simpa using hfuel
      simp [walk, hc, hx, walk_of_path hrest n hlen]

theorem path_of_walk (f : Nat → Nat) :
    ∀ (fuel c : Nat), (walk f fuel c).length < fuel → Path f 0 c (walk f fuel c)
  | 0, _, h => by simp at h
  | fuel + 1, c, h => by
    by_cases hc : c = 0
    · simp [walk, hc, Path]
    · simp only [walk, hc, if_false] at h ⊢
      refine ⟨rfl, hc, path_of_walk f fuel (f c) ?_⟩
      simpa using h

/-- The successor recorded in a chain: the link that follows `x`, or the end. -/
theorem path_next {f : Nat → Nat} {e c x : Nat} {s1 s2 : List Nat}
    (h : Path f e c (s1 ++ x :: s2)) : Path f e (f x) s2 := by
  obtain ⟨_, _, h2⟩ := path_append.mp h
  exact h2.2.2

theorem path_mem_ne_zero {f : Nat → Nat} {e c x : Nat} {s : List Nat}
    (h : Path f e c s) (hx : x ∈ s) : x ≠ 0 := by
  intro h0
  exact Path.zero_not_mem h (h0 ▸ hx)

/-- Start of a chain: the first link, or the end pointer of an empty chain. -/
theorem path_start {f : Nat → Nat} {e c : Nat} {s : List Nat} (h : Path f e c s) :
    c = s.headD e := by
  cases s with
  | nil => exact h
  | cons x xs => exact h.1

/-! ## The list predicate and the executable walks -/

theorem DLL.fwdWalk_eq {m : Mem} {l : Nat} {s : List Nat} (h : DLL m l s) :
    fwdWalk m l = s := by
  unfold fwdWalk
  exact walk_of_path h.fwd _ (by rw [h.len]; exact Nat.lt_succ_self _)

theorem DLL.bwdWalk_eq {m : Mem} {l : Nat} {s : List Nat} (h : DLL m l s) :
    bwdWalk m l = s.reverse := by
  unfold bwdWalk
  exact walk_of_path h.bwd _ (by rw [h.len, List.length_reverse]; exact Nat.lt_succ_self _)

theorem DLL.head_eq {m : Mem} {l : Nat} {s : List Nat} (h : DLL m l s) :
    (m.list l).pHead = s.headD 0 := path_start h.fwd

theorem DLL.tail_eq {m : Mem} {l : Nat} {s : List Nat} (h : DLL m l s) :
    (m.list l).pTail = s.reverse.headD 0 := path_start h.bwd

theorem DLL.wellFormed {m : Mem} {l : Nat} {s : List Nat} (h : DLL m l s) :
    WellFormed m l := by
  unfold WellFormed
  rw [h.fwdWalk_eq, h.bwdWalk_eq, h.head_eq, h.tail_eq, h.len]
  have h0 : 0 ∉ s := Path.zero_not_mem h.fwd
  refine ⟨?_, ?_, rfl, h.nodup, ?_, rfl⟩
  · cases s with
    | nil => simp
    | cons x xs =>
      have : x ≠ 0 := fun hx => h0 (by simp [hx])
      simp [this]
  · rcases List.eq_nil_or_concat s with hs | ⟨t, y, hs⟩
    · simp [hs]
    · subst hs
      have : y ≠ 0 := fun hy => h0 (by simp [hy])
      simp [this]
  · rcases List.eq_nil_or_concat s with hs | ⟨t, y, hs⟩
    · simp [hs]
    · subst hs
      have : y ≠ 0 := fun hy => h0 (by simp [hy])
      simp [this]

theorem WellFormed.dll {m : Mem} {l : Nat} (h : WellFormed m l) : DLL m l (fwdWalk m l) := by
  obtain ⟨_, _, hlen, hnd, _, hb⟩ := h
  refine ⟨?_, ?_, hnd, hlen.symm⟩
  · refine path_of_walk _ _ _ ?_
    show (fwdWalk m l).length < _
    rw [hlen]; exact Nat.lt_succ_self _
  · rw [← hb]
    refine path_of_walk _ _ _ ?_
    show (bwdWalk m l).length < _
    rw [hb, List.length_reverse, hlen]; exact Nat.lt_succ_self _

theorem wellFormed_iff_dll (m : Mem) (l : Nat) : WellFormed m l ↔ ∃ s, DLL m l s :=
  ⟨fun h => ⟨_, h.dll⟩, fun ⟨_, h⟩ => h.wellFormed⟩


/-! ## Splicing a chain -/

/-- Chain after `x` has been linked in behind `r`. -/
theorem path_insert_after {f g : Nat → Nat} {e c r x : Nat} {s1 s2 : List Nat}
    (h : Path f e c (s1 ++ r :: s2)) (hagree : ∀ a ∈ s1 ++ s2, g a = f a)
    (hr : g r = x) (hx : g x = f r) (hx0 : x ≠ 0) :
    Path g e c (s1 ++ r :: x :: s2) := by
  obtain ⟨mid, h1, hmid, hr0, h2⟩ := path_append.mp h
  refine path_append.mpr ⟨mid, path_congr (fun a ha => hagree a ?_) h1, hmid, hr0, ?_⟩
  · exact List.mem_append_left _ ha
  · rw [hr]
    refine ⟨rfl, hx0, ?_⟩
    rw [hx]
    exact path_congr (fun a ha => hagree a (List.mem_append_right _ ha)) h2

/-- Chain after `x` has been put in front of its first link. -/
theorem path_insert_front {f g : Nat → Nat} {e c r x : Nat} {s2 : List Nat}
    (h : Path f e c (r :: s2)) (hagree : ∀ a ∈ r :: s2, g a = f a)
    (hx : g x = r) (hx0 : x ≠ 0) :
    Path g e x (x :: r :: s2) := by
  refine ⟨rfl, hx0, ?_⟩
  rw [hx]
  exact ⟨rfl, h.2.1, h.1 ▸ (path_congr hagree h).2.2⟩

/-- Chain after its first link has been taken out. -/
theorem path_remove_front {f g : Nat → Nat} {e c x : Nat} {s2 : List Nat}
    (h : Path f e c (x :: s2)) (hagree : ∀ a ∈ s2, g a = f a) :
    Path g e (f x) s2 :=
  path_congr hagree h.2.2

/-- Chain after `x`, which follows `y`, has been taken out. -/
theorem path_remove_after {f g : Nat → Nat} {e c x y : Nat} {s1 s2 : List Nat}
    (h : Path f e c (s1 ++ y :: x :: s2)) (hagree : ∀ a ∈ s1 ++ s2, g a = f a)
    (hy : g y = f x) :
    Path g e c (s1 ++ y :: s2) := by
  obtain ⟨mid, h1, hmid, hy0, _, _, h2⟩ := path_append.mp h
  refine path_append.mpr ⟨mid, path_congr (fun a ha => hagree a ?_) h1, hmid, hy0, ?_⟩
  · exact List.mem_append_left _ ha
  · rw [hy]
    exact path_congr (fun a ha => hagree a (List.mem_append_right _ ha)) h2

/-- In a chain the link after `y` is recorded in `f y`. -/
theorem path_succ {f : Nat → Nat} {e c x y : Nat} {s t : List Nat}
    (h : Path f e c (s ++ y :: x :: t)) : f y = x :=
  (path_next h).1

/-- The last link of a chain points to the end. -/
theorem path_last {f : Nat → Nat} {e c y : Nat} {s1 : List Nat}
    (h : Path f e c (s1 ++ [y])) : f y = e :=
  path_next h

@[simp] theorem Mem.next_apply (m : Mem) (a : Nat) : m.next a = (m.link a).pNext := rfl
@[simp] theorem Mem.prev_apply (m : Mem) (a : Nat) : m.prev a = (m.link a).pPrev := rfl

/-- The no-wrap condition makes `len + 1` exact. -/
theorem succ_mod_U32 {n : Nat} (h : n + 1 < U32) : (n + 1) % U32 = n + 1 :=
  Nat.mod_eq_of_lt h

/-- Membership facts read off a duplicate-free list split around `r`. -/
theorem nodup_split {r : Nat} {s1 s2 : List Nat} (h : (s1 ++ r :: s2).Nodup) :
    r ∉ s1 ∧ r ∉ s2 ∧ (∀ a ∈ s1, a ∉ s2) ∧ s1.Nodup ∧ s2.Nodup := by
  rw [List.nodup_append] at h
  obtain ⟨h1, h2, h3⟩ := h
  rw [List.nodup_cons] at h2
  refine ⟨fun hr => h3 hr (List.mem_cons_self _ _), h2.1, ?_, h1, h2.2⟩
  intro a ha ha2
  exact h3 ha (List.mem_cons_of_mem _ ha2)

/-- A fresh link may be put behind `r` without creating a duplicate. -/
theorem nodup_insert {r x : Nat} {s1 s2 : List Nat} (h : (s1 ++ r :: s2).Nodup)
    (hx : x ∉ s1 ++ r :: s2) : (s1 ++ r :: x :: s2).Nodup := by
  have hp : (s1 ++ r :: x :: s2).Perm (x :: (s1 ++ r :: s2)) := by
    have := @List.perm_middle Nat x (s1 ++ [r]) s2
    simpa using this
  exact hp.nodup_iff.mpr (List.nodup_cons.mpr ⟨hx, h⟩)

theorem insertAfter_dll {m : Mem} {l r x : Nat} {s1 s2 : List Nat}
    (hl : l ≠ 0) (hx0 : x ≠ 0) (h : DLL m l (s1 ++ r :: s2)) (hxs : x ∉ s1 ++ r :: s2)
    (hown : (m.link r).pList = l) (hcap : ¬ isFull (m.list l))
    (hroom : (m.list l).len + 1 < U32) :
    ∃ m1, ListInsertAfter m l r x = some (UDELL_PASS, m1) ∧ DLL m1 l (s1 ++ r :: x :: s2) := by
  have hr0 : r ≠ 0 := path_mem_ne_zero h.fwd (by simp)
  have hlen := h.len
  have hlen0 : (m.list l).len ≠ 0 := by rw [hlen]; simp
  have hxr : x ≠ r := fun e => hxs (by simp [e])
  have hx1 : x ∉ s1 := fun e => hxs (by simp [e])
  have hx2 : x ∉ s2 := fun e => hxs (by simp [e])
  obtain ⟨hr1, hr2, hdisj, hnd1, hnd2⟩ := nodup_split h.nodup
  have hndx : (s1 ++ r :: x :: s2).Nodup := nodup_insert h.nodup hxs
  have hfw := h.fwd
  have hbw := h.bwd
  have hguard : ¬ (r = 0 ∨ x = 0 ∨ l = 0) := by simp [hr0, hx0, hl]
  cases s2 with
  | nil =>
    have hnr : (m.link r).pNext = 0 := path_last hfw
    simp only [ListInsertAfter, if_neg hguard, if_neg hlen0, hown, ne_eq, not_true_eq_false,
      if_false, if_neg hcap, Option.some.injEq, Prod.mk.injEq, true_and, exists_eq_left',
      Mem.pNext_setPrev, Mem.pNext_setNext, if_neg hxr, if_true, hnr, Mem.list_setPrev,
      Mem.list_setNext, Mem.len_setTail, succ_mod_U32 hroom]
    refine ⟨?_, ?_, hndx, ?_⟩
    · simp only [Mem.pHead_setLen, Mem.list_setList, Mem.pHead_setTail, Mem.list_setPrev,
        Mem.list_setNext]
      refine path_insert_after hfw ?_ ?_ ?_ hx0
      · intro a ha
        have har : a ≠ r := fun e => hr1 (by simpa [e] using ha)
        have hax : a ≠ x := fun e => hx1 (by simpa [e] using ha)
        simp [har, hax]
      · simp [hxr]
      · simp [hxr, hnr]
    · simp only [List.reverse_append, List.reverse_cons, List.append_assoc,
        List.singleton_append, List.cons_append, List.nil_append, List.reverse_nil]
      simp only [Mem.pTail_setLen, Mem.list_setList, Mem.pTail_setTail, if_true]
      simp only [List.reverse_append, List.reverse_cons, List.append_assoc,
        List.singleton_append, List.cons_append, List.nil_append, List.reverse_nil] at hbw
      refine path_insert_front hbw ?_ ?_ hx0
      · intro a ha
        have hax : a ≠ x := fun e => hxs (by
          subst e
          rcases List.mem_cons.mp ha with rfl | ha
          · simp
          · simp [List.mem_reverse.mp ha])
        simp [hax]
      · simp
    · simp [hlen]
  | cons y s2 =>
    have hnr : (m.link r).pNext = y := path_succ hfw
    have hy0 : y ≠ 0 := path_mem_ne_zero hfw (by simp)
    simp only [ListInsertAfter, if_neg hguard, if_neg hlen0, hown, ne_eq, not_true_eq_false,
      if_false, if_neg hcap, Option.some.injEq, Prod.mk.injEq, true_and, exists_eq_left',
      Mem.pNext_setPrev, Mem.pNext_setNext, if_neg hxr, if_true, hnr, Mem.list_setPrev,
      Mem.list_setNext, Mem.len_setTail, succ_mod_U32 hroom, if_pos hy0]
    have hxy : x ≠ y := fun e => hx2 (by simp [e])
    have hry : r ≠ y := fun e => hr2 (by simp [e])
    refine ⟨?_, ?_, hndx, ?_⟩
    · simp only [Mem.pHead_setLen, Mem.list_setList, Mem.pHead_setTail, Mem.list_setPrev,
        Mem.list_setNext]
      refine path_insert_after hfw ?_ ?_ ?_ hx0
      · intro a ha
        have har : a ≠ r := fun e => by
          subst e
          rcases List.mem_append.mp ha with ha | ha
          · exact hr1 ha
          · exact hr2 ha
        have hax : a ≠ x := fun e => by
          subst e
          rcases List.mem_append.mp ha with ha | ha
          · exact hx1 ha
          · exact hx2 ha
        simp [har, hax]
      · simp [hxr]
      · simp [hxr, hnr]
    · simp only [List.reverse_append, List.reverse_cons, List.append_assoc,
        List.singleton_append, List.cons_append, List.nil_append, List.reverse_nil]
      simp only [Mem.pTail_setLen, Mem.list_setList, Mem.pTail_setTail, if_true,
        Mem.list_setPrev, Mem.list_setNext]
      simp only [List.reverse_append, List.reverse_cons, List.append_assoc,
        List.singleton_append, List.cons_append, List.nil_append, List.reverse_nil] at hbw
      have hpy : (m.link y).pPrev = r := path_succ hbw
      refine path_insert_after hbw ?_ ?_ ?_ hx0
      · intro a ha
        have hax : a ≠ x := fun e => hxs (by
          subst e
          rcases List.mem_append.mp ha with ha | ha
          · simp [List.mem_reverse.mp ha]
          · rcases List.mem_cons.mp ha with rfl | ha
            · simp
            · simp [List.mem_reverse.mp ha])
        have hay : a ≠ y := fun e => by
          subst e
          rcases List.mem_append.mp ha with ha | ha
          · exact (List.nodup_cons.mp hnd2).1 (List.mem_reverse.mp ha)
          · rcases List.mem_cons.mp ha with rfl | ha
            · exact hry rfl
            · exact hdisj _ (List.mem_reverse.mp ha) (List.mem_cons_self _ _)
        simp [hax, hay]
      · simp
      · simp [hxy, hpy]
    · simp only [Mem.len_setLen, Mem.list_setList, if_true, hlen, List.length_append,
        List.length_cons]
      omega


/-- A fresh link may be put in front of `r` without creating a duplicate. -/
theorem nodup_insert_before {r x : Nat} {s1 s2 : List Nat} (h : (s1 ++ r :: s2).Nodup)
    (hx : x ∉ s1 ++ r :: s2) : (s1 ++ x :: r :: s2).Nodup := by
  have hp : (s1 ++ x :: r :: s2).Perm (x :: (s1 ++ r :: s2)) := List.perm_middle
  exact hp.nodup_iff.mpr (List.nodup_cons.mpr ⟨hx, h⟩)

theorem insertBefore_dll {m : Mem} {l r x : Nat} {s1 s2 : List Nat}
    (hl : l ≠ 0) (hx0 : x ≠ 0) (h : DLL m l (s1 ++ r :: s2)) (hxs : x ∉ s1 ++ r :: s2)
    (hown : (m.link r).pList = l) (hcap : ¬ isFull (m.list l))
    (hroom : (m.list l).len + 1 < U32) :
    ∃ m1, ListInsertBefore m l r x = some (UDELL_PASS, m1) ∧
      DLL m1 l (s1 ++ x :: r :: s2) := by
  have hr0 : r ≠ 0 := path_mem_ne_zero h.fwd (by simp)
  have hlen := h.len
  have hlen0 : (m.list l).len ≠ 0 := by rw [hlen]; simp
  have hxr : x ≠ r := fun e => hxs (by simp [e])
  have hx1 : x ∉ s1 := fun e => hxs (by simp [e])
  have hx2 : x ∉ s2 := fun e => hxs (by simp [e])
  obtain ⟨hr1, hr2, hdisj, hnd1, hnd2⟩ := nodup_split h.nodup
  have hndx : (s1 ++ x :: r :: s2).Nodup := nodup_insert_before h.nodup hxs
  have hfw := h.fwd
  have hbw := h.bwd
  have hguard : ¬ (r = 0 ∨ x = 0 ∨ l = 0) := by simp [hr0, hx0, hl]
  rcases List.eq_nil_or_concat s1 with hs1 | ⟨t, y, hs1⟩
  · subst hs1
    simp only [List.reverse_append, List.reverse_cons, List.append_assoc,
      List.singleton_append, List.cons_append, List.nil_append, List.reverse_nil] at hbw hfw
    have hpr : (m.link r).pPrev = 0 := path_last hbw
    simp only [ListInsertBefore, if_neg hguard, if_neg hlen0, hown, ne_eq, not_true_eq_false,
      if_false, if_neg hcap, Option.some.injEq, Prod.mk.injEq, true_and, exists_eq_left',
      Mem.pPrev_setPrev, Mem.pPrev_setNext, if_neg hxr, if_true, hpr, Mem.list_setPrev,
      Mem.list_setNext, Mem.len_setHead, succ_mod_U32 hroom, List.nil_append]
    refine ⟨?_, ?_, hndx, ?_⟩
    · simp only [Mem.pHead_setLen, Mem.list_setList, Mem.pHead_setHead, if_true]
      refine path_insert_front hfw ?_ ?_ hx0
      · intro a ha
        have hax : a ≠ x := fun e => hxs (by subst e; simpa using ha)
        simp [hax]
      · simp
    · simp only [List.reverse_append, List.reverse_cons, List.append_assoc,
        List.singleton_append, List.cons_append, List.nil_append, List.reverse_nil]
      simp only [Mem.pTail_setLen, Mem.list_setList, Mem.pTail_setHead, Mem.list_setPrev,
        Mem.list_setNext]
      refine path_insert_after hbw ?_ ?_ ?_ hx0
      · intro a ha
        have ha2 : a ∈ s2 := by simpa using ha
        have har : a ≠ r := fun e => hr2 (e ▸ ha2)
        have hax : a ≠ x := fun e => hx2 (e ▸ ha2)
        simp [har, hax]
      · simp
      · simp [hxr, hpr]
    · simp [hlen]
  · subst hs1
    simp only [List.concat_eq_append, List.reverse_append, List.reverse_cons,
      List.append_assoc, List.singleton_append, List.cons_append, List.nil_append,
      List.reverse_nil] at hbw hfw hndx hxs hr1 hx1 hdisj hlen hnd1 ⊢
    have hpr : (m.link r).pPrev = y := path_succ hbw
    have hny : (m.link y).pNext = r := path_succ hfw
    have hy0 : y ≠ 0 := path_mem_ne_zero hfw (by simp)
    have hxy : x ≠ y := fun e => hx1 (by simp [e])
    have hry : r ≠ y := fun e => hr1 (by simp [e])
    have hyt : y ∉ t := by
      have := List.nodup_append.mp hnd1
      exact fun e => this.2.2 e (List.mem_singleton_self y)
    simp only [ListInsertBefore, if_neg hguard, if_neg hlen0, hown, ne_eq, not_true_eq_false,
      if_false, if_neg hcap, Option.some.injEq, Prod.mk.injEq, true_and, exists_eq_left',
      Mem.pPrev_setPrev, Mem.pPrev_setNext, if_neg hxr, if_true, hpr, Mem.list_setPrev,
      Mem.list_setNext, Mem.len_setHead, succ_mod_U32 hroom, if_pos hy0]
    refine ⟨?_, ?_, hndx, ?_⟩
    · simp only [Mem.pHead_setLen, Mem.list_setList, Mem.pHead_setHead, Mem.list_setPrev,
        Mem.list_setNext]
      refine path_insert_after hfw ?_ ?_ ?_ hx0
      · intro a ha
        have hax : a ≠ x := fun e => hxs (by
          subst e
          rcases List.mem_append.mp ha with ha | ha
          · simp [ha]
          · rcases List.mem_cons.mp ha with rfl | ha
            · simp
            · simp [ha])
        have hay : a ≠ y := fun e => by
          subst e
          rcases List.mem_append.mp ha with ha | ha
          · exact hyt ha
          · rcases List.mem_cons.mp ha with rfl | ha
            · exact hry rfl
            · exact hdisj _ (by simp) ha
        simp [hax, hay]
      · simp
      · simp [hxy, hny]
    · simp only [List.reverse_append, List.reverse_cons, List.append_assoc,
        List.singleton_append, List.cons_append, List.nil_append, List.reverse_nil]
      simp only [Mem.pTail_setLen, Mem.list_setList, Mem.pTail_setHead, Mem.list_setPrev,
        Mem.list_setNext]
      refine path_insert_after hbw ?_ ?_ ?_ hx0
      · intro a ha
        have hax : a ≠ x := fun e => hxs (by
          subst e
          rcases List.mem_append.mp ha with ha | ha
          · simp [List.mem_reverse.mp ha]
          · rcases List.mem_cons.mp ha with rfl | ha
            · simp
            · simp [List.mem_reverse.mp ha])
        have har : a ≠ r := fun e => by
          subst e
          rcases List.mem_append.mp ha with ha | ha
          · exact hr2 (List.mem_reverse.mp ha)
          · rcases List.mem_cons.mp ha with rfl | ha
            · exact hry rfl
            · exact hr1 (by simp [List.mem_reverse.mp ha])
        simp [hax, har]
      · simp [hxr]
      · simp [hxr, hpr]
    · simp only [Mem.len_setLen, Mem.list_setList, if_true, hlen, List.length_append,
        List.length_cons]
      omega


theorem insertFirst_dll {m : Mem} {l x : Nat} {s : List Nat}
    (hl : l ≠ 0) (hx0 : x ≠ 0) (h : DLL m l s) (hxs : x ∉ s)
    (hcap : ¬ isFull (m.list l)) (hroom : (m.list l).len + 1 < U32) :
    ∃ m1, ListInsertFirst m l x = some (UDELL_PASS, m1) ∧ DLL m1 l (x :: s) := by
  have hlen := h.len
  have hfw := h.fwd
  have hbw := h.bwd
  have hguard : ¬ (x = 0 ∨ l = 0) := by simp [hx0, hl]
  have hndx : (x :: s).Nodup := List.nodup_cons.mpr ⟨hxs, h.nodup⟩
  cases s with
  | nil =>
    have hlen0 : (m.list l).len = 0 := by simpa using hlen
    simp only [ListInsertFirst, if_neg hguard, if_neg hcap, if_pos hlen0, Option.some.injEq,
      Prod.mk.injEq, true_and, exists_eq_left']
    refine ⟨?_, ?_, hndx, ?_⟩
    · simp [Path, hx0]
    · simp [Path, hx0]
    · simp
  | cons r s2 =>
    have hlen0 : (m.list l).len ≠ 0 := by rw [hlen]; simp
    have hhead : (m.list l).pHead = r := hfw.1
    have hr0 : r ≠ 0 := hfw.2.1
    have hxr : x ≠ r := fun e => hxs (by simp [e])
    simp only [List.reverse_cons] at hbw
    have hpr : (m.link r).pPrev = 0 := path_last hbw
    simp only [ListInsertFirst, if_neg hguard, if_neg hcap, if_neg hlen0, hhead, if_neg hr0,
      Option.some.injEq, Prod.mk.injEq, true_and, exists_eq_left', Mem.list_setPrev,
      Mem.list_setNext, Mem.len_setHead, succ_mod_U32 hroom]
    refine ⟨?_, ?_, hndx, ?_⟩
    · simp only [Mem.pHead_setLen, Mem.list_setList, Mem.pHead_setHead, if_true,
        Mem.list_setPrev]
      refine path_insert_front hfw ?_ ?_ hx0
      · intro a ha
        have hax : a ≠ x := fun e => hxs (e ▸ ha)
        simp [hax]
      · simp
    · simp only [List.reverse_cons, List.append_assoc, List.singleton_append]
      simp only [Mem.pTail_setLen, Mem.list_setList, Mem.pTail_setHead, Mem.list_setPrev,
        Mem.list_setNext]
      refine path_insert_after hbw ?_ ?_ ?_ hx0
      · intro a ha
        have ha2 : a ∈ s2 := by simpa using ha
        have har : a ≠ r := fun e => (List.nodup_cons.mp h.nodup).1 (e ▸ ha2)
        have hax : a ≠ x := fun e => hxs (by simp [← e, ha2])
        simp [har, hax]
      · simp [Ne.symm hxr]
      · simp [hpr]
    · simp [hlen]

theorem insertLast_dll {m : Mem} {l x : Nat} {s : List Nat}
    (hl : l ≠ 0) (hx0 : x ≠ 0) (h : DLL m l s) (hxs : x ∉ s)
    (hcap : ¬ isFull (m.list l)) (hroom : (m.list l).len + 1 < U32) :
    ∃ m1, ListInsertLast m l x = some (UDELL_PASS, m1) ∧ DLL m1 l (s ++ [x]) := by
  have hlen := h.len
  have hfw := h.fwd
  have hbw := h.bwd
  have hguard : ¬ (x = 0 ∨ l = 0) := by simp [hx0, hl]
  have hndx : (s ++ [x]).Nodup := by
    have hp : (s ++ [x]).Perm (x :: s) := List.perm_append_singleton x s
    exact hp.nodup_iff.mpr (List.nodup_cons.mpr ⟨hxs, h.nodup⟩)
  rcases List.eq_nil_or_concat s with hs | ⟨t, y, hs⟩
  · subst hs
    have hlen0 : (m.list l).len = 0 := by simpa using hlen
    simp only [ListInsertLast, if_neg hguard, if_neg hcap, if_pos hlen0, Option.some.injEq,
      Prod.mk.injEq, true_and, exists_eq_left']
    refine ⟨?_, ?_, hndx, ?_⟩
    · simp [Path, hx0]
    · simp [Path, hx0]
    · simp
  · subst hs
    simp only [List.concat_eq_append, List.reverse_append, List.reverse_cons,
      List.append_assoc, List.singleton_append, List.cons_append, List.nil_append,
      List.reverse_nil] at hbw hfw hndx hxs hlen ⊢
    have hlen0 : (m.list l).len ≠ 0 := by rw [hlen]; simp
    have htail : (m.list l).pTail = y := hbw.1
    have hy0 : y ≠ 0 := hbw.2.1
    have hxy : x ≠ y := fun e => hxs (by simp [e])
    have hny : (m.link y).pNext = 0 := path_last hfw
    have hyt : y ∉ t := by
      have hnd := h.nodup
      rw [List.concat_eq_append] at hnd
      exact fun e => (List.nodup_append.mp hnd).2.2 e (List.mem_singleton_self y)
    simp only [ListInsertLast, if_neg hguard, if_neg hcap, if_neg hlen0, htail, if_neg hy0,
      Option.some.injEq, Prod.mk.injEq, true_and, exists_eq_left', Mem.list_setPrev,
      Mem.list_setNext, Mem.len_setTail, succ_mod_U32 hroom]
    refine ⟨?_, ?_, hndx, ?_⟩
    · simp only [Mem.pHead_setLen, Mem.list_setList, Mem.pHead_setTail, Mem.list_setPrev,
        Mem.list_setNext]
      refine path_insert_after hfw ?_ ?_ ?_ hx0
      · intro a ha
        have ha2 : a ∈ t := by simpa using ha
        have hay : a ≠ y := fun e => hyt (e ▸ ha2)
        have hax : a ≠ x := fun e => hxs (by simp [← e, ha2])
        simp [hay, hax]
      · simp [Ne.symm hxy]
      · simp [hny]
    · simp only [List.reverse_append, List.reverse_cons, List.append_assoc,
        List.singleton_append, List.cons_append, List.nil_append, List.reverse_nil]
      simp only [Mem.pTail_setLen, Mem.list_setList, Mem.pTail_setTail, if_true,
        Mem.list_setNext]
      refine path_insert_front hbw ?_ ?_ hx0
      · intro a ha
        have hax : a ≠ x := fun e => hxs (by
          subst e
          rcases List.mem_cons.mp ha with rfl | ha
          · simp
          · simp [List.mem_reverse.mp ha])
        simp [hax]
      · simp
    · simp only [Mem.len_setLen, Mem.list_setList, if_true, hlen, List.length_append,
        List.length_cons, List.length_nil]


/-- The decrement `list->len -= 1` is exact on a non-zero `uint32_t`. -/
theorem pred_mod_U32 {n : Nat} (h0 : n ≠ 0) (h : n < U32) : (n + U32 - 1) % U32 = n - 1 := by
  have : n + U32 - 1 = (n - 1) + U32 := by omega
  rw [this, Nat.add_mod_right]
  exact Nat.mod_eq_of_lt (by omega)

theorem nodup_erase_mid {x : Nat} {s1 s2 : List Nat} (h : (s1 ++ x :: s2).Nodup) :
    (s1 ++ s2).Nodup := by
  have hp : (s1 ++ x :: s2).Perm (x :: (s1 ++ s2)) := List.perm_middle
  exact (List.nodup_cons.mp (hp.nodup_iff.mp h)).2

/-- The last link of a chain of at least two links points to the end. -/
theorem path_last_two {f : Nat → Nat} {e c y x : Nat} {s1 : List Nat}
    (h : Path f e c (s1 ++ [y, x])) : f x = e := by
  have h2 : Path f e c ((s1 ++ [y]) ++ [x]) := by simpa using h
  exact path_last h2

theorem removeLink_dll {m : Mem} {l x : Nat} {s1 s2 : List Nat}
    (hl : l ≠ 0) (h : DLL m l (s1 ++ x :: s2)) (hown : (m.link x).pList = l)
    (hty : (m.list l).len < U32) :
    ∃ m1, ListRemoveLink m l x = some (UDELL_PASS, m1) ∧ DLL m1 l (s1 ++ s2) := by
  have hx0 : x ≠ 0 := path_mem_ne_zero h.fwd (by simp)
  have hlen := h.len
  have hlen0 : (m.list l).len ≠ 0 := by rw [hlen]; simp
  have hpred := pred_mod_U32 hlen0 hty
  obtain ⟨hx1, hx2, hdisj, hnd1, hnd2⟩ := nodup_split h.nodup
  have hnd : (s1 ++ s2).Nodup := nodup_erase_mid h.nodup
  have hfw := h.fwd
  have hbw := h.bwd
  have hguard : ¬ (x = 0 ∨ l = 0) := by simp [hx0, hl]
  rcases List.eq_nil_or_concat s1 with hs1 | ⟨t, p, hs1⟩
  · subst hs1
    cases s2 with
    | nil =>
      have hlen1 : (m.list l).len = 1 := by simpa using hlen
      simp only [ListRemoveLink, if_neg hguard, if_neg hlen0, hown, ne_eq, not_true_eq_false,
        if_false, if_pos hlen1, Option.some.injEq, Prod.mk.injEq, true_and, exists_eq_left']
      refine ⟨?_, ?_, hnd, ?_⟩
      · simp [Path]
      · simp [Path]
      · simp
    | cons n s2 =>
      have hlen1 : (m.list l).len ≠ 1 := by rw [hlen]; simp
      simp only [List.reverse_append, List.reverse_cons, List.append_assoc,
        List.singleton_append, List.cons_append, List.nil_append, List.reverse_nil]
        at hbw hfw hlen ⊢
      have hpx : (m.link x).pPrev = 0 := path_last_two hbw
      have hnx : (m.link x).pNext = n := path_succ (s := []) hfw
      have hn0 : n ≠ 0 := path_mem_ne_zero hfw (by simp)
      have hxn : x ≠ n := fun e => hx2 (by simp [e])
      have e1 : removePrevSide m l x = some ((m.setHead l n).setPrev n 0) := by
        simp [removePrevSide, hpx, hnx, hn0]
      have e2 : removeNextSide ((m.setHead l n).setPrev n 0) l x
          = some (((m.setHead l n).setPrev n 0).setPrev n 0) := by
        simp [removeNextSide, hpx, hnx, hn0, hxn]
      simp only [ListRemoveLink, if_neg hguard, if_neg hlen0, hown, ne_eq, not_true_eq_false,
        if_false, if_neg hlen1, e1, e2, Option.some.injEq, Prod.mk.injEq, true_and,
        exists_eq_left']
      refine ⟨?_, ?_, hnd, ?_⟩
      · simp only [Mem.pHead_setLen, Mem.list_setList, Mem.list_setNext, Mem.list_setPrev,
          Mem.pHead_setHead, if_true]
        have hb := path_remove_front (f := m.next) (g := fun a => if a = x then 0
          else (m.link a).pNext) hfw ?_
        · rw [Mem.next_apply, hnx] at hb
          refine path_congr ?_ hb
          intro a _
          by_cases hax : a = x <;> simp [hax]
        · intro a ha
          have hax : a ≠ x := fun e => hx2 (by simp [← e, ha])
          simp [hax]
      · simp only [List.reverse_cons]
        simp only [Mem.pTail_setLen, Mem.list_setList, Mem.list_setNext, Mem.list_setPrev,
          Mem.pTail_setHead]
        have hb := path_remove_after (g := fun a => if a = x then 0 else if a = n then 0
          else (m.link a).pPrev) hbw ?_ ?_
        · simp only [List.append_nil] at hb
          refine path_congr ?_ hb
          intro a _
          by_cases hax : a = x <;> by_cases han : a = n <;> simp [hax, han]
        · intro a ha
          have ha2 : a ∈ s2 := by simpa using ha
          have hax : a ≠ x := fun e => hx2 (by simp [← e, ha2])
          have han : a ≠ n := fun e => (List.nodup_cons.mp hnd2).1 (e ▸ ha2)
          simp [hax, han]
        · simp [Ne.symm hxn, hpx]
      · simp only [Mem.len_setLen, Mem.list_setList, Mem.list_setNext, Mem.list_setPrev,
          Mem.len_setHead, if_true]
        rw [hpred, hlen]
        simp
  · subst hs1
    simp only [List.concat_eq_append, List.append_assoc, List.singleton_append] at *
    have hpt : p ∉ t := fun e => (List.nodup_append.mp hnd1).2.2 e (List.mem_singleton_self p)
    have hxt : x ∉ t := fun e => hx1 (by simp [e])
    have hxp : x ≠ p := fun e => hx1 (by simp [e])
    have hp0 : p ≠ 0 := path_mem_ne_zero hfw (by simp)
    have hlen1 : (m.list l).len ≠ 1 := by rw [hlen]; simp; omega
    have hnp : (m.link p).pNext = x := path_succ hfw
    cases s2 with
    | nil =>
      simp only [List.reverse_append, List.reverse_cons, List.append_assoc,
        List.singleton_append, List.cons_append, List.nil_append, List.reverse_nil]
        at hbw hfw hlen ⊢
      have hpx : (m.link x).pPrev = p := path_succ (s := []) hbw
      have hnx : (m.link x).pNext = 0 := path_last_two hfw
      have e1 : removePrevSide m l x = some (m.setNext p 0) := by
        simp [removePrevSide, hpx, hnx, hp0]
      have e2 : removeNextSide (m.setNext p 0) l x
          = some (((m.setNext p 0).setTail l p).setNext p 0) := by
        simp [removeNextSide, hpx, hnx, hp0, hxp]
      simp only [ListRemoveLink, if_neg hguard, if_neg hlen0, hown, ne_eq, not_true_eq_false,
        if_false, if_neg hlen1, e1, e2, Option.some.injEq, Prod.mk.injEq, true_and,
        exists_eq_left']
      refine ⟨?_, ?_, hnd, ?_⟩
      · simp only [Mem.pHead_setLen, Mem.list_setList, Mem.list_setNext, Mem.list_setPrev,
          Mem.pHead_setTail]
        have hb := path_remove_after (g := fun a => if a = x then 0 else if a = p then 0
          else (m.link a).pNext) hfw ?_ ?_
        · refine path_congr ?_ hb
          intro a _
          by_cases hax : a = x <;> by_cases hap : a = p <;> simp [hax, hap]
        · intro a ha
          have ha2 : a ∈ t := by simpa using ha
          have hax : a ≠ x := fun e => hxt (e ▸ ha2)
          have hap : a ≠ p := fun e => hpt (e ▸ ha2)
          simp [hax, hap]
        · simp [Ne.symm hxp, hnx]
      · simp only [List.reverse_append, List.reverse_cons, List.append_assoc,
          List.singleton_append, List.cons_append, List.nil_append, List.reverse_nil,
          List.append_nil]
        simp only [Mem.pTail_setLen, Mem.list_setList, Mem.list_setNext, Mem.list_setPrev,
          Mem.pTail_setTail, if_true]
        have hb := path_remove_front (f := m.prev) (g := fun a => if a = x then 0
          else (m.link a).pPrev) hbw ?_
        · rw [Mem.prev_apply, hpx] at hb
          refine path_congr ?_ hb
          intro a _
          by_cases hax : a = x <;> simp [hax]
        · intro a ha
          have hax : a ≠ x := fun e => by
            subst e
            rcases List.mem_cons.mp ha with e | ha
            · exact hxp e
            · exact hxt (List.mem_reverse.mp ha)
          simp [hax]
      · simp only [Mem.len_setLen, Mem.list_setList, Mem.list_setNext, Mem.list_setPrev,
          Mem.len_setTail, if_true]
        rw [hpred, hlen]
        simp
    | cons n s2 =>
      simp only [List.reverse_append, List.reverse_cons, List.append_assoc,
        List.singleton_append, List.cons_append, List.nil_append, List.reverse_nil]
        at hbw hfw hlen ⊢
      have hpx : (m.link x).pPrev = p := path_succ (s := s2.reverse ++ [n]) (by simpa using hbw)
      have hnx : (m.link x).pNext = n := path_succ (s := t ++ [p]) (by simpa using hfw)
      have hn0 : n ≠ 0 := path_mem_ne_zero hfw (by simp)
      have hxn : x ≠ n := fun e => hx2 (by simp [e])
      have hpn : p ≠ n := fun e => hdisj p (by simp) (by simp [e])
      have e1 : removePrevSide m l x = some (m.setNext p n) := by
        simp [removePrevSide, hpx, hnx, hp0]
      have e2 : removeNextSide (m.setNext p n) l x = some ((m.setNext p n).setPrev n p) := by
        simp [removeNextSide, hpx, hnx, hn0, hxp]
      simp only [ListRemoveLink, if_neg hguard, if_neg hlen0, hown, ne_eq, not_true_eq_false,
        if_false, if_neg hlen1, e1, e2, Option.some.injEq, Prod.mk.injEq, true_and,
        exists_eq_left']
      refine ⟨?_, ?_, hnd, ?_⟩
      · simp only [Mem.pHead_setLen, Mem.list_setList, Mem.list_setNext, Mem.list_setPrev]
        have hb := path_remove_after (g := fun a => if a = x then 0 else if a = p then n
          else (m.link a).pNext) hfw ?_ ?_
        · refine path_congr ?_ hb
          intro a _
          by_cases hax : a = x <;> by_cases hap : a = p <;> simp [hax, hap]
        · intro a ha
          have hax : a ≠ x := fun e => by
            subst e
            rcases List.mem_append.mp ha with ha | ha
            · exact hxt ha
            · exact hx2 ha
          have hap : a ≠ p := fun e => by
            subst e
            rcases List.mem_append.mp ha with ha | ha
            · exact hpt ha
            · exact hdisj a (by simp) ha
          simp [hax, hap]
        · simp [Ne.symm hxp, hnx]
      · simp only [List.reverse_append, List.reverse_cons, List.append_assoc,
          List.singleton_append, List.cons_append, List.nil_append, List.reverse_nil]
        simp only [Mem.pTail_setLen, Mem.list_setList, Mem.list_setNext, Mem.list_setPrev]
        have hb := path_remove_after (g := fun a => if a = x then 0 else if a = n then p
          else (m.link a).pPrev) hbw ?_ ?_
        · refine path_congr ?_ hb
          intro a _
          by_cases hax : a = x <;> by_cases han : a = n <;> simp [hax, han]
        · intro a ha
          have hax : a ≠ x := fun e => by
            subst e
            rcases List.mem_append.mp ha with ha | ha
            · exact hx2 (by simp [List.mem_reverse.mp ha])
            · rcases List.mem_cons.mp ha with e | ha
              · exact hxp e
              · exact hxt (List.mem_reverse.mp ha)
          have han : a ≠ n := fun e => by
            subst e
            rcases List.mem_append.mp ha with ha | ha
            · exact (List.nodup_cons.mp hnd2).1 (List.mem_reverse.mp ha)
            · rcases List.mem_cons.mp ha with e | ha
              · exact hpn e.symm
              · exact hdisj a (by simp [List.mem_reverse.mp ha]) (by simp)
          simp [hax, han]
        · simp [Ne.symm hxn, hpx]
      · simp only [Mem.len_setLen, Mem.list_setList, Mem.list_setNext, Mem.list_setPrev,
          if_true]
        rw [hpred, hlen]
        simp only [List.length_append, List.length_cons]
        omega


/-! ## What the calls leave alone, and what a passing call has checked -/

theorem pass_ne_fail : UDELL_PASS ≠ UDELL_FAIL := by decide

theorem insertFirst_maxLen {m m1 : Mem} {l x : Nat} {v : Int}
    (h : ListInsertFirst m l x = some (v, m1)) (k : Nat) :
    (m1.list k).maxLen = (m.list k).maxLen := by
  unfold ListInsertFirst at h
  split_ifs at h <;> simp only [failWith, Option.some.injEq, Prod.mk.injEq] at h <;>
    obtain ⟨-, rfl⟩ := h <;> simp

theorem insertLast_maxLen {m m1 : Mem} {l x : Nat} {v : Int}
    (h : ListInsertLast m l x = some (v, m1)) (k : Nat) :
    (m1.list k).maxLen = (m.list k).maxLen := by
  unfold ListInsertLast at h
  split_ifs at h <;> simp only [failWith, Option.some.injEq, Prod.mk.injEq] at h <;>
    obtain ⟨-, rfl⟩ := h <;> simp

theorem insertAfter_maxLen {m m1 : Mem} {l r x : Nat} {v : Int}
    (h : ListInsertAfter m l r x = some (v, m1)) (k : Nat) :
    (m1.list k).maxLen = (m.list k).maxLen := by
  unfold ListInsertAfter at h
  split_ifs at h <;> simp only [failWith, Option.some.injEq, Prod.mk.injEq] at h <;>
    obtain ⟨-, rfl⟩ := h <;> (try split) <;> simp

theorem insertBefore_maxLen {m m1 : Mem} {l r x : Nat} {v : Int}
    (h : ListInsertBefore m l r x = some (v, m1)) (k : Nat) :
    (m1.list k).maxLen = (m.list k).maxLen := by
  unfold ListInsertBefore at h
  split_ifs at h <;> simp only [failWith, Option.some.injEq, Prod.mk.injEq] at h <;>
    obtain ⟨-, rfl⟩ := h <;> (try split) <;> simp

theorem insertFirst_pList {m m1 : Mem} {l x : Nat} {v : Int}
    (h : ListInsertFirst m l x = some (v, m1)) (a : Nat) (ha : a ≠ x) :
    (m1.link a).pList = (m.link a).pList := by
  unfold ListInsertFirst at h
  split_ifs at h <;> simp only [failWith, Option.some.injEq, Prod.mk.injEq] at h <;>
    obtain ⟨-, rfl⟩ := h <;> simp [ha]

theorem insertLast_pList {m m1 : Mem} {l x : Nat} {v : Int}
    (h : ListInsertLast m l x = some (v, m1)) (a : Nat) (ha : a ≠ x) :
    (m1.link a).pList = (m.link a).pList := by
  unfold ListInsertLast at h
  split_ifs at h <;> simp only [failWith, Option.some.injEq, Prod.mk.injEq] at h <;>
    obtain ⟨-, rfl⟩ := h <;> simp [ha]

theorem insertAfter_pList {m m1 : Mem} {l r x : Nat} {v : Int}
    (h : ListInsertAfter m l r x = some (v, m1)) (a : Nat) (ha : a ≠ x) :
    (m1.link a).pList = (m.link a).pList := by
  unfold ListInsertAfter at h
  split_ifs at h <;> simp only [failWith, Option.some.injEq, Prod.mk.injEq] at h <;>
    obtain ⟨-, rfl⟩ := h <;> (try split) <;> simp [ha]

theorem insertBefore_pList {m m1 : Mem} {l r x : Nat} {v : Int}
    (h : ListInsertBefore m l r x = some (v, m1)) (a : Nat) (ha : a ≠ x) :
    (m1.link a).pList = (m.link a).pList := by
  unfold ListInsertBefore at h
  split_ifs at h <;> simp only [failWith, Option.some.injEq, Prod.mk.injEq] at h <;>
    obtain ⟨-, rfl⟩ := h <;> (try split) <;> simp [ha]

/-- The general case of `ListRemoveLink` changes no capacity and no other owner. -/
theorem removeSides_frame {m ma mb : Mem} {l x : Nat}
    (h1 : removePrevSide m l x = some ma) (h2 : removeNextSide ma l x = some mb) :
    (∀ k, (mb.list k).maxLen = (m.list k).maxLen) ∧
    (∀ k, (mb.list k).len = (m.list k).len) ∧
    (∀ a, (mb.link a).pList = (m.link a).pList) := by
  have e1 : (∀ k, (ma.list k).maxLen = (m.list k).maxLen) ∧
      (∀ k, (ma.list k).len = (m.list k).len) ∧
      (∀ a, (ma.link a).pList = (m.link a).pList) := by
    simp only [removePrevSide] at h1
    split_ifs at h1 <;>
      first
      | (simp at h1; done)
      | (simp only [Option.some.injEq] at h1; subst h1; simp)
  have e2 : (∀ k, (mb.list k).maxLen = (ma.list k).maxLen) ∧
      (∀ k, (mb.list k).len = (ma.list k).len) ∧
      (∀ a, (mb.link a).pList = (ma.link a).pList) := by
    simp only [removeNextSide] at h2
    split_ifs at h2 <;>
      first
      | (simp at h2; done)
      | (simp only [Option.some.injEq] at h2; subst h2; simp)
  exact ⟨fun k => (e2.1 k).trans (e1.1 k), fun k => (e2.2.1 k).trans (e1.2.1 k),
    fun a => (e2.2.2 a).trans (e1.2.2 a)⟩

theorem removeLink_maxLen {m m1 : Mem} {l x : Nat} {v : Int}
    (h : ListRemoveLink m l x = some (v, m1)) (k : Nat) :
    (m1.list k).maxLen = (m.list k).maxLen := by
  unfold ListRemoveLink at h
  split_ifs at h
  · simp only [failWith, Option.some.injEq, Prod.mk.injEq] at h
    obtain ⟨-, rfl⟩ := h; simp
  · simp only [failWith, Option.some.injEq, Prod.mk.injEq] at h
    obtain ⟨-, rfl⟩ := h; simp
  · simp only [failWith, Option.some.injEq, Prod.mk.injEq] at h
    obtain ⟨-, rfl⟩ := h; simp
  · simp only [Option.some.injEq, Prod.mk.injEq] at h
    obtain ⟨-, rfl⟩ := h; simp
  · cases h1 : removePrevSide m l x with
    | none => simp [h1] at h
    | some ma =>
      cases h2 : removeNextSide ma l x with
      | none => simp [h1, h2] at h
      | some mb =>
        simp only [h1, h2, Option.some.injEq, Prod.mk.injEq] at h
        obtain ⟨-, rfl⟩ := h
        simp [(removeSides_frame h1 h2).1 k]

theorem removeLink_pList {m m1 : Mem} {l x : Nat} {v : Int}
    (h : ListRemoveLink m l x = some (v, m1)) (a : Nat) (ha : a ≠ x) :
    (m1.link a).pList = (m.link a).pList := by
  unfold ListRemoveLink at h
  split_ifs at h
  · simp only [failWith, Option.some.injEq, Prod.mk.injEq] at h
    obtain ⟨-, rfl⟩ := h; simp
  · simp only [failWith, Option.some.injEq, Prod.mk.injEq] at h
    obtain ⟨-, rfl⟩ := h; simp
  · simp only [failWith, Option.some.injEq, Prod.mk.injEq] at h
    obtain ⟨-, rfl⟩ := h; simp
  · simp only [Option.some.injEq, Prod.mk.injEq] at h
    obtain ⟨-, rfl⟩ := h; simp
  · cases h1 : removePrevSide m l x with
    | none => simp [h1] at h
    | some ma =>
      cases h2 : removeNextSide ma l x with
      | none => simp [h1, h2] at h
      | some mb =>
        simp only [h1, h2, Option.some.injEq, Prod.mk.injEq] at h
        obtain ⟨-, rfl⟩ := h
        simp [(removeSides_frame h1 h2).2.2 a, ha]

theorem failWith_ne_pass (m m1 : Mem) (e : Int) : failWith m e ≠ some (UDELL_PASS, m1) := by
  simp [failWith, UDELL_PASS, UDELL_FAIL]

theorem failWith_eq {m m1 : Mem} {e : Int} {v : Int} (h : failWith m e = some (v, m1)) :
    v = UDELL_FAIL ∧ m1 = m.setErrno e := by
  simp only [failWith, Option.some.injEq, Prod.mk.injEq] at h
  exact ⟨h.1.symm, h.2.symm⟩

/-- A passing `ListInsertFirst` went through both checks. -/
theorem insertFirst_pass {m m1 : Mem} {l x : Nat}
    (h : ListInsertFirst m l x = some (UDELL_PASS, m1)) :
    l ≠ 0 ∧ x ≠ 0 ∧ ¬ isFull (m.list l) := by
  unfold ListInsertFirst at h
  by_cases h1 : x = 0 ∨ l = 0
  · rw [if_pos h1] at h; exact absurd h (failWith_ne_pass _ _ _)
  · by_cases h2 : isFull (m.list l)
    · rw [if_neg h1, if_pos h2] at h; exact absurd h (failWith_ne_pass _ _ _)
    · simp only [not_or] at h1; exact ⟨h1.2, h1.1, h2⟩

theorem insertLast_pass {m m1 : Mem} {l x : Nat}
    (h : ListInsertLast m l x = some (UDELL_PASS, m1)) :
    l ≠ 0 ∧ x ≠ 0 ∧ ¬ isFull (m.list l) := by
  unfold ListInsertLast at h
  by_cases h1 : x = 0 ∨ l = 0
  · rw [if_pos h1] at h; exact absurd h (failWith_ne_pass _ _ _)
  · by_cases h2 : isFull (m.list l)
    · rw [if_neg h1, if_pos h2] at h; exact absurd h (failWith_ne_pass _ _ _)
    · simp only [not_or] at h1; exact ⟨h1.2, h1.1, h2⟩

theorem insertAfter_pass {m m1 : Mem} {l r x : Nat}
    (h : ListInsertAfter m l r x = some (UDELL_PASS, m1)) :
    l ≠ 0 ∧ x ≠ 0 ∧ (m.link r).pList = l ∧ ¬ isFull (m.list l) := by
  unfold ListInsertAfter at h
  by_cases h1 : r = 0 ∨ x = 0 ∨ l = 0
  · rw [if_pos h1] at h; exact absurd h (failWith_ne_pass _ _ _)
  · by_cases h2 : (m.list l).len = 0
    · rw [if_neg h1, if_pos h2] at h; exact absurd h (failWith_ne_pass _ _ _)
    · by_cases h3 : (m.link r).pList ≠ l
      · rw [if_neg h1, if_neg h2, if_pos h3] at h; exact absurd h (failWith_ne_pass _ _ _)
      · by_cases h4 : isFull (m.list l)
        · rw [if_neg h1, if_neg h2, if_neg h3, if_pos h4] at h
          exact absurd h (failWith_ne_pass _ _ _)
        · simp only [not_or] at h1; exact ⟨h1.2.2, h1.2.1, not_not.mp h3, h4⟩

theorem insertBefore_pass {m m1 : Mem} {l r x : Nat}
    (h : ListInsertBefore m l r x = some (UDELL_PASS, m1)) :
    l ≠ 0 ∧ x ≠ 0 ∧ (m.link r).pList = l ∧ ¬ isFull (m.list l) := by
  unfold ListInsertBefore at h
  by_cases h1 : r = 0 ∨ x = 0 ∨ l = 0
  · rw [if_pos h1] at h; exact absurd h (failWith_ne_pass _ _ _)
  · by_cases h2 : (m.list l).len = 0
    · rw [if_neg h1, if_pos h2] at h; exact absurd h (failWith_ne_pass _ _ _)
    · by_cases h3 : (m.link r).pList ≠ l
      · rw [if_neg h1, if_neg h2, if_pos h3] at h; exact absurd h (failWith_ne_pass _ _ _)
      · by_cases h4 : isFull (m.list l)
        · rw [if_neg h1, if_neg h2, if_neg h3, if_pos h4] at h
          exact absurd h (failWith_ne_pass _ _ _)
        · simp only [not_or] at h1; exact ⟨h1.2.2, h1.2.1, not_not.mp h3, h4⟩

theorem removeLink_pass {m m1 : Mem} {l x : Nat}
    (h : ListRemoveLink m l x = some (UDELL_PASS, m1)) :
    l ≠ 0 ∧ x ≠ 0 ∧ (m.link x).pList = l := by
  unfold ListRemoveLink at h
  by_cases h1 : x = 0 ∨ l = 0
  · rw [if_pos h1] at h; exact absurd h (failWith_ne_pass _ _ _)
  · by_cases h2 : (m.list l).len = 0
    · rw [if_neg h1, if_pos h2] at h; exact absurd h (failWith_ne_pass _ _ _)
    · by_cases h3 : (m.link x).pList ≠ l
      · rw [if_neg h1, if_neg h2, if_pos h3] at h; exact absurd h (failWith_ne_pass _ _ _)
      · simp only [not_or] at h1; exact ⟨h1.2, h1.1, not_not.mp h3⟩


/-! ## Sequences of calls -/

theorem listInit_dll {m : Mem} {l : Nat} (hl : l ≠ 0) :
    ListInit m l = some (UDELL_PASS, after m (ListInit m l)) ∧
    DLL (after m (ListInit m l)) l [] ∧
    ((after m (ListInit m l)).list l).maxLen = UDELL_NOLIMIT := by
  have e : ListInit m l = some (UDELL_PASS,
      (((m.setHead l 0).setTail l 0).setLen l 0).setMaxLen l UDELL_NOLIMIT) := by
    simp only [ListInit, if_neg hl]
  rw [e]
  refine ⟨rfl, ⟨?_, ?_, List.nodup_nil, ?_⟩, ?_⟩ <;> simp [Path, after]

theorem not_isFull_of_nolimit {L : udellList} (h : L.maxLen = UDELL_NOLIMIT) : ¬ isFull L :=
  fun hf => hf.1 h

theorem insertLastAll_dll {l : Nat} (hl : l ≠ 0) :
    ∀ (as : List Nat) (m : Mem) (s : List Nat), DLL m l s →
      (m.list l).maxLen = UDELL_NOLIMIT → (s ++ as).Nodup → 0 ∉ as →
      (s ++ as).length < U32 → DLL (insertLastAll m l as) l (s ++ as)
  | [], m, s, h, _, _, _, _ => by simpa [insertLastAll] using h
  | a :: as, m, s, h, hcap, hnd, h0, hlen => by
    have ha0 : a ≠ 0 := fun e => h0 (by simp [e])
    have has : a ∉ s := by
      intro e
      exact (List.nodup_append.mp hnd).2.2 e (List.mem_cons_self _ _)
    have hroom : (m.list l).len + 1 < U32 := by
      rw [h.len]
      simp only [List.length_append, List.length_cons] at hlen
      omega
    obtain ⟨m1, hm1, hd1⟩ :=
      insertLast_dll hl ha0 h has (not_isFull_of_nolimit hcap) hroom
    have hcap1 : (m1.list l).maxLen = UDELL_NOLIMIT := by
      rw [insertLast_maxLen hm1 l]; exact hcap
    have hstep : insertLastAll m l (a :: as) = insertLastAll m1 l as := by
      simp [insertLastAll, hm1, after]
    rw [hstep]
    have := insertLastAll_dll hl as m1 (s ++ [a]) hd1 hcap1 (by simpa using hnd)
      (fun e => h0 (List.mem_cons_of_mem _ e)) (by simpa using hlen)
    simpa using this

/-- Along a chain every link records its successor. -/
theorem path_getElem {f : Nat → Nat} {e : Nat} :
    ∀ {s : List Nat} {c : Nat}, Path f e c s → ∀ (i : Nat) (hi : i + 1 < s.length),
      f (s.get ⟨i, Nat.lt_of_succ_lt hi⟩) = s.get ⟨i + 1, hi⟩
  | [], _, _, i, hi => by simp at hi
  | [_], _, _, i, hi => by simp at hi
  | x :: y :: xs, _, h, 0, _ => h.2.2.1
  | x :: y :: xs, _, h, i + 1, hi => by
    have := path_getElem h.2.2 i (by simpa using hi)
    simpa using this

theorem path_getLast {f : Nat → Nat} {e c : Nat} {s : List Nat} (h : Path f e c s)
    (hs : s ≠ []) : f (s.getLast hs) = e := by
  rcases List.eq_nil_or_concat s with h0 | ⟨t, y, rfl⟩
  · exact absurd h0 hs
  · simp only [List.concat_eq_append] at h ⊢
    rw [List.getLast_append_singleton]
    exact path_last h

theorem DLL.head_of_ne_nil {m : Mem} {l : Nat} {s : List Nat} (h : DLL m l s) (hs : s ≠ []) :
    (m.list l).pHead = s.head hs := by
  cases s with
  | nil => exact absurd rfl hs
  | cons x xs => exact h.fwd.1

theorem DLL.tail_of_ne_nil {m : Mem} {l : Nat} {s : List Nat} (h : DLL m l s) (hs : s ≠ []) :
    (m.list l).pTail = s.getLast hs := by
  rcases List.eq_nil_or_concat s with h0 | ⟨t, y, rfl⟩
  · exact absurd h0 hs
  · have hb := h.bwd
    simp only [List.concat_eq_append, List.reverse_append, List.reverse_cons,
      List.reverse_nil, List.nil_append, List.singleton_append] at hb ⊢
    rw [List.getLast_append_singleton]
    exact hb.1


/-! ## Insertion at the ends -/

/-- C1: on a well-formed list with capacity available, `ListInsertFirst` of a fresh valid
link returns pass and puts the link in front of the forward walk, `ListInsertLast` returns
pass and puts it behind the forward walk; in particular, after `ListInit`, inserting distinct
fresh links `as` with `ListInsertLast` makes `ListGetHead` return the first of them,
`ListGetTail` the last, `LinkGetNext` of each one the following one, and `LinkGetNext` of the
last one fail with `UDELL_ETAIL`. -/
theorem insertFirst_insertLast_walk (m : Mem) (l x : Nat) (hl : l ≠ 0) (hx : x ≠ 0)
    (hwf : WellFormed m l) (hfresh : x ∉ fwdWalk m l) (hcap : ¬ isFull (m.list l))
    (hroom : (m.list l).len + 1 < U32) :
    (∃ m1, ListInsertFirst m l x = some (UDELL_PASS, m1) ∧
      fwdWalk m1 l = x :: fwdWalk m l) ∧
    (∃ m1, ListInsertLast m l x = some (UDELL_PASS, m1) ∧
      fwdWalk m1 l = fwdWalk m l ++ [x]) ∧
    (∀ (m0 : Mem) (as : List Nat) (hne : as ≠ []), as.Nodup → 0 ∉ as → as.length < U32 →
      ListGetHead (insertLastAll (after m0 (ListInit m0 l)) l as) l
        = (as.head hne, insertLastAll (after m0 (ListInit m0 l)) l as) ∧
      ListGetTail (insertLastAll (after m0 (ListInit m0 l)) l as) l
        = (as.getLast hne, insertLastAll (after m0 (ListInit m0 l)) l as) ∧
      (∀ (i : Nat) (hi : i + 1 < as.length),
        LinkGetNext (insertLastAll (after m0 (ListInit m0 l)) l as)
            (as.get ⟨i, Nat.lt_of_succ_lt hi⟩)
          = (as.get ⟨i + 1, hi⟩, insertLastAll (after m0 (ListInit m0 l)) l as)) ∧
      LinkGetNext (insertLastAll (after m0 (ListInit m0 l)) l as) (as.getLast hne)
        = (0, (insertLastAll (after m0 (ListInit m0 l)) l as).setErrno UDELL_ETAIL)) := by
  have hd := hwf.dll
  refine ⟨?_, ?_, ?_⟩
  · obtain ⟨m1, h1, hd1⟩ := insertFirst_dll hl hx hd hfresh hcap hroom
    exact ⟨m1, h1, hd1.fwdWalk_eq⟩
  · obtain ⟨m1, h1, hd1⟩ := insertLast_dll hl hx hd hfresh hcap hroom
    exact ⟨m1, h1, hd1.fwdWalk_eq⟩
  · intro m0 as hne hnd h0 hlen
    obtain ⟨_, hinit, hcap0⟩ := listInit_dll (m := m0) hl
    have hD : DLL (insertLastAll (after m0 (ListInit m0 l)) l as) l as := by
      have := insertLastAll_dll hl as _ [] hinit hcap0 (by simpa using hnd) h0
        (by simpa using hlen)
      simpa using this
    generalize insertLastAll (after m0 (ListInit m0 l)) l as = mf at hD
    have hlen0 : (mf.list l).len ≠ 0 := by
      rw [hD.len]; exact fun e => hne (List.length_eq_zero.mp e)
    refine ⟨?_, ?_, ?_, ?_⟩
    · simp only [ListGetHead, if_neg hl, if_neg hlen0, hD.head_of_ne_nil hne]
    · simp only [ListGetTail, if_neg hl, if_neg hlen0, hD.tail_of_ne_nil hne]
    · intro i hi
      have hmem : as.get ⟨i, Nat.lt_of_succ_lt hi⟩ ∈ as := List.get_mem _ _ _
      have hmem1 : as.get ⟨i + 1, hi⟩ ∈ as := List.get_mem _ _ _
      have hn0 : as.get ⟨i, Nat.lt_of_succ_lt hi⟩ ≠ 0 := fun e => h0 (e ▸ hmem)
      have hn1 : as.get ⟨i + 1, hi⟩ ≠ 0 := fun e => h0 (e ▸ hmem1)
      have hnext := path_getElem hD.fwd i hi
      simp only [Mem.next_apply] at hnext
      simp only [LinkGetNext, if_neg hn0, hnext, if_neg hn1]
    · have hmem : as.getLast hne ∈ as := List.getLast_mem hne
      have hn0 : as.getLast hne ≠ 0 := fun e => h0 (e ▸ hmem)
      have hnext := path_getLast hD.fwd hne
      simp only [Mem.next_apply] at hnext
      simp only [LinkGetNext, if_neg hn0, hnext, if_true]

/-- Witness for C1: a fresh link `20` put in front of the list `[10]`. -/
theorem insertFirst_insertLast_walk_witness :
    WellFormed sampleOne 1 ∧ 20 ∉ fwdWalk sampleOne 1 ∧ ¬ isFull (sampleOne.list 1) ∧
    (∃ m1, ListInsertFirst sampleOne 1 20 = some (UDELL_PASS, m1) ∧
      fwdWalk m1 1 = 20 :: fwdWalk sampleOne 1) :=
  ⟨by decide, by decide, by decide,
    (insertFirst_insertLast_walk sampleOne 1 20 (by decide) (by decide) (by decide)
      (by decide) (by decide) (by decide)).1⟩


/-! ## Insertion next to a reference link -/

/-- A chain starts inside its first non-empty part. -/
theorem path_start_mem {f : Nat → Nat} {e c : Nat} {a b : List Nat}
    (h : Path f e c (a ++ b)) (ha : a ≠ []) : c ∈ a := by
  cases a with
  | nil => exact absurd rfl ha
  | cons y ys => rw [h.1]; exact List.mem_cons_self _ _

/-- The tail of a list split behind `r` is `r` exactly when nothing follows `r`. -/
theorem DLL.tail_eq_iff {m : Mem} {l r : Nat} {s1 s2 : List Nat}
    (h : DLL m l (s1 ++ r :: s2)) : (m.list l).pTail = r ↔ s2 = [] := by
  have hb := h.bwd
  obtain ⟨_, hr2, _, _, _⟩ := nodup_split h.nodup
  cases s2 with
  | nil =>
    simp only [List.reverse_append, List.reverse_cons, List.reverse_nil, List.nil_append,
      List.singleton_append] at hb
    simp [hb.1]
  | cons y s2 =>
    have hb2 : Path m.prev 0 (m.list l).pTail ((y :: s2).reverse ++ (s1 ++ [r]).reverse) := by
      rw [← List.reverse_append]
      simpa using hb
    have hmem := path_start_mem hb2 (by simp)
    constructor
    · intro e
      exact absurd (List.mem_reverse.mp (e ▸ hmem)) hr2
    · intro e; simp at e

/-- The head of a list split in front of `r` is `r` exactly when nothing precedes `r`. -/
theorem DLL.head_eq_iff {m : Mem} {l r : Nat} {s1 s2 : List Nat}
    (h : DLL m l (s1 ++ r :: s2)) : (m.list l).pHead = r ↔ s1 = [] := by
  have hf := h.fwd
  obtain ⟨hr1, _, _, _, _⟩ := nodup_split h.nodup
  cases s1 with
  | nil => simp [hf.1]
  | cons y s1 =>
    have hmem := path_start_mem hf (by simp)
    constructor
    · intro e
      exact absurd (e ▸ hmem) hr1
    · intro e; simp at e

/-- C2, amended: on a well-formed list with capacity available, for a member `r` whose
`pList` is the list and a fresh valid link `x`, `ListInsertAfter` returns pass and the forward
walk becomes the old one with `x` immediately after `r`, the tail becoming `x` exactly when
`r` was the tail; `ListInsertBefore` returns pass and the forward walk becomes the old one
with `x` immediately before `r`, the head becoming `x` exactly when `r` was the head. -/
theorem insertAfter_insertBefore_walk (m : Mem) (l r x : Nat) (s1 s2 : List Nat)
    (hl : l ≠ 0) (hx : x ≠ 0) (hwf : WellFormed m l) (hs : fwdWalk m l = s1 ++ r :: s2)
    (hfresh : x ∉ fwdWalk m l) (hown : (m.link r).pList = l) (hcap : ¬ isFull (m.list l))
    (hroom : (m.list l).len + 1 < U32) :
    (∃ m1, ListInsertAfter m l r x = some (UDELL_PASS, m1) ∧
      fwdWalk m1 l = s1 ++ r :: x :: s2 ∧
      ((m1.list l).pTail = x ↔ (m.list l).pTail = r)) ∧
    (∃ m1, ListInsertBefore m l r x = some (UDELL_PASS, m1) ∧
      fwdWalk m1 l = s1 ++ x :: r :: s2 ∧
      ((m1.list l).pHead = x ↔ (m.list l).pHead = r)) := by
  have hd := hwf.dll
  rw [hs] at hd hfresh
  constructor
  · obtain ⟨m1, h1, hd1⟩ := insertAfter_dll hl hx hd hfresh hown hcap hroom
    refine ⟨m1, h1, hd1.fwdWalk_eq, ?_⟩
    have hd1x : DLL m1 l ((s1 ++ [r]) ++ x :: s2) := by simpa using hd1
    rw [hd1x.tail_eq_iff, hd.tail_eq_iff]
  · obtain ⟨m1, h1, hd1⟩ := insertBefore_dll hl hx hd hfresh hown hcap hroom
    refine ⟨m1, h1, hd1.fwdWalk_eq, ?_⟩
    rw [hd1.head_eq_iff, hd.head_eq_iff]

/-- Witness for C2 (amended): a fresh link `40` put next to the member `20` of `[10, 20, 30]`. -/
theorem insertAfter_insertBefore_walk_witness :
    WellFormed sampleThree 1 ∧ fwdWalk sampleThree 1 = [10] ++ 20 :: [30] ∧
    (sampleThree.link 20).pList = 1 ∧
    (∃ m1, ListInsertAfter sampleThree 1 20 40 = some (UDELL_PASS, m1) ∧
      fwdWalk m1 1 = [10] ++ 20 :: 40 :: [30] ∧
      ((m1.list 1).pTail = 40 ↔ (sampleThree.list 1).pTail = 20)) :=
  ⟨by decide, by decide, by decide,
    (insertAfter_insertBefore_walk sampleThree 1 20 40 [10] [30] (by decide) (by decide)
      (by decide) (by decide) (by decide) (by decide) (by decide) (by decide)).1⟩


/-! ## Removal -/

/-- C3, amended: on a well-formed list, `ListRemoveLink` of a member `x` whose `pList` is
the list returns pass, the length decreases by exactly one and the forward walk becomes the
old one with `x` erased, wherever `x` stands; in particular from `[A, x, C]` the call gives
`LinkGetNext(A) == C`, `LinkGetPrev(C) == A` and length 2. -/
theorem removeLink_walk (m : Mem) (l x : Nat) (hl : l ≠ 0) (hwf : WellFormed m l)
    (hx : x ∈ fwdWalk m l) (hown : (m.link x).pList = l) (hty : (m.list l).len < U32) :
    ∃ m1, ListRemoveLink m l x = some (UDELL_PASS, m1) ∧
      (m1.list l).len + 1 = (m.list l).len ∧
      fwdWalk m1 l = (fwdWalk m l).erase x ∧
      (∀ A C : Nat, fwdWalk m l = [A, x, C] →
        LinkGetNext m1 A = (C, m1) ∧ LinkGetPrev m1 C = (A, m1) ∧
        ListGetLen m1 l = (2, m1)) := by
  have hd := hwf.dll
  obtain ⟨s1, s2, hs⟩ := List.append_of_mem hx
  rw [hs] at hd
  obtain ⟨hx1, _, _, _, _⟩ := nodup_split hd.nodup
  obtain ⟨m1, h1, hd1⟩ := removeLink_dll hl hd hown hty
  have herase : (fwdWalk m l).erase x = s1 ++ s2 := by
    rw [hs, List.erase_append_right _ hx1, List.erase_cons_head]
  refine ⟨m1, h1, ?_, ?_, ?_⟩
  · rw [hd1.len, hd.len]; simp; omega
  · rw [hd1.fwdWalk_eq, herase]
  · intro A C hAC
    have hnd : ([A, x, C] : List Nat).Nodup := by rw [← hAC, hs]; exact hd.nodup
    have hAx : A ≠ x := by
      intro e; subst e; simp at hnd
    have h2 : s1 ++ s2 = [A, C] := by
      rw [← herase, hAC]
      simp [List.erase_cons, hAx]
    rw [h2] at hd1
    have hf := hd1.fwd
    have hb := hd1.bwd
    have hA0 : A ≠ 0 := hf.2.1
    have hC0 : C ≠ 0 := hf.2.2.2.1
    have hn : (m1.link A).pNext = C := hf.2.2.1
    have hp : (m1.link C).pPrev = A := hb.2.2.1
    refine ⟨?_, ?_, ?_⟩
    · simp only [LinkGetNext, if_neg hA0, hn, if_neg hC0]
    · simp only [LinkGetPrev, if_neg hC0, hp, if_neg hA0]
    · simp only [ListGetLen, if_neg hl, hd1.len]
      rfl

/-- Witness for C3 (amended): the interior link `20` removed from `[10, 20, 30]`. -/
theorem removeLink_walk_witness :
    WellFormed sampleThree 1 ∧ 20 ∈ fwdWalk sampleThree 1 ∧
    (sampleThree.link 20).pList = 1 ∧
    (∃ m1, ListRemoveLink sampleThree 1 20 = some (UDELL_PASS, m1) ∧
      (m1.list 1).len + 1 = (sampleThree.list 1).len ∧
      fwdWalk m1 1 = (fwdWalk sampleThree 1).erase 20 ∧
      (∀ A C : Nat, fwdWalk sampleThree 1 = [A, 20, C] →
        LinkGetNext m1 A = (C, m1) ∧ LinkGetPrev m1 C = (A, m1) ∧
        ListGetLen m1 1 = (2, m1))) :=
  ⟨by decide, by decide, by decide,
    removeLink_walk sampleThree 1 20 (by decide) (by decide) (by decide) (by decide)
      (by decide)⟩


/-! ## Capacity -/

/-- For a finite capacity in the `int32_t` range and a length counter that does not wrap, the
full-list test of the code is the comparison of `len + 1` with the capacity. -/
theorem isFull_iff {L : udellList} (hc0 : 0 ≤ L.maxLen) (hc1 : L.maxLen < 2147483648)
    (hroom : L.len + 1 < U32) : isFull L ↔ L.maxLen < (L.len : Int) + 1 := by
  have hne : L.maxLen ≠ UDELL_NOLIMIT := by
    unfold UDELL_NOLIMIT; omega
  have hu : toU32 L.maxLen = L.maxLen.toNat := by
    unfold toU32
    rw [Int.emod_eq_of_lt hc0 (by omega)]
  unfold isFull
  rw [hu, succ_mod_U32 hroom]
  constructor
  · rintro ⟨_, h⟩; omega
  · intro h; exact ⟨hne, by omega⟩

theorem insertFirst_ok {m : Mem} {l x : Nat} (hl : l ≠ 0) (hx : x ≠ 0)
    (hcap : ¬ isFull (m.list l)) (hroom : (m.list l).len + 1 < U32)
    (hhead : (m.list l).len ≠ 0 → (m.list l).pHead ≠ 0) :
    ∃ m1, ListInsertFirst m l x = some (UDELL_PASS, m1) ∧
      (m1.list l).len = (m.list l).len + 1 ∧ (m1.link x).pList = l ∧
      (m1.list l).pHead = x := by
  have hguard : ¬ (x = 0 ∨ l = 0) := by simp [hx, hl]
  by_cases h0 : (m.list l).len = 0
  · simp only [ListInsertFirst, if_neg hguard, if_neg hcap, if_pos h0, Option.some.injEq,
      Prod.mk.injEq, true_and, exists_eq_left']
    simp [h0]
  · have hh : (m.list l).pHead ≠ 0 := hhead h0
    simp only [ListInsertFirst, if_neg hguard, if_neg hcap, if_neg h0, if_neg hh,
      Option.some.injEq, Prod.mk.injEq, true_and, exists_eq_left']
    simp [succ_mod_U32 hroom]

theorem insertLast_ok {m : Mem} {l x : Nat} (hl : l ≠ 0) (hx : x ≠ 0)
    (hcap : ¬ isFull (m.list l)) (hroom : (m.list l).len + 1 < U32)
    (htail : (m.list l).len ≠ 0 → (m.list l).pTail ≠ 0) :
    ∃ m1, ListInsertLast m l x = some (UDELL_PASS, m1) ∧
      (m1.list l).len = (m.list l).len + 1 ∧ (m1.link x).pList = l ∧
      (m1.list l).pTail = x := by
  have hguard : ¬ (x = 0 ∨ l = 0) := by simp [hx, hl]
  by_cases h0 : (m.list l).len = 0
  · simp only [ListInsertLast, if_neg hguard, if_neg hcap, if_pos h0, Option.some.injEq,
      Prod.mk.injEq, true_and, exists_eq_left']
    simp [h0]
  · have hh : (m.list l).pTail ≠ 0 := htail h0
    simp only [ListInsertLast, if_neg hguard, if_neg hcap, if_neg h0, if_neg hh,
      Option.some.injEq, Prod.mk.injEq, true_and, exists_eq_left']
    simp [succ_mod_U32 hroom]

theorem insertAfter_ok {m : Mem} {l r x : Nat} (hl : l ≠ 0) (hx : x ≠ 0) (hr : r ≠ 0)
    (hcap : ¬ isFull (m.list l)) (hroom : (m.list l).len + 1 < U32)
    (h0 : (m.list l).len ≠ 0) (hown : (m.link r).pList = l) :
    ∃ m1, ListInsertAfter m l r x = some (UDELL_PASS, m1) ∧
      (m1.list l).len = (m.list l).len + 1 ∧ (m1.link x).pList = l := by
  have hguard : ¬ (r = 0 ∨ x = 0 ∨ l = 0) := by simp [hx, hl, hr]
  simp only [ListInsertAfter, if_neg hguard, if_neg h0, hown, ne_eq, not_true_eq_false,
    if_false, if_neg hcap, Option.some.injEq, Prod.mk.injEq, true_and, exists_eq_left']
  constructor
  · split <;> simp [succ_mod_U32 hroom]
  · simp

theorem insertBefore_ok {m : Mem} {l r x : Nat} (hl : l ≠ 0) (hx : x ≠ 0) (hr : r ≠ 0)
    (hcap : ¬ isFull (m.list l)) (hroom : (m.list l).len + 1 < U32)
    (h0 : (m.list l).len ≠ 0) (hown : (m.link r).pList = l) :
    ∃ m1, ListInsertBefore m l r x = some (UDELL_PASS, m1) ∧
      (m1.list l).len = (m.list l).len + 1 ∧ (m1.link x).pList = l := by
  have hguard : ¬ (r = 0 ∨ x = 0 ∨ l = 0) := by simp [hx, hl, hr]
  simp only [ListInsertBefore, if_neg hguard, if_neg h0, hown, ne_eq, not_true_eq_false,
    if_false, if_neg hcap, Option.some.injEq, Prod.mk.injEq, true_and, exists_eq_left']
  constructor
  · split <;> simp [succ_mod_U32 hroom]
  · simp

theorem errno_ne_full : UDELL_EINVPTR ≠ UDELL_ELISTFULL ∧ UDELL_EEMPTY ≠ UDELL_ELISTFULL ∧
    UDELL_EBADLIST ≠ UDELL_ELISTFULL := by decide

theorem insertFirst_not_full {m m1 : Mem} {l x : Nat} {v : Int}
    (hcap : ¬ isFull (m.list l)) (h : ListInsertFirst m l x = some (v, m1))
    (hv : v = UDELL_FAIL) : m1.errno ≠ UDELL_ELISTFULL := by
  unfold ListInsertFirst at h
  split_ifs at h <;> simp only [failWith, Option.some.injEq, Prod.mk.injEq] at h <;>
    obtain ⟨rfl, rfl⟩ := h
  · exact errno_ne_full.1
  · exact absurd hv pass_ne_fail
  · exact absurd hv pass_ne_fail

theorem insertLast_not_full {m m1 : Mem} {l x : Nat} {v : Int}
    (hcap : ¬ isFull (m.list l)) (h : ListInsertLast m l x = some (v, m1))
    (hv : v = UDELL_FAIL) : m1.errno ≠ UDELL_ELISTFULL := by
  unfold ListInsertLast at h
  split_ifs at h <;> simp only [failWith, Option.some.injEq, Prod.mk.injEq] at h <;>
    obtain ⟨rfl, rfl⟩ := h
  · exact errno_ne_full.1
  · exact absurd hv pass_ne_fail
  · exact absurd hv pass_ne_fail

theorem insertAfter_not_full {m m1 : Mem} {l r x : Nat} {v : Int}
    (hcap : ¬ isFull (m.list l)) (h : ListInsertAfter m l r x = some (v, m1))
    (hv : v = UDELL_FAIL) : m1.errno ≠ UDELL_ELISTFULL := by
  unfold ListInsertAfter at h
  split_ifs at h <;> simp only [failWith, Option.some.injEq, Prod.mk.injEq] at h <;>
    obtain ⟨rfl, rfl⟩ := h
  · exact errno_ne_full.1
  · exact errno_ne_full.2.1
  · exact errno_ne_full.2.2
  · exact absurd hv pass_ne_fail

theorem insertBefore_not_full {m m1 : Mem} {l r x : Nat} {v : Int}
    (hcap : ¬ isFull (m.list l)) (h : ListInsertBefore m l r x = some (v, m1))
    (hv : v = UDELL_FAIL) : m1.errno ≠ UDELL_ELISTFULL := by
  unfold ListInsertBefore at h
  split_ifs at h <;> simp only [failWith, Option.some.injEq, Prod.mk.injEq] at h <;>
    obtain ⟨rfl, rfl⟩ := h
  · exact errno_ne_full.1
  · exact errno_ne_full.2.1
  · exact errno_ne_full.2.2
  · exact absurd hv pass_ne_fail

/-- C4: for a list with a finite capacity (a non-negative `int32_t`) whose length counter
does not wrap, and an insertion whose other checks pass (valid pointers; for
`ListInsertAfter` and `ListInsertBefore` a non-empty list that owns the reference link),
each of the four insertions fails with `UDELL_ELISTFULL`, changing nothing but `errno`,
exactly when `len + 1` exceeds the capacity, and otherwise (the head, resp. tail, of a
non-empty list being present for `ListInsertFirst`, resp. `ListInsertLast`) returns pass,
increments `len` by one and records the list as the owner of the new link; with unlimited
capacity no insertion fails with `UDELL_ELISTFULL`;
in particular after `ListSetMaxLinks(list, 3)` on an empty list three `ListInsertLast`
calls pass with length 3 and a fourth fails with `UDELL_ELISTFULL`, the length staying 3. -/
theorem capacity_enforced (m : Mem) (l r x : Nat) (hl : l ≠ 0) (hx : x ≠ 0) (hr : r ≠ 0) :
    (0 ≤ (m.list l).maxLen → (m.list l).maxLen < 2147483648 → (m.list l).len + 1 < U32 →
      ((m.list l).maxLen < ((m.list l).len : Int) + 1 →
        ListInsertFirst m l x = failWith m UDELL_ELISTFULL ∧
        ListInsertLast m l x = failWith m UDELL_ELISTFULL ∧
        ((m.list l).len ≠ 0 → (m.link r).pList = l →
          ListInsertAfter m l r x = failWith m UDELL_ELISTFULL ∧
          ListInsertBefore m l r x = failWith m UDELL_ELISTFULL)) ∧
      (((m.list l).len : Int) + 1 ≤ (m.list l).maxLen →
        (((m.list l).len ≠ 0 → (m.list l).pHead ≠ 0) →
          ∃ m1, ListInsertFirst m l x = some (UDELL_PASS, m1) ∧
            (m1.list l).len = (m.list l).len + 1 ∧ (m1.link x).pList = l) ∧
        (((m.list l).len ≠ 0 → (m.list l).pTail ≠ 0) →
          ∃ m1, ListInsertLast m l x = some (UDELL_PASS, m1) ∧
            (m1.list l).len = (m.list l).len + 1 ∧ (m1.link x).pList = l) ∧
        ((m.list l).len ≠ 0 → (m.link r).pList = l →
          (∃ m1, ListInsertAfter m l r x = some (UDELL_PASS, m1) ∧
            (m1.list l).len = (m.list l).len + 1 ∧ (m1.link x).pList = l) ∧
          (∃ m1, ListInsertBefore m l r x = some (UDELL_PASS, m1) ∧
            (m1.list l).len = (m.list l).len + 1 ∧ (m1.link x).pList = l)))) ∧
    ((m.list l).maxLen = UDELL_NOLIMIT → ∀ (v : Int) (m1 : Mem),
      (ListInsertFirst m l x = some (v, m1) ∨ ListInsertLast m l x = some (v, m1) ∨
        ListInsertAfter m l r x = some (v, m1) ∨ ListInsertBefore m l r x = some (v, m1)) →
      v = UDELL_FAIL → m1.errno ≠ UDELL_ELISTFULL) ∧
    (∀ (m0 : Mem) (a b c d : Nat), a ≠ 0 → b ≠ 0 → c ≠ 0 → d ≠ 0 → (m0.list l).len = 0 →
      ∃ m1 m2 m3 m4, ListSetMaxLinks m0 l 3 = some (UDELL_PASS, m1) ∧
        ListInsertLast m1 l a = some (UDELL_PASS, m2) ∧
        ListInsertLast m2 l b = some (UDELL_PASS, m3) ∧
        ListInsertLast m3 l c = some (UDELL_PASS, m4) ∧
        (m4.list l).len = 3 ∧
        ListInsertLast m4 l d = failWith m4 UDELL_ELISTFULL ∧
        ((after m4 (ListInsertLast m4 l d)).list l).len = 3) := by
  refine ⟨?_, ?_, ?_⟩
  · intro hc0 hc1 hroom
    have hiff := isFull_iff hc0 hc1 hroom
    have hg2 : ¬ (x = 0 ∨ l = 0) := by simp [hx, hl]
    have hg3 : ¬ (r = 0 ∨ x = 0 ∨ l = 0) := by simp [hx, hl, hr]
    constructor
    · intro hfull
      have hf : isFull (m.list l) := hiff.mpr hfull
      refine ⟨?_, ?_, ?_⟩
      · simp only [ListInsertFirst, if_neg hg2, if_pos hf]
      · simp only [ListInsertLast, if_neg hg2, if_pos hf]
      · intro h0 hown
        constructor
        · simp only [ListInsertAfter, if_neg hg3, if_neg h0, hown, ne_eq, not_true_eq_false,
            if_false, if_pos hf]
        · simp only [ListInsertBefore, if_neg hg3, if_neg h0, hown, ne_eq, not_true_eq_false,
            if_false, if_pos hf]
    · intro hfits
      have hf : ¬ isFull (m.list l) := fun e => by have := hiff.mp e; omega
      refine ⟨?_, ?_, ?_⟩
      · intro hhead
        obtain ⟨m1, h1, h2, h3, _⟩ := insertFirst_ok hl hx hf hroom hhead
        exact ⟨m1, h1, h2, h3⟩
      · intro htail
        obtain ⟨m1, h1, h2, h3, _⟩ := insertLast_ok hl hx hf hroom htail
        exact ⟨m1, h1, h2, h3⟩
      · intro h0 hown
        exact ⟨insertAfter_ok hl hx hr hf hroom h0 hown,
          insertBefore_ok hl hx hr hf hroom h0 hown⟩
  · intro hno v m1 hcall hv
    have hf := not_isFull_of_nolimit hno
    rcases hcall with h | h | h | h
    · exact insertFirst_not_full hf h hv
    · exact insertLast_not_full hf h hv
    · exact insertAfter_not_full hf h hv
    · exact insertBefore_not_full hf h hv
  · intro m0 a b c d ha hb hc hd hempty
    have hset : ListSetMaxLinks m0 l 3 = some (UDELL_PASS, m0.setMaxLen l 3) := by
      simp [ListSetMaxLinks, hl, hempty, UDELL_NOLIMIT, toU32]
    have hU : (3 : Nat) + 1 < U32 := by decide
    have step : ∀ (mm : Mem) (y : Nat), y ≠ 0 → (mm.list l).maxLen = 3 →
        (mm.list l).len < 3 → ((mm.list l).len ≠ 0 → (mm.list l).pTail ≠ 0) →
        ∃ mn, ListInsertLast mm l y = some (UDELL_PASS, mn) ∧ (mn.list l).maxLen = 3 ∧
          (mn.list l).len = (mm.list l).len + 1 ∧ (mn.list l).pTail = y := by
      intro mm y hy hmax hlen htail
      have hroom : (mm.list l).len + 1 < U32 := by
        have : (mm.list l).len + 1 < 3 + 1 := by omega
        exact Nat.lt_trans this hU
      have hf : ¬ isFull (mm.list l) := by
        rw [isFull_iff (by omega) (by omega) hroom]; omega
      obtain ⟨mn, h1, h2, _, h4⟩ := insertLast_ok hl hy hf hroom htail
      exact ⟨mn, h1, by rw [insertLast_maxLen h1 l]; exact hmax, h2, h4⟩
    obtain ⟨m2, e2, c2, l2, t2⟩ := step (m0.setMaxLen l 3) a ha (by simp) (by simp [hempty])
      (by simp [hempty])
    obtain ⟨m3, e3, c3, l3, t3⟩ := step m2 b hb c2 (by rw [l2]; simp [hempty])
      (fun _ => by rw [t2]; exact ha)
    obtain ⟨m4, e4, c4, l4, t4⟩ := step m3 c hc c3 (by rw [l3, l2]; simp [hempty])
      (fun _ => by rw [t3]; exact hb)
    have hlen4 : (m4.list l).len = 3 := by rw [l4, l3, l2]; simp [hempty]
    have hfull : isFull (m4.list l) := by
      rw [isFull_iff (by omega) (by omega) (by rw [hlen4]; exact hU)]; omega
    have hg2 : ¬ (d = 0 ∨ l = 0) := by simp [hd, hl]
    have e5 : ListInsertLast m4 l d = failWith m4 UDELL_ELISTFULL := by
      simp only [ListInsertLast, if_neg hg2, if_pos hfull]
    refine ⟨_, m2, m3, m4, hset, e2, e3, e4, hlen4, e5, ?_⟩
    rw [e5]
    simpa [failWith, after] using hlen4

/-- Witness for C4: the list `[10]` of capacity 3 takes one more link. -/
theorem capacity_enforced_witness :
    0 ≤ (sampleCap.list 1).maxLen ∧ (sampleCap.list 1).maxLen < 2147483648 ∧
    (sampleCap.list 1).len + 1 < U32 ∧
    ((sampleCap.list 1).len : Int) + 1 ≤ (sampleCap.list 1).maxLen ∧
    (∃ m1, ListInsertLast sampleCap 1 20 = some (UDELL_PASS, m1) ∧
      (m1.list 1).len = (sampleCap.list 1).len + 1 ∧ (m1.link 20).pList = 1) :=
  ⟨by decide, by decide, by decide, by decide,
    (((capacity_enforced sampleCap 1 10 20 (by decide) (by decide) (by decide)).1
      (by decide) (by decide) (by decide)).2 (by decide)).2.1 (by decide)⟩


/-! ## The removed link -/

/-- C5: the singleton case of `ListRemoveLink` does not reset the link.  After `ListInit`,
`LinkInit` and `ListInsertFirst` of link `10` into list `1`, the call
`ListRemoveLink(1, 10)` returns pass and empties the list, yet link `10` still records list
`1` as its owner instead of `UDELL_NOLIST`, so `LinkGetList` returns list `1` instead of
failing; the payload fields are unchanged. -/
theorem removeLink_singleton_keeps_owner :
    (sampleSingle.list 1).len = 1 ∧ fwdWalk sampleSingle 1 = [10] ∧
    WellFormed sampleSingle 1 ∧
    retOf (ListRemoveLink sampleSingle 1 10) = UDELL_PASS ∧
    ((after sampleSingle (ListRemoveLink sampleSingle 1 10)).list 1).len = 0 ∧
    ((after sampleSingle (ListRemoveLink sampleSingle 1 10)).link 10).pPrev = 0 ∧
    ((after sampleSingle (ListRemoveLink sampleSingle 1 10)).link 10).pNext = 0 ∧
    ((after sampleSingle (ListRemoveLink sampleSingle 1 10)).link 10).pList = 1 ∧
    ((after sampleSingle (ListRemoveLink sampleSingle 1 10)).link 10).pList ≠ UDELL_NOLIST ∧
    (LinkGetList (after sampleSingle (ListRemoveLink sampleSingle 1 10)) 10).1 = 1 ∧
    ((after sampleSingle (ListRemoveLink sampleSingle 1 10)).link 10).pData = 7 ∧
    ((after sampleSingle (ListRemoveLink sampleSingle 1 10)).link 10).payloadSize = 4 ∧
    ((after sampleSingle (ListRemoveLink sampleSingle 1 10)).link 10).dataSize = 4 := by
  decide


/-! ## Insert then remove -/

theorem udellList_eq {a b : udellList} (h1 : a.pHead = b.pHead) (h2 : a.pTail = b.pTail)
    (h3 : a.maxLen = b.maxLen) (h4 : a.len = b.len) : a = b := by
  cases a; cases b; simp_all

/-- Two chains over the same links agree on every link of the chain. -/
theorem path_fn_unique {f g : Nat → Nat} {e c1 c2 : Nat} {s : List Nat}
    (hf : Path f e c1 s) (hg : Path g e c2 s) : ∀ a ∈ s, f a = g a := by
  intro a ha
  obtain ⟨s1, s2, rfl⟩ := List.append_of_mem ha
  rw [path_start (path_next hf), path_start (path_next hg)]

/-- Two memories that hold the same links in the same list agree on its structure. -/
theorem DLL.unique {m m2 : Mem} {l : Nat} {s : List Nat} (h : DLL m l s) (h2 : DLL m2 l s) :
    (m2.list l).pHead = (m.list l).pHead ∧ (m2.list l).pTail = (m.list l).pTail ∧
    (m2.list l).len = (m.list l).len ∧
    ∀ a ∈ s, (m2.link a).pPrev = (m.link a).pPrev ∧ (m2.link a).pNext = (m.link a).pNext := by
  refine ⟨?_, ?_, ?_, ?_⟩
  · rw [h.head_eq, h2.head_eq]
  · rw [h.tail_eq, h2.tail_eq]
  · rw [h.len, h2.len]
  · intro a ha
    exact ⟨path_fn_unique h2.bwd h.bwd a (List.mem_reverse.mpr ha),
      path_fn_unique h2.fwd h.fwd a ha⟩

theorem insertFirst_owner {m m1 : Mem} {l x : Nat}
    (h : ListInsertFirst m l x = some (UDELL_PASS, m1)) : (m1.link x).pList = l := by
  unfold ListInsertFirst at h
  split_ifs at h <;> simp only [failWith, Option.some.injEq, Prod.mk.injEq] at h <;>
    obtain ⟨hv, rfl⟩ := h <;> first | exact absurd hv.symm pass_ne_fail | simp

theorem insertLast_owner {m m1 : Mem} {l x : Nat}
    (h : ListInsertLast m l x = some (UDELL_PASS, m1)) : (m1.link x).pList = l := by
  unfold ListInsertLast at h
  split_ifs at h <;> simp only [failWith, Option.some.injEq, Prod.mk.injEq] at h <;>
    obtain ⟨hv, rfl⟩ := h <;> first | exact absurd hv.symm pass_ne_fail | simp

theorem insertAfter_owner {m m1 : Mem} {l r x : Nat}
    (h : ListInsertAfter m l r x = some (UDELL_PASS, m1)) : (m1.link x).pList = l := by
  unfold ListInsertAfter at h
  split_ifs at h <;> simp only [failWith, Option.some.injEq, Prod.mk.injEq] at h <;>
    obtain ⟨hv, rfl⟩ := h <;> first | exact absurd hv.symm pass_ne_fail | simp

theorem insertBefore_owner {m m1 : Mem} {l r x : Nat}
    (h : ListInsertBefore m l r x = some (UDELL_PASS, m1)) : (m1.link x).pList = l := by
  unfold ListInsertBefore at h
  split_ifs at h <;> simp only [failWith, Option.some.injEq, Prod.mk.injEq] at h <;>
    obtain ⟨hv, rfl⟩ := h <;> first | exact absurd hv.symm pass_ne_fail | simp

/-- Removing the link `x` just inserted into the list `s1 ++ s2` restores the list. -/
theorem roundtrip_of_dll {m m1 : Mem} {l x : Nat} (s t : List Nat) (hl : l ≠ 0)
    (hd : DLL m l (s ++ t)) (hd1 : DLL m1 l (s ++ x :: t)) (hx : x ∉ s ++ t)
    (hown : (m1.link x).pList = l) (hroom : (m.list l).len + 1 < U32)
    (hmax : ∀ k, (m1.list k).maxLen = (m.list k).maxLen)
    (hpl : ∀ a, a ≠ x → (m1.link a).pList = (m.link a).pList) :
    RestoredBy m m1 l x := by
  have hty : (m1.list l).len < U32 := by
    rw [hd1.len]
    rw [hd.len] at hroom
    simp only [List.length_append, List.length_cons] at hroom ⊢
    omega
  obtain ⟨m2, h2, hd2⟩ := removeLink_dll hl hd1 hown hty
  obtain ⟨u1, u2, u3, u4⟩ := hd.unique hd2
  refine ⟨m2, h2, udellList_eq u1 u2 ?_ u3, ?_⟩
  · rw [removeLink_maxLen h2 l, hmax l]
  · intro a ha
    have hax : a ≠ x := fun e => hx (by rw [← e, ← hd.fwdWalk_eq]; exact ha)
    rw [hd.fwdWalk_eq] at ha
    refine ⟨(u4 a ha).1, (u4 a ha).2, ?_⟩
    rw [removeLink_pList h2 a hax, hpl a hax]


/-- C6, amended: on a well-formed list (empty or not) of fewer than `2^32 - 1` links, so
that the `uint32_t` length counter does not wrap on insertion, for a link
`x` that is not a member and each of the four insertions (with a member reference link `r`
for `ListInsertAfter` and `ListInsertBefore`): if the insertion passes, then
`ListRemoveLink(l, x)` passes and afterwards head, tail, length and capacity of the list and
`pPrev`, `pNext`, `pList` of every former member are what they were before the insertion. -/
theorem insert_remove_roundtrip (m : Mem) (l r x : Nat) (hwf : WellFormed m l)
    (hfresh : x ∉ fwdWalk m l) (hroom : (m.list l).len + 1 < U32) :
    (∀ m1, ListInsertFirst m l x = some (UDELL_PASS, m1) → RestoredBy m m1 l x) ∧
    (∀ m1, ListInsertLast m l x = some (UDELL_PASS, m1) → RestoredBy m m1 l x) ∧
    (r ∈ fwdWalk m l →
      ∀ m1, ListInsertAfter m l r x = some (UDELL_PASS, m1) → RestoredBy m m1 l x) ∧
    (r ∈ fwdWalk m l →
      ∀ m1, ListInsertBefore m l r x = some (UDELL_PASS, m1) → RestoredBy m m1 l x) := by
  have hd := hwf.dll
  refine ⟨?_, ?_, ?_, ?_⟩
  · intro m1 h1
    obtain ⟨hl, hx, hcap⟩ := insertFirst_pass h1
    obtain ⟨m1', h1', hd1⟩ := insertFirst_dll hl hx hd hfresh hcap hroom
    have e : m1' = m1 := by
      rw [h1] at h1'; simp only [Option.some.injEq, Prod.mk.injEq, true_and] at h1'
      exact h1'.symm
    subst e
    exact roundtrip_of_dll [] (fwdWalk m l) hl hd hd1 hfresh
      (insertFirst_owner h1) hroom (insertFirst_maxLen h1) (insertFirst_pList h1)
  · intro m1 h1
    obtain ⟨hl, hx, hcap⟩ := insertLast_pass h1
    obtain ⟨m1', h1', hd1⟩ := insertLast_dll hl hx hd hfresh hcap hroom
    have e : m1' = m1 := by
      rw [h1] at h1'; simp only [Option.some.injEq, Prod.mk.injEq, true_and] at h1'
      exact h1'.symm
    subst e
    exact roundtrip_of_dll (fwdWalk m l) [] hl (by simpa using hd) hd1
      (by simpa using hfresh) (insertLast_owner h1) hroom (insertLast_maxLen h1)
      (insertLast_pList h1)
  · intro hr m1 h1
    obtain ⟨s1, s2, hs⟩ := List.append_of_mem hr
    obtain ⟨hl, hx, hown, hcap⟩ := insertAfter_pass h1
    rw [hs] at hd hfresh
    obtain ⟨m1', h1', hd1⟩ := insertAfter_dll hl hx hd hfresh hown hcap hroom
    have e : m1' = m1 := by
      rw [h1] at h1'; simp only [Option.some.injEq, Prod.mk.injEq, true_and] at h1'
      exact h1'.symm
    subst e
    exact roundtrip_of_dll (s1 ++ [r]) s2 hl (by simpa using hd)
      (by simpa using hd1) (by simpa using hfresh) (insertAfter_owner h1) hroom
      (insertAfter_maxLen h1) (insertAfter_pList h1)
  · intro hr m1 h1
    obtain ⟨s1, s2, hs⟩ := List.append_of_mem hr
    obtain ⟨hl, hx, hown, hcap⟩ := insertBefore_pass h1
    rw [hs] at hd hfresh
    obtain ⟨m1', h1', hd1⟩ := insertBefore_dll hl hx hd hfresh hown hcap hroom
    have e : m1' = m1 := by
      rw [h1] at h1'; simp only [Option.some.injEq, Prod.mk.injEq, true_and] at h1'
      exact h1'.symm
    subst e
    exact roundtrip_of_dll s1 (r :: s2) hl hd hd1 hfresh
      (insertBefore_owner h1) hroom (insertBefore_maxLen h1) (insertBefore_pList h1)

/-- Witness for C6 (amended): link `40` inserted after `20` in `[10, 20, 30]` and removed again. -/
theorem insert_remove_roundtrip_witness :
    WellFormed sampleThree 1 ∧ 40 ∉ fwdWalk sampleThree 1 ∧ 20 ∈ fwdWalk sampleThree 1 ∧
    ListInsertAfter sampleThree 1 20 40
      = some (UDELL_PASS, after sampleThree (ListInsertAfter sampleThree 1 20 40)) ∧
    RestoredBy sampleThree (after sampleThree (ListInsertAfter sampleThree 1 20 40)) 1 40 :=
  ⟨by decide, by decide, by decide, rfl,
    (insert_remove_roundtrip sampleThree 1 20 40 (by decide) (by decide) (by decide)).2.2.1
      (by decide) _ rfl⟩


/-! ## Ownership -/

/-- C7: the ownership invariant breaks on a state reached through the API.  From the zero
memory, `ListInit(1)`, `LinkInit(10, ..)`, `ListInsertFirst(1, 10)` and
`ListRemoveLink(1, 10)` all return pass; afterwards link `10` is not reachable from the head
of list `1` (the forward walk is empty), yet its `pList` still is list `1` and `LinkGetList`
returns list `1` without touching `errno`. -/
theorem owner_stale_after_singleton_remove :
    retOf (ListInit Mem.zero 1) = UDELL_PASS ∧
    retOf (LinkInit (after Mem.zero (ListInit Mem.zero 1)) 10 7 4 4) = UDELL_PASS ∧
    retOf (ListInsertFirst
      (after (after Mem.zero (ListInit Mem.zero 1))
        (LinkInit (after Mem.zero (ListInit Mem.zero 1)) 10 7 4 4)) 1 10) = UDELL_PASS ∧
    sampleSingle = after
      (after (after Mem.zero (ListInit Mem.zero 1))
        (LinkInit (after Mem.zero (ListInit Mem.zero 1)) 10 7 4 4))
      (ListInsertFirst
        (after (after Mem.zero (ListInit Mem.zero 1))
          (LinkInit (after Mem.zero (ListInit Mem.zero 1)) 10 7 4 4)) 1 10) ∧
    retOf (ListRemoveLink sampleSingle 1 10) = UDELL_PASS ∧
    fwdWalk (after sampleSingle (ListRemoveLink sampleSingle 1 10)) 1 = [] ∧
    10 ∉ fwdWalk (after sampleSingle (ListRemoveLink sampleSingle 1 10)) 1 ∧
    ((after sampleSingle (ListRemoveLink sampleSingle 1 10)).link 10).pList = 1 ∧
    (LinkGetList (after sampleSingle (ListRemoveLink sampleSingle 1 10)) 10).1 = 1 ∧
    (LinkGetList (after sampleSingle (ListRemoveLink sampleSingle 1 10)) 10).2.errno
      = (after sampleSingle (ListRemoveLink sampleSingle 1 10)).errno := by
  refine ⟨by decide, by decide, by decide, rfl, by decide, by decide, by decide, by decide,
    by decide, by decide⟩

/-! ## Well-formedness -/

/-- In a list every member but the tail is the predecessor of its successor, and every
member but the head is the successor of its predecessor. -/
theorem DLL.neighbours {m : Mem} {l : Nat} {s : List Nat} (h : DLL m l s) :
    ∀ a ∈ s, (a ≠ (m.list l).pTail → (m.link (m.link a).pNext).pPrev = a) ∧
      (a ≠ (m.list l).pHead → (m.link (m.link a).pPrev).pNext = a) := by
  intro a ha
  obtain ⟨s1, s2, rfl⟩ := List.append_of_mem ha
  have hf := h.fwd
  have hb := h.bwd
  constructor
  · intro hne
    cases s2 with
    | nil => exact absurd (h.tail_eq_iff.mpr rfl).symm hne
    | cons n s2 =>
      have hn : (m.link a).pNext = n := path_succ hf
      simp only [List.reverse_append, List.reverse_cons, List.append_assoc,
        List.singleton_append] at hb
      have hp : (m.link n).pPrev = a := path_succ hb
      rw [hn, hp]
  · intro hne
    rcases List.eq_nil_or_concat s1 with e | ⟨t, p, e⟩
    · exact absurd (h.head_eq_iff.mpr e).symm hne
    · subst e
      simp only [List.concat_eq_append, List.reverse_append, List.reverse_cons,
        List.append_assoc, List.singleton_append, List.reverse_nil, List.nil_append,
        List.cons_append] at hb hf
      have hp : (m.link a).pPrev = p := path_succ (s := s2.reverse) hb
      have hn : (m.link p).pNext = a := path_succ hf
      rw [hp, hn]

/-- C8, amended: `ListInit` produces a well-formed list, and on a well-formed list each
passing `ListInsertFirst`, `ListInsertLast`, `ListInsertAfter`, `ListInsertBefore` of a link
that is not a member (the reference link being a member, the list holding fewer than
`2^32 - 1` links so that the `uint32_t` length counter does not wrap) and each passing
`ListRemoveLink` of a member leaves the list well-formed; in a well-formed list
`link.next.prev == link` for every member but the tail and `link.prev.next == link` for
every member but the head. -/
theorem wellFormed_preserved (m : Mem) (l r x : Nat) (hwf : WellFormed m l) :
    (∀ m0 : Mem, l ≠ 0 → ∃ m1, ListInit m0 l = some (UDELL_PASS, m1) ∧ WellFormed m1 l) ∧
    (x ∉ fwdWalk m l → (m.list l).len + 1 < U32 →
      (∀ m1, ListInsertFirst m l x = some (UDELL_PASS, m1) → WellFormed m1 l) ∧
      (∀ m1, ListInsertLast m l x = some (UDELL_PASS, m1) → WellFormed m1 l) ∧
      (r ∈ fwdWalk m l →
        ∀ m1, ListInsertAfter m l r x = some (UDELL_PASS, m1) → WellFormed m1 l) ∧
      (r ∈ fwdWalk m l →
        ∀ m1, ListInsertBefore m l r x = some (UDELL_PASS, m1) → WellFormed m1 l)) ∧
    (x ∈ fwdWalk m l → (m.list l).len < U32 →
      ∀ m1, ListRemoveLink m l x = some (UDELL_PASS, m1) → WellFormed m1 l) ∧
    (∀ a ∈ fwdWalk m l,
      (a ≠ (m.list l).pTail → (m.link (m.link a).pNext).pPrev = a) ∧
      (a ≠ (m.list l).pHead → (m.link (m.link a).pPrev).pNext = a)) := by
  have hd := hwf.dll
  refine ⟨?_, ?_, ?_, hd.neighbours⟩
  · intro m0 hl
    obtain ⟨h1, h2, _⟩ := listInit_dll (m := m0) hl
    exact ⟨_, h1, h2.wellFormed⟩
  · intro hfresh hroom
    refine ⟨?_, ?_, ?_, ?_⟩
    · intro m1 h1
      obtain ⟨hl, hx, hcap⟩ := insertFirst_pass h1
      obtain ⟨m1', h1', hd1⟩ := insertFirst_dll hl hx hd hfresh hcap hroom
      rw [h1] at h1'; simp only [Option.some.injEq, Prod.mk.injEq, true_and] at h1'
      exact h1' ▸ hd1.wellFormed
    · intro m1 h1
      obtain ⟨hl, hx, hcap⟩ := insertLast_pass h1
      obtain ⟨m1', h1', hd1⟩ := insertLast_dll hl hx hd hfresh hcap hroom
      rw [h1] at h1'; simp only [Option.some.injEq, Prod.mk.injEq, true_and] at h1'
      exact h1' ▸ hd1.wellFormed
    · intro hr m1 h1
      obtain ⟨s1, s2, hs⟩ := List.append_of_mem hr
      obtain ⟨hl, hx, hown, hcap⟩ := insertAfter_pass h1
      rw [hs] at hd hfresh
      obtain ⟨m1', h1', hd1⟩ := insertAfter_dll hl hx hd hfresh hown hcap hroom
      rw [h1] at h1'; simp only [Option.some.injEq, Prod.mk.injEq, true_and] at h1'
      exact h1' ▸ hd1.wellFormed
    · intro hr m1 h1
      obtain ⟨s1, s2, hs⟩ := List.append_of_mem hr
      obtain ⟨hl, hx, hown, hcap⟩ := insertBefore_pass h1
      rw [hs] at hd hfresh
      obtain ⟨m1', h1', hd1⟩ := insertBefore_dll hl hx hd hfresh hown hcap hroom
      rw [h1] at h1'; simp only [Option.some.injEq, Prod.mk.injEq, true_and] at h1'
      exact h1' ▸ hd1.wellFormed
  · intro hx hty m1 h1
    obtain ⟨s1, s2, hs⟩ := List.append_of_mem hx
    obtain ⟨hl, _, hown⟩ := removeLink_pass h1
    rw [hs] at hd
    obtain ⟨m1', h1', hd1⟩ := removeLink_dll hl hd hown hty
    rw [h1] at h1'; simp only [Option.some.injEq, Prod.mk.injEq, true_and] at h1'
    exact h1' ▸ hd1.wellFormed

/-- Witness for C8 (amended): `[10, 20, 30]` stays well-formed when `20` is removed. -/
theorem wellFormed_preserved_witness :
    WellFormed sampleThree 1 ∧ 20 ∈ fwdWalk sampleThree 1 ∧
    ListRemoveLink sampleThree 1 20
      = some (UDELL_PASS, after sampleThree (ListRemoveLink sampleThree 1 20)) ∧
    WellFormed (after sampleThree (ListRemoveLink sampleThree 1 20)) 1 :=
  ⟨by decide, by decide, rfl,
    (wellFormed_preserved sampleThree 1 10 20 (by decide)).2.2.1 (by decide) (by decide)
      _ rfl⟩


/-! ## Failed calls -/

theorem linkInit_fail {m m1 : Mem} {x data ps ds : Nat}
    (h : LinkInit m x data ps ds = some (UDELL_FAIL, m1)) : ∃ e, m1 = m.setErrno e := by
  unfold LinkInit at h
  split_ifs at h <;> simp only [failWith, Option.some.injEq, Prod.mk.injEq] at h <;>
    obtain ⟨hv, rfl⟩ := h <;> first | exact ⟨_, rfl⟩ | exact absurd hv pass_ne_fail

theorem setMaxLinks_fail {m m1 : Mem} {l : Nat} {max : Int}
    (h : ListSetMaxLinks m l max = some (UDELL_FAIL, m1)) : ∃ e, m1 = m.setErrno e := by
  unfold ListSetMaxLinks at h
  split_ifs at h <;> simp only [failWith, Option.some.injEq, Prod.mk.injEq] at h <;>
    obtain ⟨hv, rfl⟩ := h <;> first | exact ⟨_, rfl⟩ | exact absurd hv pass_ne_fail

theorem insertFirst_fail {m m1 : Mem} {l x : Nat}
    (h : ListInsertFirst m l x = some (UDELL_FAIL, m1)) : ∃ e, m1 = m.setErrno e := by
  unfold ListInsertFirst at h
  split_ifs at h <;> simp only [failWith, Option.some.injEq, Prod.mk.injEq] at h <;>
    obtain ⟨hv, rfl⟩ := h <;> first | exact ⟨_, rfl⟩ | exact absurd hv pass_ne_fail

theorem insertLast_fail {m m1 : Mem} {l x : Nat}
    (h : ListInsertLast m l x = some (UDELL_FAIL, m1)) : ∃ e, m1 = m.setErrno e := by
  unfold ListInsertLast at h
  split_ifs at h <;> simp only [failWith, Option.some.injEq, Prod.mk.injEq] at h <;>
    obtain ⟨hv, rfl⟩ := h <;> first | exact ⟨_, rfl⟩ | exact absurd hv pass_ne_fail

theorem insertAfter_fail {m m1 : Mem} {l r x : Nat}
    (h : ListInsertAfter m l r x = some (UDELL_FAIL, m1)) : ∃ e, m1 = m.setErrno e := by
  unfold ListInsertAfter at h
  split_ifs at h <;> simp only [failWith, Option.some.injEq, Prod.mk.injEq] at h <;>
    obtain ⟨hv, rfl⟩ := h <;> first | exact ⟨_, rfl⟩ | exact absurd hv pass_ne_fail

theorem insertBefore_fail {m m1 : Mem} {l r x : Nat}
    (h : ListInsertBefore m l r x = some (UDELL_FAIL, m1)) : ∃ e, m1 = m.setErrno e := by
  unfold ListInsertBefore at h
  split_ifs at h <;> simp only [failWith, Option.some.injEq, Prod.mk.injEq] at h <;>
    obtain ⟨hv, rfl⟩ := h <;> first | exact ⟨_, rfl⟩ | exact absurd hv pass_ne_fail

theorem removeLink_fail {m m1 : Mem} {l x : Nat}
    (h : ListRemoveLink m l x = some (UDELL_FAIL, m1)) : ∃ e, m1 = m.setErrno e := by
  unfold ListRemoveLink at h
  split_ifs at h
  · exact ⟨_, (failWith_eq h).2⟩
  · exact ⟨_, (failWith_eq h).2⟩
  · exact ⟨_, (failWith_eq h).2⟩
  · simp only [Option.some.injEq, Prod.mk.injEq] at h
    exact absurd h.1 pass_ne_fail
  · cases h1 : removePrevSide m l x with
    | none => simp [h1] at h
    | some ma =>
      cases h2 : removeNextSide ma l x with
      | none => simp [h1, h2] at h
      | some mb =>
        simp only [h1, h2, Option.some.injEq, Prod.mk.injEq] at h
        exact absurd h.1 pass_ne_fail

/-- C9: in every memory, well-formed or not, a call of `LinkInit`, `ListSetMaxLinks`,
`ListInsertFirst`, `ListInsertLast`, `ListInsertAfter`, `ListInsertBefore` or
`ListRemoveLink` that returns `UDELL_FAIL` leaves every field of every list and of every
link as it was; only `errno` is written. -/
theorem failed_call_changes_nothing (m m1 : Mem) (l r x data payloadSize dataSize : Nat)
    (max : Int)
    (h : LinkInit m x data payloadSize dataSize = some (UDELL_FAIL, m1) ∨
      ListSetMaxLinks m l max = some (UDELL_FAIL, m1) ∨
      ListInsertFirst m l x = some (UDELL_FAIL, m1) ∨
      ListInsertLast m l x = some (UDELL_FAIL, m1) ∨
      ListInsertAfter m l r x = some (UDELL_FAIL, m1) ∨
      ListInsertBefore m l r x = some (UDELL_FAIL, m1) ∨
      ListRemoveLink m l x = some (UDELL_FAIL, m1)) :
    m1.link = m.link ∧ m1.list = m.list ∧ ∃ e, m1 = m.setErrno e := by
  have key : ∃ e, m1 = m.setErrno e := by
    rcases h with h | h | h | h | h | h | h
    · exact linkInit_fail h
    · exact setMaxLinks_fail h
    · exact insertFirst_fail h
    · exact insertLast_fail h
    · exact insertAfter_fail h
    · exact insertBefore_fail h
    · exact removeLink_fail h
  obtain ⟨e, rfl⟩ := key
  exact ⟨rfl, rfl, e, rfl⟩

/-- Witness for C9: `ListInsertAfter` with a reference link of another list fails and
changes nothing. -/
theorem failed_call_changes_nothing_witness :
    ListInsertAfter sampleThree 1 40 50
      = some (UDELL_FAIL, sampleThree.setErrno UDELL_EBADLIST) ∧
    (sampleThree.setErrno UDELL_EBADLIST).link = sampleThree.link ∧
    (sampleThree.setErrno UDELL_EBADLIST).list = sampleThree.list ∧
    ∃ e, sampleThree.setErrno UDELL_EBADLIST = sampleThree.setErrno e :=
  ⟨rfl, failed_call_changes_nothing sampleThree _ 1 40 50 0 0 0 0
    (Or.inr (Or.inr (Or.inr (Or.inr (Or.inl rfl)))))⟩

/-! ## Setting the capacity -/

/-- C10: `ListSetMaxLinks` rejects a capacity equal to the current length.  On the empty list
made by `ListInit`, `ListSetMaxLinks(list, 0)` returns `UDELL_FAIL` with `errno`
`UDELL_ESIZE` and the capacity stays `UDELL_NOLIMIT`; on the list `[10]`,
`ListSetMaxLinks(list, 1)` fails the same way, while `ListSetMaxLinks(list, 2)` passes. -/
theorem setMaxLinks_rejects_current_length :
    ((after Mem.zero (ListInit Mem.zero 1)).list 1).len = 0 ∧
    retOf (ListSetMaxLinks (after Mem.zero (ListInit Mem.zero 1)) 1 0) = UDELL_FAIL ∧
    (after (after Mem.zero (ListInit Mem.zero 1))
      (ListSetMaxLinks (after Mem.zero (ListInit Mem.zero 1)) 1 0)).errno = UDELL_ESIZE ∧
    (ListGetMaxLinks (after (after Mem.zero (ListInit Mem.zero 1))
      (ListSetMaxLinks (after Mem.zero (ListInit Mem.zero 1)) 1 0)) 1).1 = UDELL_NOLIMIT ∧
    (sampleOne.list 1).len = 1 ∧
    retOf (ListSetMaxLinks sampleOne 1 1) = UDELL_FAIL ∧
    (after sampleOne (ListSetMaxLinks sampleOne 1 1)).errno = UDELL_ESIZE ∧
    retOf (ListSetMaxLinks sampleOne 1 2) = UDELL_PASS ∧
    (ListGetMaxLinks (after sampleOne (ListSetMaxLinks sampleOne 1 2)) 1).1 = 2 := by
  decide


/-! ## Length and capacity along call sequences -/

theorem toU32_le {i : Int} (h : 0 ≤ i) : ((toU32 i : Nat) : Int) ≤ i := by
  unfold toU32; omega

/-- A passing capacity test keeps the incremented length within a finite capacity. -/
theorem capInv_succ {L : udellList} (h : CapInv L) (hf : ¬ isFull L) :
    L.maxLen = UDELL_NOLIMIT ∨ ((((L.len + 1) % U32 : Nat)) : Int) ≤ L.maxLen := by
  by_cases hno : L.maxLen = UDELL_NOLIMIT
  · exact Or.inl hno
  · right
    have hle : (L.len : Int) ≤ L.maxLen := h.resolve_left hno
    have h1 : ¬ ((L.len + 1) % U32 > toU32 L.maxLen) := fun e => hf ⟨hno, e⟩
    have h2 := toU32_le (i := L.maxLen) (by omega)
    omega

theorem pred_mod_le (n : Nat) (h0 : n ≠ 0) : (n + U32 - 1) % U32 ≤ n := by
  by_cases h : n < U32
  · rw [pred_mod_U32 h0 h]; omega
  · have : (n + U32 - 1) % U32 < U32 := Nat.mod_lt _ (by decide)
    omega

theorem insertFirst_capInv {m m1 : Mem} {l x : Nat} {v : Int}
    (h : ListInsertFirst m l x = some (v, m1)) (j : Nat) (hj : CapInv (m.list j)) :
    CapInv (m1.list j) := by
  unfold ListInsertFirst at h
  split_ifs at h with h1 h2 h3 h4 <;>
    simp only [failWith, Option.some.injEq, Prod.mk.injEq] at h <;> obtain ⟨-, rfl⟩ := h
  · simpa using hj
  · simpa using hj
  · by_cases e : j = l
    · subst e
      have := capInv_succ hj h2
      rw [h3] at this
      simpa [CapInv, U32] using this
    · simpa [CapInv, e] using hj
  · by_cases e : j = l
    · subst e
      have := capInv_succ hj h2
      simpa [CapInv] using this
    · simpa [CapInv, e] using hj

theorem insertLast_capInv {m m1 : Mem} {l x : Nat} {v : Int}
    (h : ListInsertLast m l x = some (v, m1)) (j : Nat) (hj : CapInv (m.list j)) :
    CapInv (m1.list j) := by
  unfold ListInsertLast at h
  split_ifs at h with h1 h2 h3 h4 <;>
    simp only [failWith, Option.some.injEq, Prod.mk.injEq] at h <;> obtain ⟨-, rfl⟩ := h
  · simpa using hj
  · simpa using hj
  · by_cases e : j = l
    · subst e
      have := capInv_succ hj h2
      rw [h3] at this
      simpa [CapInv, U32] using this
    · simpa [CapInv, e] using hj
  · by_cases e : j = l
    · subst e
      have := capInv_succ hj h2
      simpa [CapInv] using this
    · simpa [CapInv, e] using hj

theorem insertAfter_capInv {m m1 : Mem} {l r x : Nat} {v : Int}
    (h : ListInsertAfter m l r x = some (v, m1)) (j : Nat) (hj : CapInv (m.list j)) :
    CapInv (m1.list j) := by
  unfold ListInsertAfter at h
  split_ifs at h with h1 h2 h3 h4 <;>
    simp only [failWith, Option.some.injEq, Prod.mk.injEq] at h <;> obtain ⟨-, rfl⟩ := h
  · simpa using hj
  · simpa using hj
  · simpa using hj
  · simpa using hj
  · by_cases e : j = l
    · subst e
      have := capInv_succ hj h4
      split <;> simpa [CapInv] using this
    · split <;> simpa [CapInv, e] using hj

theorem insertBefore_capInv {m m1 : Mem} {l r x : Nat} {v : Int}
    (h : ListInsertBefore m l r x = some (v, m1)) (j : Nat) (hj : CapInv (m.list j)) :
    CapInv (m1.list j) := by
  unfold ListInsertBefore at h
  split_ifs at h with h1 h2 h3 h4 <;>
    simp only [failWith, Option.some.injEq, Prod.mk.injEq] at h <;> obtain ⟨-, rfl⟩ := h
  · simpa using hj
  · simpa using hj
  · simpa using hj
  · simpa using hj
  · by_cases e : j = l
    · subst e
      have := capInv_succ hj h4
      split <;> simpa [CapInv] using this
    · split <;> simpa [CapInv, e] using hj

theorem capInv_of_le {L K : udellList} (h : CapInv L) (hmax : K.maxLen = L.maxLen)
    (hlen : K.len ≤ L.len) : CapInv K := by
  unfold CapInv at h ⊢
  rw [hmax]
  rcases h with h | h
  · exact Or.inl h
  · right; omega

theorem removeLink_capInv {m m1 : Mem} {l x : Nat} {v : Int}
    (h : ListRemoveLink m l x = some (v, m1)) (j : Nat) (hj : CapInv (m.list j)) :
    CapInv (m1.list j) := by
  refine capInv_of_le hj (removeLink_maxLen h j) ?_
  unfold ListRemoveLink at h
  split_ifs at h with h1 h2 h3 h4
  · obtain ⟨-, rfl⟩ := failWith_eq h; simp
  · obtain ⟨-, rfl⟩ := failWith_eq h; simp
  · obtain ⟨-, rfl⟩ := failWith_eq h; simp
  · simp only [Option.some.injEq, Prod.mk.injEq] at h
    obtain ⟨-, rfl⟩ := h
    by_cases e : j = l <;> simp [e]
  · cases e1 : removePrevSide m l x with
    | none => simp [e1] at h
    | some ma =>
      cases e2 : removeNextSide ma l x with
      | none => simp [e1, e2] at h
      | some mb =>
        simp only [e1, e2, Option.some.injEq, Prod.mk.injEq] at h
        obtain ⟨-, rfl⟩ := h
        have hlen := (removeSides_frame e1 e2).2.1
        by_cases e : j = l
        · subst e
          simp only [Mem.len_setLen, if_true, Mem.list_setList, Mem.list_setNext,
            Mem.list_setPrev, hlen]
          exact pred_mod_le _ h2
        · simp [e, hlen]

theorem setMaxLinks_capInv {m m1 : Mem} {l : Nat} {max v : Int}
    (h : ListSetMaxLinks m l max = some (v, m1)) (j : Nat) (hj : CapInv (m.list j)) :
    CapInv (m1.list j) := by
  unfold ListSetMaxLinks at h
  split_ifs at h with h1 h2 h3 <;>
    simp only [failWith, Option.some.injEq, Prod.mk.injEq] at h <;> obtain ⟨-, rfl⟩ := h
  · simpa using hj
  · simpa using hj
  · simpa using hj
  · by_cases e : j = l
    · subst e
      by_cases hno : max = UDELL_NOLIMIT
      · left; simp [hno]
      · right
        have hmax : 0 ≤ max := by
          unfold UDELL_NOLIMIT at h2 hno; omega
        have := toU32_le hmax
        simp only [Mem.maxLen_setMaxLen, if_true, Mem.len_setMaxLen]
        omega
    · simpa [CapInv, e] using hj

theorem listInit_capInv {m m1 : Mem} {l : Nat} {v : Int}
    (h : ListInit m l = some (v, m1)) (j : Nat) (hj : CapInv (m.list j)) :
    CapInv (m1.list j) := by
  unfold ListInit at h
  split_ifs at h <;>
    simp only [failWith, Option.some.injEq, Prod.mk.injEq] at h <;> obtain ⟨-, rfl⟩ := h
  · simpa using hj
  · by_cases e : j = l
    · left; simp [e]
    · simpa [CapInv, e] using hj

theorem linkInit_list {m m1 : Mem} {x data ps ds : Nat} {v : Int}
    (h : LinkInit m x data ps ds = some (v, m1)) : m1.list = m.list := by
  unfold LinkInit at h
  split_ifs at h <;>
    simp only [failWith, Option.some.injEq, Prod.mk.injEq] at h <;> obtain ⟨-, rfl⟩ := h <;>
    simp

theorem run_capInv {m m1 : Mem} {c : Call} {v : Int} (h : c.run m = some (v, m1)) (j : Nat)
    (hj : CapInv (m.list j)) : CapInv (m1.list j) := by
  cases c with
  | linkInit a d p s => rw [linkInit_list h]; exact hj
  | listInit l => exact listInit_capInv h j hj
  | setMaxLinks l max => exact setMaxLinks_capInv h j hj
  | insertFirst l x => exact insertFirst_capInv h j hj
  | insertLast l x => exact insertLast_capInv h j hj
  | insertAfter l r x => exact insertAfter_capInv h j hj
  | insertBefore l r x => exact insertBefore_capInv h j hj
  | removeLink l x => exact removeLink_capInv h j hj

theorem runCalls_capInv (j : Nat) :
    ∀ (cs : List Call) (m m1 : Mem), runCalls m cs = some m1 → CapInv (m.list j) →
      CapInv (m1.list j)
  | [], m, m1, h, hj => by
    simp only [runCalls, Option.some.injEq] at h
    exact h ▸ hj
  | c :: cs, m, m1, h, hj => by
    cases hc : c.run m with
    | none => simp [runCalls, hc] at h
    | some p =>
      obtain ⟨v, m2⟩ := p
      simp only [runCalls, hc] at h
      exact runCalls_capInv j cs m2 m1 h (run_capInv hc j hj)

/-- C11: in every memory reached from `ListInit(list)` through any sequence of calls of the
API (`ListSetMaxLinks`, the four insertions, `ListRemoveLink`, and also `ListInit` and
`LinkInit`), passing or failing, on any lists and links, a finite capacity of the list
(one that is not `UDELL_NOLIMIT`) bounds its length: `len <= maxLen`. -/
theorem length_le_capacity (m0 m : Mem) (l : Nat) (cs : List Call) (hl : l ≠ 0)
    (hrun : runCalls (after m0 (ListInit m0 l)) cs = some m)
    (hfin : (m.list l).maxLen ≠ UDELL_NOLIMIT) :
    ((m.list l).len : Int) ≤ (m.list l).maxLen := by
  have h0 : CapInv ((after m0 (ListInit m0 l)).list l) := Or.inl (listInit_dll hl).2.2
  exact (runCalls_capInv l cs _ m hrun h0).resolve_left hfin

/-- Witness for C11: capacity 3 set on a fresh list, then five `ListInsertLast` calls (two
of them failing) and one `ListRemoveLink`, as in `main`. -/
theorem length_le_capacity_witness :
    runCalls (after Mem.zero (ListInit Mem.zero 1))
        [.setMaxLinks 1 3, .insertLast 1 10, .insertLast 1 20, .insertLast 1 30,
          .insertLast 1 40, .insertLast 1 50, .removeLink 1 10]
      = some sampleMain ∧
    (sampleMain.list 1).maxLen ≠ UDELL_NOLIMIT ∧
    ((sampleMain.list 1).len : Int) ≤ (sampleMain.list 1).maxLen :=
  ⟨rfl, by decide,
    length_le_capacity Mem.zero sampleMain 1
      [.setMaxLinks 1 3, .insertLast 1 10, .insertLast 1 20, .insertLast 1 30,
        .insertLast 1 40, .insertLast 1 50, .removeLink 1 10] (by decide) rfl (by decide)⟩


/-! ## Order of the checks of the positional insertions -/

/-- C12: with all three pointers valid, `ListInsertAfter` and `ListInsertBefore` decide in
this order: `UDELL_EEMPTY` if `len` is zero (whatever the owner of the reference link),
otherwise `UDELL_EBADLIST` if the reference link's `pList` is not this list (whatever the
capacity), otherwise `UDELL_ELISTFULL` if the capacity is finite and `len + 1` exceeds it,
otherwise pass; every failure leaves all links and lists unchanged.  In particular
`ListInsertAfter` on a non-empty list with a reference link owned by another list fails with
`UDELL_EBADLIST` and leaves the list, the reference link and the new link unchanged. -/
theorem positional_check_order (m : Mem) (l r x : Nat) (hl : l ≠ 0) (hr : r ≠ 0)
    (hx : x ≠ 0) :
    ((m.list l).len = 0 →
      ListInsertAfter m l r x = failWith m UDELL_EEMPTY ∧
      ListInsertBefore m l r x = failWith m UDELL_EEMPTY) ∧
    ((m.list l).len ≠ 0 → (m.link r).pList ≠ l →
      ListInsertAfter m l r x = failWith m UDELL_EBADLIST ∧
      ListInsertBefore m l r x = failWith m UDELL_EBADLIST) ∧
    ((m.list l).len ≠ 0 → (m.link r).pList = l → (m.list l).maxLen ≠ UDELL_NOLIMIT →
      0 ≤ (m.list l).maxLen → (m.list l).maxLen < 2147483648 → (m.list l).len + 1 < U32 →
      (m.list l).maxLen < ((m.list l).len : Int) + 1 →
      ListInsertAfter m l r x = failWith m UDELL_ELISTFULL ∧
      ListInsertBefore m l r x = failWith m UDELL_ELISTFULL) ∧
    ((m.list l).len ≠ 0 → (m.link r).pList = l →
      ((m.list l).maxLen = UDELL_NOLIMIT ∨
        (0 ≤ (m.list l).maxLen ∧ (m.list l).maxLen < 2147483648 ∧
          ((m.list l).len : Int) + 1 ≤ (m.list l).maxLen)) →
      (∃ m1, ListInsertAfter m l r x = some (UDELL_PASS, m1)) ∧
      (∃ m1, ListInsertBefore m l r x = some (UDELL_PASS, m1))) ∧
    (∀ e : Int, (failWith m e = some (UDELL_FAIL, m.setErrno e)) ∧
      (m.setErrno e).link = m.link ∧ (m.setErrno e).list = m.list) ∧
    ((m.list l).len ≠ 0 → (m.link r).pList ≠ l →
      retOf (ListInsertAfter m l r x) = UDELL_FAIL ∧
      (after m (ListInsertAfter m l r x)).errno = UDELL_EBADLIST ∧
      (after m (ListInsertAfter m l r x)).list l = m.list l ∧
      (after m (ListInsertAfter m l r x)).link r = m.link r ∧
      (after m (ListInsertAfter m l r x)).link x = m.link x) := by
  have hg : ¬ (r = 0 ∨ x = 0 ∨ l = 0) := by simp [hl, hr, hx]
  have hbad : (m.list l).len ≠ 0 → (m.link r).pList ≠ l →
      ListInsertAfter m l r x = failWith m UDELL_EBADLIST ∧
      ListInsertBefore m l r x = failWith m UDELL_EBADLIST := by
    intro h0 hown
    constructor
    · simp only [ListInsertAfter, if_neg hg, if_neg h0, if_pos hown]
    · simp only [ListInsertBefore, if_neg hg, if_neg h0, if_pos hown]
  refine ⟨?_, hbad, ?_, ?_, ?_, ?_⟩
  · intro h0
    constructor
    · simp only [ListInsertAfter, if_neg hg, if_pos h0]
    · simp only [ListInsertBefore, if_neg hg, if_pos h0]
  · intro h0 hown _ hc0 hc1 hroom hfull
    have hf : isFull (m.list l) := (isFull_iff hc0 hc1 hroom).mpr hfull
    constructor
    · simp only [ListInsertAfter, if_neg hg, if_neg h0, hown, ne_eq, not_true_eq_false,
        if_false, if_pos hf]
    · simp only [ListInsertBefore, if_neg hg, if_neg h0, hown, ne_eq, not_true_eq_false,
        if_false, if_pos hf]
  · intro h0 hown hcap
    have hf : ¬ isFull (m.list l) := by
      rcases hcap with hno | ⟨hc0, hc1, hfit⟩
      · exact not_isFull_of_nolimit hno
      · have hroom : (m.list l).len + 1 < U32 := by
          have : ((m.list l).len : Int) + 1 < 4294967296 := by omega
          unfold U32; omega
        rw [isFull_iff hc0 hc1 hroom]; omega
    constructor
    · simp only [ListInsertAfter, if_neg hg, if_neg h0, hown, ne_eq, not_true_eq_false,
        if_false, if_neg hf, Option.some.injEq, Prod.mk.injEq, true_and, exists_eq']
    · simp only [ListInsertBefore, if_neg hg, if_neg h0, hown, ne_eq, not_true_eq_false,
        if_false, if_neg hf, Option.some.injEq, Prod.mk.injEq, true_and, exists_eq']
  · intro e
    exact ⟨rfl, rfl, rfl⟩
  · intro h0 hown
    rw [(hbad h0 hown).1]
    exact ⟨rfl, rfl, rfl, rfl, rfl⟩

/-- Witness for C12: in `[10, 20, 30]` of list `1`, a reference link `40` that is in no list
makes `ListInsertAfter` fail with `UDELL_EBADLIST`. -/
theorem positional_check_order_witness :
    (sampleThree.list 1).len ≠ 0 ∧ (sampleThree.link 40).pList ≠ 1 ∧
    ListInsertAfter sampleThree 1 40 50 = failWith sampleThree UDELL_EBADLIST ∧
    ListInsertBefore sampleThree 1 40 50 = failWith sampleThree UDELL_EBADLIST :=
  ⟨by decide, by decide,
    (positional_check_order sampleThree 1 40 50 (by decide) (by decide) (by decide)).2.1
      (by decide) (by decide)⟩


/-! ## Removing a link of another list -/

/-- C13: `ListRemoveLink` removes a link that is not a member.  From the zero memory,
`ListInit(1)`, `LinkInit(10, ..)`, `LinkInit(20, ..)`, `ListInsertFirst(1, 10)`,
`ListRemoveLink(1, 10)` and `ListInsertFirst(1, 20)` are all defined, and every link is in
no list when it is inserted; list `1` then holds exactly link `20`, link `10` is not a
member, but its `pList` still is list `1`.  `ListRemoveLink(1, 10)` now returns pass instead
of failing with `UDELL_EBADLIST`, and it empties the list although link `20` was its
member. -/
theorem removeLink_accepts_stale_owner :
    sampleStale = some sampleStaleMem ∧
    fwdWalk sampleStaleMem 1 = [20] ∧ WellFormed sampleStaleMem 1 ∧
    (sampleStaleMem.list 1).len = 1 ∧
    10 ∉ fwdWalk sampleStaleMem 1 ∧
    (sampleStaleMem.link 10).pList = 1 ∧
    retOf (ListRemoveLink sampleStaleMem 1 10) = UDELL_PASS ∧
    ListRemoveLink sampleStaleMem 1 10 ≠ failWith sampleStaleMem UDELL_EBADLIST ∧
    ((after sampleStaleMem (ListRemoveLink sampleStaleMem 1 10)).list 1).len = 0 ∧
    ((after sampleStaleMem (ListRemoveLink sampleStaleMem 1 10)).list 1).pHead = 0 ∧
    ((after sampleStaleMem (ListRemoveLink sampleStaleMem 1 10)).list 1).pTail = 0 ∧
    (after sampleStaleMem (ListRemoveLink sampleStaleMem 1 10)).list 1
      ≠ sampleStaleMem.list 1 ∧
    fwdWalk (after sampleStaleMem (ListRemoveLink sampleStaleMem 1 10)) 1 = [] := by
  refine ⟨rfl, by decide, by decide, by decide, by decide, by decide, by decide, ?_,
    by decide, by decide, by decide, by decide, by decide⟩
  intro h
  have : retOf (ListRemoveLink sampleStaleMem 1 10)
      = retOf (failWith sampleStaleMem UDELL_EBADLIST) := by
    rw [h]
  revert this
  decide


/-! ## Link initialization -/

/-- C14: for a valid link, `LinkInit` fails with `UDELL_ESIZE` exactly when
`dataSize > payloadSize`, and then leaves every link and list as it was; otherwise it passes
and afterwards `pPrev` and `pNext` are null, `pList` is `UDELL_NOLIST`, and `LinkGetData`,
`LinkGetPayloadSize` and `LinkGetDataSize` return the given payload pointer and sizes; with
payload size 4 and data size 8 it fails with `UDELL_ESIZE`. -/
theorem linkInit_contract (m : Mem) (x data payloadSize dataSize : Nat) (hx : x ≠ 0) :
    (dataSize > payloadSize →
      LinkInit m x data payloadSize dataSize = some (UDELL_FAIL, m.setErrno UDELL_ESIZE) ∧
      (m.setErrno UDELL_ESIZE).link = m.link ∧ (m.setErrno UDELL_ESIZE).list = m.list) ∧
    (¬ dataSize > payloadSize →
      ∃ m1, LinkInit m x data payloadSize dataSize = some (UDELL_PASS, m1) ∧
        (m1.link x).pPrev = 0 ∧ (m1.link x).pNext = 0 ∧ (m1.link x).pList = UDELL_NOLIST ∧
        LinkGetData m1 x = (data, m1) ∧
        LinkGetPayloadSize m1 x = (payloadSize, m1) ∧
        LinkGetDataSize m1 x = (dataSize, m1)) ∧
    (LinkInit m x data payloadSize dataSize = some (UDELL_FAIL, m.setErrno UDELL_ESIZE) ↔
      dataSize > payloadSize) ∧
    LinkInit m x data 4 8 = some (UDELL_FAIL, m.setErrno UDELL_ESIZE) := by
  have hfail : ∀ p d : Nat, d > p →
      LinkInit m x data p d = some (UDELL_FAIL, m.setErrno UDELL_ESIZE) := by
    intro p d h
    simp only [LinkInit, if_neg hx, if_pos h, failWith]
  refine ⟨fun h => ⟨hfail _ _ h, rfl, rfl⟩, ?_, ⟨?_, hfail _ _⟩, hfail 4 8 (by decide)⟩
  · intro h
    simp only [LinkInit, if_neg hx, if_neg h, Option.some.injEq, Prod.mk.injEq, true_and,
      exists_eq_left', LinkGetData, LinkGetPayloadSize, LinkGetDataSize]
    simp
  · intro h
    by_contra hle
    simp only [LinkInit, if_neg hx, if_neg hle, Option.some.injEq, Prod.mk.injEq] at h
    exact pass_ne_fail h.1

/-- Witness for C14: link `10` initialized with payload pointer 7 and sizes 4 and 4. -/
theorem linkInit_contract_witness :
    ∃ m1, LinkInit Mem.zero 10 7 4 4 = some (UDELL_PASS, m1) ∧
      (m1.link 10).pPrev = 0 ∧ (m1.link 10).pNext = 0 ∧ (m1.link 10).pList = UDELL_NOLIST ∧
      LinkGetData m1 10 = (7, m1) ∧
      LinkGetPayloadSize m1 10 = (4, m1) ∧
      LinkGetDataSize m1 10 = (4, m1) :=
  (linkInit_contract Mem.zero 10 7 4 4 (by decide)).2.1 (by decide)


/-! ## Reinsertion after the removal of the only link -/

theorem insertFirst_prev {m m1 : Mem} {l x : Nat}
    (h : ListInsertFirst m l x = some (UDELL_PASS, m1)) : (m1.link x).pPrev = 0 := by
  unfold ListInsertFirst at h
  split_ifs at h <;> simp only [failWith, Option.some.injEq, Prod.mk.injEq] at h <;>
    obtain ⟨hv, rfl⟩ := h <;> first | exact absurd hv.symm pass_ne_fail | simp

/-- A memory with the same links and the same record of list `k` has the same list `k`. -/
theorem wellFormed_congr {m m1 : Mem} {k : Nat} (hlink : m1.link = m.link)
    (hlist : m1.list k = m.list k) :
    fwdWalk m1 k = fwdWalk m k ∧ (WellFormed m k → WellFormed m1 k) := by
  have hf : fwdWalk m1 k = fwdWalk m k := by
    unfold fwdWalk Mem.next; rw [hlink, hlist]
  have hb : bwdWalk m1 k = bwdWalk m k := by
    unfold bwdWalk Mem.prev; rw [hlink, hlist]
  refine ⟨hf, fun h => ?_⟩
  unfold WellFormed at h ⊢
  rw [hf, hb, hlist]
  exact h

/-- C15, amended: on a well-formed list whose only member is `A`, the `pList` of `A` being
the list, `ListRemoveLink(list, A)` passes, after which `ListGetLen` is 0 and `ListGetHead`
and `ListGetTail` fail with `UDELL_EEMPTY`; the same list is then well-formed and empty and
every other well-formed list is unchanged, and `ListInsertFirst` of `A`, without `LinkInit`,
into any well-formed list that does not hold `A` and has capacity available passes and
yields a well-formed list with head `A`, `A.pPrev` null and `A.pList` that list. -/
theorem reinsert_after_singleton_remove (m : Mem) (l A : Nat) (hl : l ≠ 0)
    (hwf : WellFormed m l) (hs : fwdWalk m l = [A]) (hown : (m.link A).pList = l) :
    ∃ m1, ListRemoveLink m l A = some (UDELL_PASS, m1) ∧
      ListGetLen m1 l = (0, m1) ∧
      ListGetHead m1 l = (0, m1.setErrno UDELL_EEMPTY) ∧
      ListGetTail m1 l = (0, m1.setErrno UDELL_EEMPTY) ∧
      WellFormed m1 l ∧ fwdWalk m1 l = [] ∧
      (∀ k, k ≠ l → WellFormed m k → WellFormed m1 k ∧ fwdWalk m1 k = fwdWalk m k) ∧
      (∀ k, k ≠ 0 → WellFormed m1 k → A ∉ fwdWalk m1 k → ¬ isFull (m1.list k) →
        (m1.list k).len + 1 < U32 →
        ∃ m2, ListInsertFirst m1 k A = some (UDELL_PASS, m2) ∧ WellFormed m2 k ∧
          fwdWalk m2 k = A :: fwdWalk m1 k ∧
          (m2.list k).pHead = A ∧ (m2.link A).pPrev = 0 ∧ (m2.link A).pList = k) := by
  have hd := hwf.dll
  rw [hs] at hd
  have hA0 : A ≠ 0 := hd.fwd.2.1
  have hlen1 : (m.list l).len = 1 := by rw [hd.len]; rfl
  have hlen0 : (m.list l).len ≠ 0 := by rw [hlen1]; decide
  have hg : ¬ (A = 0 ∨ l = 0) := by simp [hA0, hl]
  have hrem : ListRemoveLink m l A
      = some (UDELL_PASS, ((m.setLen l 0).setHead l 0).setTail l 0) := by
    simp only [ListRemoveLink, if_neg hg, if_neg hlen0, hown, ne_eq, not_true_eq_false,
      if_false, if_pos hlen1]
  have hd1 : DLL (((m.setLen l 0).setHead l 0).setTail l 0) l [] := by
    refine ⟨?_, ?_, List.nodup_nil, ?_⟩ <;> simp [Path]
  refine ⟨_, hrem, ?_, ?_, ?_, hd1.wellFormed, hd1.fwdWalk_eq, ?_, ?_⟩
  · simp [ListGetLen, hl, toI32]
  · simp [ListGetHead, hl]
  · simp [ListGetTail, hl]
  · intro k hk hwk
    have h := @wellFormed_congr m (((m.setLen l 0).setHead l 0).setTail l 0) k rfl
      (by simp [Mem.setTail, Mem.setHead, Mem.setLen, hk])
    exact ⟨h.2 hwk, h.1⟩
  · intro k hk hwk hfresh hcap hroom
    obtain ⟨m2, h2, hd2⟩ := insertFirst_dll hk hA0 hwk.dll hfresh hcap hroom
    exact ⟨m2, h2, hd2.wellFormed, hd2.fwdWalk_eq, hd2.fwd.1, insertFirst_prev h2,
      insertFirst_owner h2⟩

/-- Witness for C15 (amended): the single link `10` of list `1` removed and inserted again. -/
theorem reinsert_after_singleton_remove_witness :
    WellFormed sampleOne 1 ∧ fwdWalk sampleOne 1 = [10] ∧ (sampleOne.link 10).pList = 1 ∧
    (∃ m1, ListRemoveLink sampleOne 1 10 = some (UDELL_PASS, m1) ∧
      ListGetLen m1 1 = (0, m1) ∧
      ListGetHead m1 1 = (0, m1.setErrno UDELL_EEMPTY) ∧
      ListGetTail m1 1 = (0, m1.setErrno UDELL_EEMPTY) ∧
      WellFormed m1 1 ∧ fwdWalk m1 1 = [] ∧
      (∀ k, k ≠ 1 → WellFormed sampleOne k →
        WellFormed m1 k ∧ fwdWalk m1 k = fwdWalk sampleOne k) ∧
      (∀ k, k ≠ 0 → WellFormed m1 k → 10 ∉ fwdWalk m1 k → ¬ isFull (m1.list k) →
        (m1.list k).len + 1 < U32 →
        ∃ m2, ListInsertFirst m1 k 10 = some (UDELL_PASS, m2) ∧ WellFormed m2 k ∧
          fwdWalk m2 k = 10 :: fwdWalk m1 k ∧
          (m2.list k).pHead = 10 ∧ (m2.link 10).pPrev = 0 ∧ (m2.link 10).pList = k)) :=
  ⟨by decide, by decide, by decide,
    reinsert_after_singleton_remove sampleOne 1 10 (by decide) (by decide) (by decide)
      (by decide)⟩


/-! ## List initialization and the boundary queries -/

/-- C16: after `ListInit` on valid list storage `ListGetLen` returns 0, `ListGetMaxLinks`
returns `UDELL_NOLIMIT`, and `ListGetHead` and `ListGetTail` fail with `UDELL_EEMPTY`; on a
well-formed list `ListGetHead` and `ListGetTail` fail with `UDELL_EEMPTY` when `len` is 0
and only then, and otherwise return, without writing `errno`, a non-null link: the first
and the last link of the forward walk. -/
theorem listInit_and_boundaries (m : Mem) (l : Nat) (hl : l ≠ 0) (hwf : WellFormed m l) :
    (∀ m0 : Mem, ∃ m1, ListInit m0 l = some (UDELL_PASS, m1) ∧
      ListGetLen m1 l = (0, m1) ∧ ListGetMaxLinks m1 l = (UDELL_NOLIMIT, m1) ∧
      ListGetHead m1 l = (0, m1.setErrno UDELL_EEMPTY) ∧
      ListGetTail m1 l = (0, m1.setErrno UDELL_EEMPTY)) ∧
    ((m.list l).len = 0 →
      ListGetHead m l = (0, m.setErrno UDELL_EEMPTY) ∧
      ListGetTail m l = (0, m.setErrno UDELL_EEMPTY)) ∧
    ((m.list l).len ≠ 0 →
      ∃ (hne : fwdWalk m l ≠ []),
        ListGetHead m l = ((fwdWalk m l).head hne, m) ∧
        ListGetTail m l = ((fwdWalk m l).getLast hne, m) ∧
        (fwdWalk m l).head hne ≠ 0 ∧ (fwdWalk m l).getLast hne ≠ 0) ∧
    ((ListGetHead m l = (0, m.setErrno UDELL_EEMPTY) ↔ (m.list l).len = 0) ∧
      (ListGetTail m l = (0, m.setErrno UDELL_EEMPTY) ↔ (m.list l).len = 0)) := by
  have hd := hwf.dll
  have hempty : (m.list l).len = 0 →
      ListGetHead m l = (0, m.setErrno UDELL_EEMPTY) ∧
      ListGetTail m l = (0, m.setErrno UDELL_EEMPTY) := by
    intro h0
    constructor
    · simp only [ListGetHead, if_neg hl, if_pos h0]
    · simp only [ListGetTail, if_neg hl, if_pos h0]
  have hfull : (m.list l).len ≠ 0 →
      ∃ (hne : fwdWalk m l ≠ []),
        ListGetHead m l = ((fwdWalk m l).head hne, m) ∧
        ListGetTail m l = ((fwdWalk m l).getLast hne, m) ∧
        (fwdWalk m l).head hne ≠ 0 ∧ (fwdWalk m l).getLast hne ≠ 0 := by
    intro h0
    have hne : fwdWalk m l ≠ [] := by
      intro e
      apply h0
      rw [hd.len, e]; rfl
    have h0s : 0 ∉ fwdWalk m l := Path.zero_not_mem hd.fwd
    refine ⟨hne, ?_, ?_, ?_, ?_⟩
    · simp only [ListGetHead, if_neg hl, if_neg h0, hd.head_of_ne_nil hne]
    · simp only [ListGetTail, if_neg hl, if_neg h0, hd.tail_of_ne_nil hne]
    · exact fun e => h0s (e ▸ List.head_mem hne)
    · exact fun e => h0s (e ▸ List.getLast_mem hne)
  refine ⟨?_, hempty, hfull, ?_, ?_⟩
  · intro m0
    refine ⟨(((m0.setHead l 0).setTail l 0).setLen l 0).setMaxLen l UDELL_NOLIMIT, ?_, ?_, ?_,
      ?_, ?_⟩
    · simp only [ListInit, if_neg hl]
    · simp [ListGetLen, hl, toI32]
    · simp [ListGetMaxLinks, hl]
    · simp [ListGetHead, hl]
    · simp [ListGetTail, hl]
  · refine ⟨fun h => ?_, fun h => (hempty h).1⟩
    by_contra h0
    obtain ⟨hne, hh, _, hz, _⟩ := hfull h0
    rw [hh] at h
    exact hz (congrArg Prod.fst h)
  · refine ⟨fun h => ?_, fun h => (hempty h).2⟩
    by_contra h0
    obtain ⟨hne, _, ht, _, hz⟩ := hfull h0
    rw [ht] at h
    exact hz (congrArg Prod.fst h)

/-- Witness for C16: head and tail of `[10, 20, 30]`. -/
theorem listInit_and_boundaries_witness :
    WellFormed sampleThree 1 ∧ (sampleThree.list 1).len ≠ 0 ∧
    (∃ (hne : fwdWalk sampleThree 1 ≠ []),
      ListGetHead sampleThree 1 = ((fwdWalk sampleThree 1).head hne, sampleThree) ∧
      ListGetTail sampleThree 1 = ((fwdWalk sampleThree 1).getLast hne, sampleThree) ∧
      (fwdWalk sampleThree 1).head hne ≠ 0 ∧ (fwdWalk sampleThree 1).getLast hne ≠ 0) :=
  ⟨by decide, by decide,
    (listInit_and_boundaries sampleThree 1 (by decide) (by decide)).2.2.1 (by decide)⟩


/-! ## The owning list of a link -/

/-- C17, as stated, fails: for link `10` of the zero memory, whose `pList` is `UDELL_NOLIST`,
`LinkGetList` returns null and records `UDELL_EEMPTY`, the very code that `ListGetHead` and
`ListGetTail` record on the zero-length list made by `ListInit`; the recorded kinds are not
distinct. -/
theorem getList_unattached_kind_not_distinct :
    (Mem.zero.link 10).pList = UDELL_NOLIST ∧
    (LinkGetList Mem.zero 10).1 = 0 ∧
    (LinkGetList Mem.zero 10).2.errno = UDELL_EEMPTY ∧
    ((after Mem.zero (ListInit Mem.zero 1)).list 1).len = 0 ∧
    (ListGetHead (after Mem.zero (ListInit Mem.zero 1)) 1).2.errno = UDELL_EEMPTY ∧
    (ListGetTail (after Mem.zero (ListInit Mem.zero 1)) 1).2.errno = UDELL_EEMPTY ∧
    ¬ ((LinkGetList Mem.zero 10).2.errno
      ≠ (ListGetHead (after Mem.zero (ListInit Mem.zero 1)) 1).2.errno) := by
  decide

/-- C17, amended: for a valid link whose `pList` is `UDELL_NOLIST`, `LinkGetList` fails
(returns null) and records `UDELL_EEMPTY`, the same code that `ListGetHead` and
`ListGetTail` record on a zero-length list; for a valid link whose `pList` is a list,
`LinkGetList` returns that list and leaves `errno` alone. -/
theorem getList_contract (m : Mem) (x : Nat) (hx : x ≠ 0) :
    ((m.link x).pList = UDELL_NOLIST →
      LinkGetList m x = (0, m.setErrno UDELL_EEMPTY) ∧
      ∀ l, l ≠ 0 → (m.list l).len = 0 →
        (ListGetHead m l).2.errno = (LinkGetList m x).2.errno ∧
        (ListGetTail m l).2.errno = (LinkGetList m x).2.errno) ∧
    ((m.link x).pList ≠ UDELL_NOLIST → LinkGetList m x = ((m.link x).pList, m)) := by
  constructor
  · intro h
    have e : LinkGetList m x = (0, m.setErrno UDELL_EEMPTY) := by
      simp only [LinkGetList, if_neg hx, if_pos h]
    refine ⟨e, fun l hl h0 => ?_⟩
    rw [e]
    simp [ListGetHead, ListGetTail, hl, h0]
  · intro h
    simp only [LinkGetList, if_neg hx, if_neg h]

/-- Witness for C17 (amended): link `20` of `[10, 20, 30]` reports list `1`. -/
theorem getList_contract_witness :
    (sampleThree.link 20).pList ≠ UDELL_NOLIST ∧
    LinkGetList sampleThree 20 = ((sampleThree.link 20).pList, sampleThree) ∧
    (sampleThree.link 20).pList = 1 :=
  ⟨by decide, (getList_contract sampleThree 20 (by decide)).2 (by decide), by decide⟩

/-! ## Null safety of the removal -/

/-- On a list of at least two links the two halves of the general case of `ListRemoveLink`
are defined for every member. -/
theorem DLL.sides_defined {m : Mem} {l x : Nat} {s t : List Nat}
    (h : DLL m l (s ++ x :: t)) (h2 : s ≠ [] ∨ t ≠ []) :
    ((m.link x).pPrev = 0 → (m.link x).pNext ≠ 0) ∧
    ((m.link x).pNext = 0 → (m.link x).pPrev ≠ 0) ∧
    ∃ ma mb, removePrevSide m l x = some ma ∧ removeNextSide ma l x = some mb := by
  obtain ⟨hx1, hx2, _, _, _⟩ := nodup_split h.nodup
  have hfw := h.fwd
  have hbw := h.bwd
  rcases List.eq_nil_or_concat s with hs | ⟨u, p, hs⟩
  · subst hs
    cases t with
    | nil => simp at h2
    | cons n t =>
      simp only [List.reverse_append, List.reverse_cons, List.append_assoc,
        List.singleton_append, List.cons_append, List.nil_append, List.reverse_nil]
        at hbw hfw
      have hpx : (m.link x).pPrev = 0 := path_last_two hbw
      have hnx : (m.link x).pNext = n := path_succ (s := []) hfw
      have hn0 : n ≠ 0 := path_mem_ne_zero hfw (by simp)
      have hxn : x ≠ n := fun e => hx2 (by simp [e])
      refine ⟨fun _ => by rw [hnx]; exact hn0, fun e => absurd (hnx ▸ e) hn0,
        (m.setHead l n).setPrev n 0, ((m.setHead l n).setPrev n 0).setPrev n 0, ?_, ?_⟩
      · simp [removePrevSide, hpx, hnx, hn0]
      · simp [removeNextSide, hpx, hnx, hn0, hxn]
  · subst hs
    simp only [List.concat_eq_append, List.append_assoc, List.singleton_append] at *
    have hxp : x ≠ p := fun e => hx1 (by simp [e])
    have hp0 : p ≠ 0 := path_mem_ne_zero hfw (by simp)
    cases t with
    | nil =>
      simp only [List.reverse_append, List.reverse_cons, List.append_assoc,
        List.singleton_append, List.cons_append, List.nil_append, List.reverse_nil]
        at hbw hfw
      have hpx : (m.link x).pPrev = p := path_succ (s := []) hbw
      have hnx : (m.link x).pNext = 0 := path_last_two hfw
      refine ⟨fun e => absurd (hpx ▸ e) hp0, fun _ => by rw [hpx]; exact hp0,
        m.setNext p 0, ((m.setNext p 0).setTail l p).setNext p 0, ?_, ?_⟩
      · simp [removePrevSide, hpx, hnx, hp0]
      · simp [removeNextSide, hpx, hnx, hp0, hxp]
    | cons n t =>
      simp only [List.reverse_append, List.reverse_cons, List.append_assoc,
        List.singleton_append, List.cons_append, List.nil_append, List.reverse_nil]
        at hbw hfw
      have hpx : (m.link x).pPrev = p :=
        path_succ (s := t.reverse ++ [n]) (by simpa using hbw)
      have hnx : (m.link x).pNext = n := path_succ (s := u ++ [p]) (by simpa using hfw)
      have hn0 : n ≠ 0 := path_mem_ne_zero hfw (by simp)
      refine ⟨fun e => absurd (hpx ▸ e) hp0, fun e => absurd (hnx ▸ e) hn0,
        m.setNext p n, (m.setNext p n).setPrev n p, ?_, ?_⟩
      · simp [removePrevSide, hpx, hnx, hp0]
      · simp [removeNextSide, hpx, hnx, hn0, hxp]


/-- C18: on a well-formed list of at least two links and for every member `x`, the general
case of `ListRemoveLink` only follows present links: when `x.pPrev` is null `x.pNext` is
not, when `x.pNext` is null `x.pPrev` is not, so both halves of the general case are
defined, the call is defined, and when `x` records the list as its owner it returns pass. -/
theorem removeLink_null_safe (m : Mem) (l x : Nat) (hl : l ≠ 0) (hwf : WellFormed m l)
    (hlen : 2 ≤ (m.list l).len) (hx : x ∈ fwdWalk m l) :
    ((m.link x).pPrev = 0 → (m.link x).pNext ≠ 0) ∧
    ((m.link x).pNext = 0 → (m.link x).pPrev ≠ 0) ∧
    (∃ ma mb, removePrevSide m l x = some ma ∧ removeNextSide ma l x = some mb) ∧
    ListRemoveLink m l x ≠ none ∧
    ((m.link x).pList = l → (m.list l).len < U32 →
      ∃ m1, ListRemoveLink m l x = some (UDELL_PASS, m1)) := by
  have hd := hwf.dll
  obtain ⟨s, t, hs⟩ := List.append_of_mem hx
  rw [hs] at hd
  have h2 : s ≠ [] ∨ t ≠ [] := by
    by_contra hc
    simp only [not_or, not_not] at hc
    have := hd.len
    rw [hc.1, hc.2] at this
    simp at this
    omega
  obtain ⟨a1, a2, ma, mb, e1, e2⟩ := hd.sides_defined h2
  have hx0 : x ≠ 0 := path_mem_ne_zero hd.fwd (by simp)
  have hg : ¬ (x = 0 ∨ l = 0) := by simp [hx0, hl]
  have h0 : (m.list l).len ≠ 0 := by omega
  have h1 : (m.list l).len ≠ 1 := by omega
  refine ⟨a1, a2, ⟨ma, mb, e1, e2⟩, ?_, ?_⟩
  · by_cases hown : (m.link x).pList = l
    · simp only [ListRemoveLink, if_neg hg, if_neg h0, hown, ne_eq, not_true_eq_false,
        if_false, if_neg h1, e1, e2]
      simp
    · simp only [ListRemoveLink, if_neg hg, if_neg h0, ne_eq, hown, not_false_eq_true,
        if_true, failWith]
      simp
  · intro hown hty
    obtain ⟨m1, hm1, _⟩ := removeLink_dll hl hd hown hty
    exact ⟨m1, hm1⟩

/-- Witness for C18: the head `10` of `[10, 20, 30]` has a successor. -/
theorem removeLink_null_safe_witness :
    WellFormed sampleThree 1 ∧ 2 ≤ (sampleThree.list 1).len ∧ 10 ∈ fwdWalk sampleThree 1 ∧
    (sampleThree.link 10).pPrev = 0 ∧ (sampleThree.link 10).pNext ≠ 0 ∧
    ∃ m1, ListRemoveLink sampleThree 1 10 = some (UDELL_PASS, m1) :=
  ⟨by decide, by decide, by decide, by decide, by decide,
    (removeLink_null_safe sampleThree 1 10 (by decide) (by decide) (by decide)
      (by decide)).2.2.2.2 (by decide) (by decide)⟩


/-! ## The payload fields -/

theorem SamePayload.refl (m : Mem) : SamePayload m m := fun _ => ⟨rfl, rfl, rfl⟩

theorem SamePayload.trans {m m1 m2 : Mem} (h1 : SamePayload m m1) (h2 : SamePayload m1 m2) :
    SamePayload m m2 := fun a =>
  ⟨(h2 a).1.trans (h1 a).1, (h2 a).2.1.trans (h1 a).2.1, (h2 a).2.2.trans (h1 a).2.2⟩

theorem listInit_payload {m m1 : Mem} {l : Nat} {v : Int}
    (h : ListInit m l = some (v, m1)) : SamePayload m m1 := by
  unfold ListInit at h
  split_ifs at h <;> simp only [failWith, Option.some.injEq, Prod.mk.injEq] at h <;>
    obtain ⟨-, rfl⟩ := h <;> intro a <;> simp

theorem setMaxLinks_payload {m m1 : Mem} {l : Nat} {max v : Int}
    (h : ListSetMaxLinks m l max = some (v, m1)) : SamePayload m m1 := by
  unfold ListSetMaxLinks at h
  split_ifs at h <;> simp only [failWith, Option.some.injEq, Prod.mk.injEq] at h <;>
    obtain ⟨-, rfl⟩ := h <;> intro a <;> simp

theorem insertFirst_payload {m m1 : Mem} {l x : Nat} {v : Int}
    (h : ListInsertFirst m l x = some (v, m1)) : SamePayload m m1 := by
  unfold ListInsertFirst at h
  split_ifs at h <;> simp only [failWith, Option.some.injEq, Prod.mk.injEq] at h <;>
    obtain ⟨-, rfl⟩ := h <;> intro a <;> simp

theorem insertLast_payload {m m1 : Mem} {l x : Nat} {v : Int}
    (h : ListInsertLast m l x = some (v, m1)) : SamePayload m m1 := by
  unfold ListInsertLast at h
  split_ifs at h <;> simp only [failWith, Option.some.injEq, Prod.mk.injEq] at h <;>
    obtain ⟨-, rfl⟩ := h <;> intro a <;> simp

theorem insertAfter_payload {m m1 : Mem} {l r x : Nat} {v : Int}
    (h : ListInsertAfter m l r x = some (v, m1)) : SamePayload m m1 := by
  unfold ListInsertAfter at h
  split_ifs at h <;> simp only [failWith, Option.some.injEq, Prod.mk.injEq] at h <;>
    obtain ⟨-, rfl⟩ := h <;> intro a <;> (try split) <;> simp

theorem insertBefore_payload {m m1 : Mem} {l r x : Nat} {v : Int}
    (h : ListInsertBefore m l r x = some (v, m1)) : SamePayload m m1 := by
  unfold ListInsertBefore at h
  split_ifs at h <;> simp only [failWith, Option.some.injEq, Prod.mk.injEq] at h <;>
    obtain ⟨-, rfl⟩ := h <;> intro a <;> (try split) <;> simp

theorem removeSides_payload {m ma mb : Mem} {l x : Nat}
    (h1 : removePrevSide m l x = some ma) (h2 : removeNextSide ma l x = some mb) :
    SamePayload m mb := by
  have e1 : SamePayload m ma := by
    simp only [removePrevSide] at h1
    split_ifs at h1 <;>
      first
      | (simp at h1; done)
      | (simp only [Option.some.injEq] at h1; subst h1; intro a; simp)
  have e2 : SamePayload ma mb := by
    simp only [removeNextSide] at h2
    split_ifs at h2 <;>
      first
      | (simp at h2; done)
      | (simp only [Option.some.injEq] at h2; subst h2; intro a; simp)
  exact e1.trans e2

theorem removeLink_payload {m m1 : Mem} {l x : Nat} {v : Int}
    (h : ListRemoveLink m l x = some (v, m1)) : SamePayload m m1 := by
  unfold ListRemoveLink at h
  split_ifs at h
  · obtain ⟨-, rfl⟩ := failWith_eq h; exact SamePayload.refl _
  · obtain ⟨-, rfl⟩ := failWith_eq h; exact SamePayload.refl _
  · obtain ⟨-, rfl⟩ := failWith_eq h; exact SamePayload.refl _
  · simp only [Option.some.injEq, Prod.mk.injEq] at h
    obtain ⟨-, rfl⟩ := h
    intro a; simp
  · cases e1 : removePrevSide m l x with
    | none => simp [e1] at h
    | some ma =>
      cases e2 : removeNextSide ma l x with
      | none => simp [e1, e2] at h
      | some mb =>
        simp only [e1, e2, Option.some.injEq, Prod.mk.injEq] at h
        obtain ⟨-, rfl⟩ := h
        have hp := removeSides_payload e1 e2
        intro a
        simpa using hp a

theorem run_payload {m m1 : Mem} {c : Call} {v : Int} (hc : c.isListOp = true)
    (h : c.run m = some (v, m1)) : SamePayload m m1 := by
  cases c with
  | linkInit a d p s => simp [Call.isListOp] at hc
  | listInit l => exact listInit_payload h
  | setMaxLinks l max => exact setMaxLinks_payload h
  | insertFirst l x => exact insertFirst_payload h
  | insertLast l x => exact insertLast_payload h
  | insertAfter l r x => exact insertAfter_payload h
  | insertBefore l r x => exact insertBefore_payload h
  | removeLink l x => exact removeLink_payload h

theorem runCalls_payload :
    ∀ (cs : List Call) (m m1 : Mem), (∀ c ∈ cs, c.isListOp = true) →
      runCalls m cs = some m1 → SamePayload m m1
  | [], m, m1, _, h => by
    simp only [runCalls, Option.some.injEq] at h
    exact h ▸ SamePayload.refl m
  | c :: cs, m, m1, hall, h => by
    cases hc : c.run m with
    | none => simp [runCalls, hc] at h
    | some p =>
      obtain ⟨v, m2⟩ := p
      simp only [runCalls, hc] at h
      exact (run_payload (hall c (List.mem_cons_self _ _)) hc).trans
        (runCalls_payload cs m2 m1 (fun d hd => hall d (List.mem_cons_of_mem _ hd)) h)

/-- C19: `ListInit`, `ListSetMaxLinks`, the four insertions and `ListRemoveLink` (the list
operations `c`) leave `pData`, `payloadSize` and `dataSize` of every link unchanged;
consequently, for a link on which `LinkInit` has passed, after any sequence of list
operations `dataSize <= payloadSize` holds and `LinkGetData`, `LinkGetPayloadSize` and
`LinkGetDataSize` return the values given to `LinkInit`. -/
theorem payload_untouched (m : Mem) (c : Call) (hc : c.isListOp = true) :
    (∀ (v : Int) (m1 : Mem), c.run m = some (v, m1) → SamePayload m m1) ∧
    (∀ (x data payloadSize dataSize : Nat) (m1 m2 : Mem) (cs : List Call),
      LinkInit m x data payloadSize dataSize = some (UDELL_PASS, m1) →
      (∀ d ∈ cs, d.isListOp = true) → runCalls m1 cs = some m2 →
      (m2.link x).dataSize ≤ (m2.link x).payloadSize ∧
      LinkGetData m2 x = (data, m2) ∧
      LinkGetPayloadSize m2 x = (payloadSize, m2) ∧
      LinkGetDataSize m2 x = (dataSize, m2)) := by
  refine ⟨fun v m1 h => run_payload hc h, ?_⟩
  intro x data ps ds m1 m2 cs hinit hall hrun
  have hp := runCalls_payload cs m1 m2 hall hrun x
  unfold LinkInit at hinit
  split_ifs at hinit with h1 h2
  · exact absurd hinit (failWith_ne_pass _ _ _)
  · exact absurd hinit (failWith_ne_pass _ _ _)
  · simp only [Option.some.injEq, Prod.mk.injEq, true_and] at hinit
    subst hinit
    simp only [Mem.pData_setList, Mem.pData_setDataSize, Mem.pData_setPayloadSize,
      Mem.pData_setData, Mem.payloadSize_setList, Mem.payloadSize_setDataSize,
      Mem.payloadSize_setPayloadSize, Mem.dataSize_setList, Mem.dataSize_setDataSize,
      if_true] at hp
    obtain ⟨e1, e2, e3⟩ := hp
    refine ⟨by rw [e2, e3]; omega, ?_, ?_, ?_⟩
    · simp only [LinkGetData, if_neg h1, e1]
    · simp only [LinkGetPayloadSize, if_neg h1, e2]
    · simp only [LinkGetDataSize, if_neg h1, e3]

/-- Witness for C19: `ListRemoveLink` of `20` from `[10, 20, 30]` keeps every payload. -/
theorem payload_untouched_witness :
    (Call.removeLink 1 20).isListOp = true ∧
    (Call.removeLink 1 20).run sampleThree
      = some (UDELL_PASS, after sampleThree (ListRemoveLink sampleThree 1 20)) ∧
    SamePayload sampleThree (after sampleThree (ListRemoveLink sampleThree 1 20)) :=
  ⟨rfl, rfl, (payload_untouched sampleThree (.removeLink 1 20) rfl).1 _ _ rfl⟩


/-! ## Insertion of a link that is already attached -/

/-- C20, as stated, fails when the new link is also the reference link: on the list `[10]`
at `1`, `ListInsertAfter(1, 10, 10)` returns pass, while in the memory that differs only in
the `pList` of link `10` (set to `UDELL_NOLIST`) the same call returns fail with
`UDELL_EBADLIST`; the same holds for `ListInsertBefore`. -/
theorem insertAfter_outcome_depends_on_owner :
    (sampleOne.link 10).pList = 1 ∧
    retOf (ListInsertAfter sampleOne 1 10 10) = UDELL_PASS ∧
    retOf (ListInsertAfter (sampleOne.setList 10 UDELL_NOLIST) 1 10 10) = UDELL_FAIL ∧
    (after (sampleOne.setList 10 UDELL_NOLIST)
      (ListInsertAfter (sampleOne.setList 10 UDELL_NOLIST) 1 10 10)).errno = UDELL_EBADLIST ∧
    retOf (ListInsertBefore sampleOne 1 10 10) = UDELL_PASS ∧
    retOf (ListInsertBefore (sampleOne.setList 10 UDELL_NOLIST) 1 10 10) = UDELL_FAIL ∧
    ¬ (retOf (ListInsertAfter (sampleOne.setList 10 UDELL_NOLIST) 1 10 10)
      = retOf (ListInsertAfter sampleOne 1 10 10)) := by
  decide

theorem insertFirst_outcome (m : Mem) (l x p n o : Nat) :
    retOf (ListInsertFirst (((m.setPrev x p).setNext x n).setList x o) l x)
      = retOf (ListInsertFirst m l x) ∧
    (after (((m.setPrev x p).setNext x n).setList x o)
        (ListInsertFirst (((m.setPrev x p).setNext x n).setList x o) l x)).errno
      = (after m (ListInsertFirst m l x)).errno := by
  simp only [ListInsertFirst, Mem.list_setList, Mem.list_setNext, Mem.list_setPrev]
  split_ifs <;> simp [retOf, failWith, after]

theorem insertLast_outcome (m : Mem) (l x p n o : Nat) :
    retOf (ListInsertLast (((m.setPrev x p).setNext x n).setList x o) l x)
      = retOf (ListInsertLast m l x) ∧
    (after (((m.setPrev x p).setNext x n).setList x o)
        (ListInsertLast (((m.setPrev x p).setNext x n).setList x o) l x)).errno
      = (after m (ListInsertLast m l x)).errno := by
  simp only [ListInsertLast, Mem.list_setList, Mem.list_setNext, Mem.list_setPrev]
  split_ifs <;> simp [retOf, failWith, after]

theorem insertAfter_outcome (m : Mem) (l r x p n o : Nat) (hrx : r ≠ x) :
    retOf (ListInsertAfter (((m.setPrev x p).setNext x n).setList x o) l r x)
      = retOf (ListInsertAfter m l r x) ∧
    (after (((m.setPrev x p).setNext x n).setList x o)
        (ListInsertAfter (((m.setPrev x p).setNext x n).setList x o) l r x)).errno
      = (after m (ListInsertAfter m l r x)).errno := by
  simp only [ListInsertAfter, Mem.list_setList, Mem.list_setNext, Mem.list_setPrev,
    Mem.pList_setList, if_neg hrx, Mem.pList_setNext, Mem.pList_setPrev]
  split_ifs <;> simp [retOf, failWith, after]

theorem insertBefore_outcome (m : Mem) (l r x p n o : Nat) (hrx : r ≠ x) :
    retOf (ListInsertBefore (((m.setPrev x p).setNext x n).setList x o) l r x)
      = retOf (ListInsertBefore m l r x) ∧
    (after (((m.setPrev x p).setNext x n).setList x o)
        (ListInsertBefore (((m.setPrev x p).setNext x n).setList x o) l r x)).errno
      = (after m (ListInsertBefore m l r x)).errno := by
  simp only [ListInsertBefore, Mem.list_setList, Mem.list_setNext, Mem.list_setPrev,
    Mem.pList_setList, if_neg hrx, Mem.pList_setNext, Mem.pList_setPrev]
  split_ifs <;> simp [retOf, failWith, after]


/-- C20, amended: the outcome (return value and `errno`) of `ListInsertFirst` and
`ListInsertLast`, and of `ListInsertAfter` and `ListInsertBefore` when the new link is not
also the reference link, does not depend on the new link's `pPrev`, `pNext` or `pList`; in
particular, on a well-formed list of unlimited capacity whose only member is `x`,
`ListInsertLast(list, x)` returns pass and leaves `pHead == pTail == x` with `len == 2`,
a memory in which the forward walk visits fewer links than `len`. -/
theorem insert_outcome_ignores_new_link (m : Mem) (l r x p n o : Nat) :
    (retOf (ListInsertFirst (((m.setPrev x p).setNext x n).setList x o) l x)
        = retOf (ListInsertFirst m l x) ∧
      (after (((m.setPrev x p).setNext x n).setList x o)
          (ListInsertFirst (((m.setPrev x p).setNext x n).setList x o) l x)).errno
        = (after m (ListInsertFirst m l x)).errno) ∧
    (retOf (ListInsertLast (((m.setPrev x p).setNext x n).setList x o) l x)
        = retOf (ListInsertLast m l x) ∧
      (after (((m.setPrev x p).setNext x n).setList x o)
          (ListInsertLast (((m.setPrev x p).setNext x n).setList x o) l x)).errno
        = (after m (ListInsertLast m l x)).errno) ∧
    (r ≠ x →
      (retOf (ListInsertAfter (((m.setPrev x p).setNext x n).setList x o) l r x)
          = retOf (ListInsertAfter m l r x) ∧
        (after (((m.setPrev x p).setNext x n).setList x o)
            (ListInsertAfter (((m.setPrev x p).setNext x n).setList x o) l r x)).errno
          = (after m (ListInsertAfter m l r x)).errno) ∧
      (retOf (ListInsertBefore (((m.setPrev x p).setNext x n).setList x o) l r x)
          = retOf (ListInsertBefore m l r x) ∧
        (after (((m.setPrev x p).setNext x n).setList x o)
            (ListInsertBefore (((m.setPrev x p).setNext x n).setList x o) l r x)).errno
          = (after m (ListInsertBefore m l r x)).errno)) ∧
    (l ≠ 0 → WellFormed m l → fwdWalk m l = [x] → (m.list l).maxLen = UDELL_NOLIMIT →
      ∃ m1, ListInsertLast m l x = some (UDELL_PASS, m1) ∧
        (m1.list l).pHead = x ∧ (m1.list l).pTail = x ∧ (m1.list l).len = 2 ∧
        fwdWalk m1 l = [x] ∧ (fwdWalk m1 l).length < (m1.list l).len) := by
  refine ⟨insertFirst_outcome m l x p n o, insertLast_outcome m l x p n o,
    fun hrx => ⟨insertAfter_outcome m l r x p n o hrx, insertBefore_outcome m l r x p n o hrx⟩,
    ?_⟩
  intro hl hwf hs hno
  have hd := hwf.dll
  rw [hs] at hd
  have hx0 : x ≠ 0 := hd.fwd.2.1
  have hhead : (m.list l).pHead = x := hd.fwd.1
  have htail : (m.list l).pTail = x := hd.bwd.1
  have hlen1 : (m.list l).len = 1 := by rw [hd.len]; rfl
  have hlen0 : (m.list l).len ≠ 0 := by rw [hlen1]; decide
  have hg : ¬ (x = 0 ∨ l = 0) := by simp [hx0, hl]
  have hcap : ¬ isFull (m.list l) := not_isFull_of_nolimit hno
  have htwo : (1 + 1) % U32 = 2 := by decide
  have hins : ListInsertLast m l x = some (UDELL_PASS,
      (((((m.setNext x x).setPrev x x).setTail l x).setNext x 0).setLen l 2).setList x l) := by
    simp only [ListInsertLast, if_neg hg, if_neg hcap, if_neg hlen0, htail, if_neg hx0,
      Mem.list_setPrev, Mem.list_setNext, Mem.len_setTail, if_true]
    rw [hlen1, htwo]
  have hw : fwdWalk ((((((m.setNext x x).setPrev x x).setTail l x).setNext x 0).setLen l
      2).setList x l) l = [x] := by
    simp [fwdWalk, walk, hhead, hx0, Mem.next]
  refine ⟨_, hins, by simp [hhead], by simp, by simp, hw, ?_⟩
  rw [hw]
  simp

/-- Witness for C20 (amended): the only member `10` of list `1` inserted once more. -/
theorem insert_outcome_ignores_new_link_witness :
    WellFormed sampleOne 1 ∧ fwdWalk sampleOne 1 = [10] ∧
    (sampleOne.list 1).maxLen = UDELL_NOLIMIT ∧
    (∃ m1, ListInsertLast sampleOne 1 10 = some (UDELL_PASS, m1) ∧
      (m1.list 1).pHead = 10 ∧ (m1.list 1).pTail = 10 ∧ (m1.list 1).len = 2 ∧
      fwdWalk m1 1 = [10] ∧ (fwdWalk m1 1).length < (m1.list 1).len) :=
  ⟨by decide, by decide, by decide,
    (insert_outcome_ignores_new_link sampleOne 1 10 10 0 0 0).2.2.2 (by decide) (by decide)
      (by decide) (by decide)⟩


/-! ## A list that fills the length counter -/

theorem bigMem_next {a : Nat} (h1 : 1 ≤ a) (h2 : a ≤ bigLen) :
    bigMem.next a = if a = bigLen then 0 else a + 1 := by
  simp [Mem.next, bigMem, h1, h2]

theorem bigMem_prev {a : Nat} (h1 : 1 ≤ a) (h2 : a ≤ bigLen) : bigMem.prev a = a - 1 := by
  simp [Mem.prev, bigMem, h1, h2]

theorem bigMem_fwd : ∀ (k c : Nat), 1 ≤ c → c + k = bigLen →
    Path bigMem.next 0 c (List.range' c (k + 1))
  | 0, c, h1, h2 => by
    have hc : c = bigLen := by omega
    refine ⟨rfl, by omega, ?_⟩
    rw [bigMem_next h1 (by omega), if_pos hc]
    rfl
  | k + 1, c, h1, h2 => by
    have hc : c ≠ bigLen := by omega
    refine ⟨rfl, by omega, ?_⟩
    rw [bigMem_next h1 (by omega), if_neg hc]
    exact bigMem_fwd k (c + 1) (by omega) (by omega)

theorem bigMem_bwd : ∀ c : Nat, c ≤ bigLen → Path bigMem.prev 0 c (List.range' 1 c).reverse
  | 0, _ => by simp [Path]
  | c + 1, h => by
    rw [List.range'_concat, List.reverse_append]
    simp only [List.reverse_cons, List.reverse_nil, List.nil_append, List.singleton_append,
      Nat.one_mul]
    refine ⟨by omega, by omega, ?_⟩
    rw [bigMem_prev (by omega) (by omega)]
    have e : 1 + c - 1 = c := by omega
    rw [e]
    exact bigMem_bwd c (by omega)

theorem bigMem_dll_of_eq (N : Nat) (hN : N = bigLen) : DLL bigMem 1 (List.range' 1 N) := by
  have hhead : (bigMem.list 1).pHead = 1 := rfl
  have htail : (bigMem.list 1).pTail = N := by rw [hN]; rfl
  have hlen : (bigMem.list 1).len = N := by rw [hN]; rfl
  have hf := bigMem_fwd (N - 1) 1 (Nat.le_refl 1) (by rw [hN]; unfold bigLen; omega)
  have e : N - 1 + 1 = N := by rw [hN]; unfold bigLen; omega
  rw [e, ← hhead] at hf
  have hb := bigMem_bwd N (Nat.le_of_eq hN)
  rw [← htail] at hb
  refine ⟨hf, ?_, List.nodup_range' 1 N 1 Nat.one_pos, ?_⟩
  · rw [htail] at hb ⊢
    exact hb
  · rw [hlen, List.length_range']

theorem bigMem_dll : DLL bigMem 1 (List.range' 1 bigLen) := bigMem_dll_of_eq bigLen rfl

theorem bigMem_wellFormed : WellFormed bigMem 1 := bigMem_dll.wellFormed

theorem bigNew_fresh : bigNew ∉ fwdWalk bigMem 1 := by
  rw [bigMem_dll.fwdWalk_eq, List.mem_range'_1]
  unfold bigNew bigLen
  omega


/-! ## Counterexamples to the claims as stated -/

/-- C2, as stated, fails for a member that does not record the list as its owner.  After
`ListInit(1)`, `ListInsertLast(1, 10)` and `LinkInit(10, ..)` the list at `1` is
well-formed with forward walk `[10]`, capacity is available and link `20` is valid and in
no list, but `ListInsertAfter(1, 10, 20)` and `ListInsertBefore(1, 10, 20)` fail with
`UDELL_EBADLIST` and leave the forward walk `[10]`. -/
theorem insertAfter_rejects_unowned_member :
    runCalls Mem.zero [.listInit 1, .insertLast 1 10, .linkInit 10 7 4 4]
      = some sampleReinit ∧
    WellFormed sampleReinit 1 ∧ fwdWalk sampleReinit 1 = [10] ∧
    20 ∉ fwdWalk sampleReinit 1 ∧ ¬ isFull (sampleReinit.list 1) ∧
    (sampleReinit.list 1).len + 1 < U32 ∧
    (sampleReinit.link 10).pList = UDELL_NOLIST ∧
    ListInsertAfter sampleReinit 1 10 20 = failWith sampleReinit UDELL_EBADLIST ∧
    ListInsertBefore sampleReinit 1 10 20 = failWith sampleReinit UDELL_EBADLIST ∧
    fwdWalk (after sampleReinit (ListInsertAfter sampleReinit 1 10 20)) 1 = [10] ∧
    fwdWalk (after sampleReinit (ListInsertBefore sampleReinit 1 10 20)) 1 = [10] ∧
    ¬ (∃ m1, ListInsertAfter sampleReinit 1 10 20 = some (UDELL_PASS, m1)) ∧
    ¬ (∃ m1, ListInsertBefore sampleReinit 1 10 20 = some (UDELL_PASS, m1)) := by
  have ha : ListInsertAfter sampleReinit 1 10 20 = failWith sampleReinit UDELL_EBADLIST := rfl
  have hb : ListInsertBefore sampleReinit 1 10 20 = failWith sampleReinit UDELL_EBADLIST :=
    rfl
  refine ⟨rfl, by decide, by decide, by decide, by decide, by decide, by decide, ha, hb,
    by decide, by decide, ?_, ?_⟩
  · rintro ⟨m1, h⟩
    rw [ha] at h
    exact failWith_ne_pass _ _ _ h
  · rintro ⟨m1, h⟩
    rw [hb] at h
    exact failWith_ne_pass _ _ _ h

/-- C3, as stated, fails for a member that does not record the list as its owner.  After
`ListInit(1)`, `ListInsertLast(1, 10)` and `LinkInit(10, ..)` the list at `1` is
well-formed with forward walk `[10]`, but `ListRemoveLink(1, 10)` fails with
`UDELL_EBADLIST`; the length stays 1 and the forward walk stays `[10]`. -/
theorem removeLink_rejects_unowned_member :
    WellFormed sampleReinit 1 ∧ fwdWalk sampleReinit 1 = [10] ∧
    10 ∈ fwdWalk sampleReinit 1 ∧ (sampleReinit.list 1).len = 1 ∧
    (sampleReinit.link 10).pList = UDELL_NOLIST ∧
    ListRemoveLink sampleReinit 1 10 = failWith sampleReinit UDELL_EBADLIST ∧
    retOf (ListRemoveLink sampleReinit 1 10) = UDELL_FAIL ∧
    ((after sampleReinit (ListRemoveLink sampleReinit 1 10)).list 1).len = 1 ∧
    fwdWalk (after sampleReinit (ListRemoveLink sampleReinit 1 10)) 1 = [10] ∧
    ¬ (∃ m1, ListRemoveLink sampleReinit 1 10 = some (UDELL_PASS, m1)) := by
  have hr : ListRemoveLink sampleReinit 1 10 = failWith sampleReinit UDELL_EBADLIST := rfl
  refine ⟨by decide, by decide, by decide, by decide, by decide, hr, by decide, by decide,
    by decide, ?_⟩
  rintro ⟨m1, h⟩
  rw [hr] at h
  exact failWith_ne_pass _ _ _ h

/-- C15, as stated, fails when the only member does not record the list as its owner.  In
the memory `sampleReinit` (list `1` holds only link `10`, on which `LinkInit` has been called
again) `ListRemoveLink(1, 10)` does not succeed: it returns fail with `UDELL_EBADLIST`,
`ListGetLen` still returns 1 and `ListGetHead` still returns link `10`. -/
theorem singleton_remove_needs_owner :
    WellFormed sampleReinit 1 ∧ fwdWalk sampleReinit 1 = [10] ∧
    retOf (ListRemoveLink sampleReinit 1 10) = UDELL_FAIL ∧
    (after sampleReinit (ListRemoveLink sampleReinit 1 10)).errno = UDELL_EBADLIST ∧
    (ListGetLen (after sampleReinit (ListRemoveLink sampleReinit 1 10)) 1).1 = 1 ∧
    (ListGetHead (after sampleReinit (ListRemoveLink sampleReinit 1 10)) 1).1 = 10 ∧
    (ListGetTail (after sampleReinit (ListRemoveLink sampleReinit 1 10)) 1).1 = 10 ∧
    ¬ (retOf (ListRemoveLink sampleReinit 1 10) = UDELL_PASS) := by
  decide

/-- C8, as stated, fails when the length counter is full.  `bigMem` holds a well-formed list
of `2^32 - 1` links with unlimited capacity; `ListInsertFirst` of the valid link `bigNew`,
which is not a member, returns pass, but `list->len += 1` wraps to 0 while `pHead` is
`bigNew`: the list is no longer well-formed. -/
theorem insertFirst_wrap_breaks_wellFormed :
    WellFormed bigMem 1 ∧ bigNew ≠ 0 ∧ bigNew ∉ fwdWalk bigMem 1 ∧
    (bigMem.list 1).len = 4294967295 ∧ (bigMem.list 1).maxLen = UDELL_NOLIMIT ∧
    retOf (ListInsertFirst bigMem 1 bigNew) = UDELL_PASS ∧
    ((after bigMem (ListInsertFirst bigMem 1 bigNew)).list 1).len = 0 ∧
    ((after bigMem (ListInsertFirst bigMem 1 bigNew)).list 1).pHead = bigNew ∧
    ¬ WellFormed (after bigMem (ListInsertFirst bigMem 1 bigNew)) 1 := by
  have h1 : ((after bigMem (ListInsertFirst bigMem 1 bigNew)).list 1).len = 0 := by decide
  have h2 : ((after bigMem (ListInsertFirst bigMem 1 bigNew)).list 1).pHead = bigNew := by
    decide
  refine ⟨bigMem_wellFormed, by decide, bigNew_fresh, by decide, by decide, by decide, h1, h2,
    ?_⟩
  intro hwf
  have h3 := hwf.1.mpr h1
  rw [h2] at h3
  exact absurd h3 (by decide)

/-- C6, as stated, fails when the length counter is full.  On the well-formed list of
`bigMem` (`2^32 - 1` links, unlimited capacity) `ListInsertFirst` of the valid link
`bigNew`, which is not a member, returns pass and wraps `len` to 0; the following
`ListRemoveLink(1, bigNew)` then fails with `UDELL_EEMPTY`, so the list is not restored. -/
theorem roundtrip_fails_at_counter_wrap :
    WellFormed bigMem 1 ∧ bigNew ≠ 0 ∧ bigNew ∉ fwdWalk bigMem 1 ∧
    retOf (ListInsertFirst bigMem 1 bigNew) = UDELL_PASS ∧
    retOf (ListRemoveLink (after bigMem (ListInsertFirst bigMem 1 bigNew)) 1 bigNew)
      = UDELL_FAIL ∧
    (after (after bigMem (ListInsertFirst bigMem 1 bigNew))
      (ListRemoveLink (after bigMem (ListInsertFirst bigMem 1 bigNew)) 1 bigNew)).errno
      = UDELL_EEMPTY ∧
    ¬ RestoredBy bigMem (after bigMem (ListInsertFirst bigMem 1 bigNew)) 1 bigNew := by
  have hr : retOf (ListRemoveLink (after bigMem (ListInsertFirst bigMem 1 bigNew)) 1 bigNew)
      = UDELL_FAIL := by decide
  refine ⟨bigMem_wellFormed, by decide, bigNew_fresh, by decide, hr, by decide, ?_⟩
  rintro ⟨m2, h, _⟩
  rw [h] at hr
  exact pass_ne_fail hr

end Udell
